import Mathlib

/-!
# Verification of the ufs directory-move / archive core

This file gives a shallow embedding of the core of the `ufs` Go library
(`Path-properties.go`, `Compress-Extract.go`, the removal helpers, and the
creation/copy helpers they call) and proves the specification claims about it.

Modelling conventions:
* Go strings are modelled as `List Char` (`GoStr`); Go byte slices as
  `List Nat`.
* The filesystem is a finite association list from absolute paths - given as
  lists of name components - to nodes (directories with a mode, or files with
  a mode and byte content).  The root directory `[]` always exists.
* Fallible OS primitives (`os.Rename`, `os.Remove`, `os.MkdirAll`,
  `os.Create`/`os.OpenFile`, `io.Copy`) are modelled with their structural
  failure conditions plus an `Env` of injected failures, so that cross-device
  rename failure, delete failure, etc. are expressible.  A failed `io.Copy`
  leaves the freshly truncated destination file behind (with no bytes
  transferred), mirroring that `os.Create` has already truncated/created it.
* `os.Stat`/`os.ReadDir` are modelled as always succeeding on the modelled
  state (the spec treats the path predicates as an external collaborator).
-/

namespace Ufs

/-- A Go string, modelled as its list of characters. -/
abbrev GoStr := List Char

/-- An absolute filesystem path, as its list of name components. -/
abbrev Path := List GoStr

/-- A filesystem node: a directory (with permission mode) or a regular file
(with permission mode and byte content). -/
inductive Node where
  | dir (mode : Nat)
  | file (mode : Nat) (content : List Nat)
deriving DecidableEq, Repr, Inhabited

/-- The filesystem: an association list from absolute paths to nodes.
The root `[]` is implicit and always a directory. -/
abbrev Fs := List (Path × Node)

/-! ## Go `path/filepath` string functions

`filepath.Clean`, `filepath.Join` and `strings.HasPrefix` as used by
`extractZipFile`'s zip-slip check.  Unix separator semantics (`/`). -/

/-- `strings.Split(s, "/")` - split a string on the `/` separator. -/
def splitSlash : GoStr → List GoStr
  | [] => [[]]
  | c :: rest =>
    if c = '/' then [] :: splitSlash rest
    else
      match splitSlash rest with
      | [] => [[c]]
      | p :: ps => (c :: p) :: ps

/-- Join components with `/` separators (`strings.Join(cs, "/")`). -/
def joinComps : List GoStr → GoStr
  | [] => []
  | [c] => c
  | c :: cs => c ++ '/' :: joinComps cs

/-- Lexical resolution of a component list, as `filepath.Clean` does:
empty components and `.` are dropped; `..` pops the previous component when
possible, is dropped at the root when `rooted`, and is kept otherwise. -/
def resolveComps (rooted : Bool) : List GoStr → List GoStr → List GoStr
  | acc, [] => acc.reverse
  | acc, c :: cs =>
    if c = [] ∨ c = ['.'] then resolveComps rooted acc cs
    else if c = ['.', '.'] then
      match acc with
      | [] => if rooted then resolveComps rooted [] cs
              else resolveComps rooted [['.', '.']] cs
      | a :: as =>
        if a = ['.', '.'] then resolveComps rooted (c :: a :: as) cs
        else resolveComps rooted as cs
    else resolveComps rooted (c :: acc) cs

/-- The resolved component list of a rooted path string: what
`filepath.Clean` leaves between the slashes. -/
def cleanComps (s : GoStr) : List GoStr :=
  resolveComps true [] (splitSlash s)

/-- Render a resolved component list as a rooted path string. -/
def renderRooted (cs : List GoStr) : GoStr :=
  '/' :: joinComps cs

/-- `filepath.Clean` (Unix rules).  A rooted path cleans to
`"/" ++ resolved components`; a relative path keeps leading `..`s and cleans
to `"."` when nothing remains. -/
def goClean (s : GoStr) : GoStr :=
  match s with
  | [] => ['.']
  | c :: _ =>
    if c = '/' then renderRooted (cleanComps s)
    else
      match resolveComps false [] (splitSlash s) with
      | [] => ['.']
      | cs => joinComps cs

/-- `filepath.Join(a, b)` - empty elements are dropped, the rest are joined
with `/` and the result is cleaned. -/
def goJoin (a b : GoStr) : GoStr :=
  if a = [] then (if b = [] then [] else goClean b)
  else if b = [] then goClean a
  else goClean (a ++ '/' :: b)

/-- `strings.HasPrefix(s, pre)`. -/
def goHasPrefix (s pre : GoStr) : Bool :=
  pre.isPrefixOf s

/-! ## Filesystem primitives -/

/-- Injected failures for the fallible OS primitives.  A `true` value means
the call succeeds whenever it is structurally possible. -/
structure Env where
  renameOK : Path → Path → Bool
  removeOK : Path → Bool
  mkdirOK : Path → Bool
  createOK : Path → Bool
  ioCopyOK : Path → Bool

/-- The environment in which every primitive succeeds when structurally
possible. -/
def Env.allOK : Env :=
  ⟨fun _ _ => true, fun _ => true, fun _ => true, fun _ => true, fun _ => true⟩

/-- Node stored at `p`, with the implicit root directory. -/
def statNode (fs : Fs) (p : Path) : Option Node :=
  if p = [] then some (Node.dir 0o755)
  else (fs.find? (fun kn => kn.1 = p)).map Prod.snd

/-- Remove the binding of `p` (if any). -/
def fsErase (fs : Fs) (p : Path) : Fs :=
  fs.filter (fun kn => kn.1 ≠ p)

/-- Bind `p` to `n`, replacing any previous binding. -/
def fsSet (fs : Fs) (p : Path) (n : Node) : Fs :=
  (p, n) :: fsErase fs p

/-- Does some entry (strictly) below directory `p` exist? -/
def hasEntryBelow (fs : Fs) (p : Path) : Bool :=
  fs.any (fun kn => p ≠ kn.1 ∧ p.isPrefixOf kn.1)

/-- The list of immediate child names of directory `p`, in the order the
association list happens to hold them (`os.ReadDir` additionally sorts; no
claim proved here depends on the order). -/
def childNames (fs : Fs) (p : Path) : List GoStr :=
  fs.filterMap (fun kn =>
    if kn.1.length = p.length + 1 ∧ p.isPrefixOf kn.1 then
      (kn.1.drop p.length).head?
    else none)

/-- All nonempty prefixes of `p`, shortest first, ending with `p` itself. -/
def ancestors (p : Path) : List Path :=
  (List.range p.length).map (fun i => p.take (i + 1))

/-- Is `p` bound to a directory (or the implicit root)? -/
def nodeIsDir (fs : Fs) (p : Path) : Bool :=
  match statNode fs p with
  | some (Node.dir _) => true
  | _ => false

/-- Is `p` bound to a regular file? -/
def nodeIsFile (fs : Fs) (p : Path) : Bool :=
  match statNode fs p with
  | some (Node.file _ _) => true
  | _ => false

/-- Byte content of the file at `p`, if any. -/
def fileContent (fs : Fs) (p : Path) : Option (List Nat) :=
  match statNode fs p with
  | some (Node.file _ c) => some c
  | _ => none

/-- Permission mode of the file at `p` (0 when absent). -/
def fileModeAt (fs : Fs) (p : Path) : Nat :=
  match statNode fs p with
  | some (Node.file m _) => m
  | _ => 0

/-- Create every missing prefix of `p` as a directory with mode `mode`. -/
def mkdirChain (fs : Fs) (p : Path) (mode : Nat) : Fs :=
  (ancestors p).foldl
    (fun acc q => if (statNode acc q).isSome then acc else fsSet acc q (Node.dir mode))
    fs

/-- `os.MkdirAll(p, mode)`.  Succeeds immediately when `p` is already a
directory; fails without mutating when some prefix of `p` exists as a file
(the conflict is hit before any directory is created, because creation
happens after the recursive parent call); otherwise creates every missing
prefix with `mode`. -/
def osMkdirAll (env : Env) (fs : Fs) (p : Path) (mode : Nat) : Fs × Bool :=
  match statNode fs p with
  | some (Node.dir _) => (fs, true)
  | some (Node.file _ _) => (fs, false)
  | none =>
    if (ancestors p).any (fun q => nodeIsFile fs q) then (fs, false)
    else if env.mkdirOK p then (mkdirChain fs p mode, true)
    else (fs, false)

/-- `os.Remove(p)`: removes a file or an empty directory. -/
def osRemove (env : Env) (fs : Fs) (p : Path) : Fs × Bool :=
  if p = [] then (fs, false)
  else
    match statNode fs p with
    | none => (fs, false)
    | some (Node.file _ _) =>
      if env.removeOK p then (fsErase fs p, true) else (fs, false)
    | some (Node.dir _) =>
      if hasEntryBelow fs p then (fs, false)
      else if env.removeOK p then (fsErase fs p, true) else (fs, false)

/-- `os.RemoveAll(p)`: removes `p` and everything below it; succeeds when
`p` does not exist. -/
def osRemoveAll (env : Env) (fs : Fs) (p : Path) : Fs × Bool :=
  if p = [] then (fs, false)
  else if (statNode fs p).isNone then (fs, true)
  else if env.removeOK p then
    (fs.filter (fun kn => ¬ p.isPrefixOf kn.1), true)
  else (fs, false)

/-- Re-root every entry at or below `src` to the corresponding path below
`dst` (any stale empty-directory binding at `dst` is dropped first). -/
def renameSubtree (fs : Fs) (src dst : Path) : Fs :=
  (fsErase fs dst).map
    (fun kn => if src.isPrefixOf kn.1 then (dst ++ kn.1.drop src.length, kn.2) else kn)

/-- `os.Rename(src, dst)`.  A file may overwrite an existing file but not a
directory; a directory may land on a missing path or an empty directory, and
never inside itself. -/
def osRename (env : Env) (fs : Fs) (src dst : Path) : Fs × Bool :=
  if src = [] ∨ dst = [] then (fs, false)
  else if ¬ env.renameOK src dst then (fs, false)
  else if ¬ nodeIsDir fs dst.dropLast then (fs, false)
  else
    match statNode fs src with
    | none => (fs, false)
    | some (Node.file _ _) =>
      if nodeIsDir fs dst then (fs, false)
      else
        match statNode fs src with
        | some n => (fsSet (fsErase fs src) dst n, true)
        | none => (fs, false)
    | some (Node.dir _) =>
      if src.isPrefixOf dst then (fs, false)
      else
        match statNode fs dst with
        | some (Node.file _ _) => (fs, false)
        | some (Node.dir _) =>
          if hasEntryBelow fs dst then (fs, false)
          else (renameSubtree fs src dst, true)
        | none => (renameSubtree fs src dst, true)

/-- `os.OpenFile(p, O_WRONLY|O_CREATE|O_TRUNC, mode)` / `os.Create` (which
fixes `mode = 0666`): truncates an existing file (keeping its mode), creates
a missing one with `mode`; fails on a directory or a missing parent. -/
def osCreateTrunc (env : Env) (fs : Fs) (p : Path) (mode : Nat) : Fs × Bool :=
  if p = [] then (fs, false)
  else if ¬ nodeIsDir fs p.dropLast then (fs, false)
  else if ¬ env.createOK p then (fs, false)
  else
    match statNode fs p with
    | some (Node.dir _) => (fs, false)
    | some (Node.file m _) => (fsSet fs p (Node.file m []), true)
    | none => (fsSet fs p (Node.file mode []), true)

/-- `io.Copy` of `content` into the just-truncated file at `dst`.  On an
injected failure no bytes are transferred and the truncated file remains. -/
def ioCopyInto (env : Env) (fs : Fs) (dst : Path) (content : List Nat) : Fs × Bool :=
  if env.ioCopyOK dst then
    (fsSet fs dst (Node.file (fileModeAt fs dst) content), true)
  else (fs, false)

/-! ## The UFS layer (`Path-properties.go`, `Creations.go`,
`file-Reader_writer.go`, the removal file) -/

/-- `UFS.PathExists`. -/
def PathExists (fs : Fs) (p : Path) : Bool :=
  (statNode fs p).isSome

/-- `UFS.IsFile`: `os.Stat` succeeds and the node is not a directory. -/
def IsFile (fs : Fs) (p : Path) : Bool :=
  nodeIsFile fs p

/-- `UFS.IsDirectory`. -/
def IsDirectory (fs : Fs) (p : Path) : Bool :=
  nodeIsDir fs p

/-- `UFS.IsDirectoryEmpty`: a directory whose `os.ReadDir` listing has zero
entries. -/
def IsDirectoryEmpty (fs : Fs) (p : Path) : Bool :=
  IsDirectory fs p && (childNames fs p).isEmpty

/-- `UFS.IsFileEmpty`: a file of zero bytes. -/
def IsFileEmpty (fs : Fs) (p : Path) : Bool :=
  IsFile fs p && ((fileContent fs p).getD [1]).isEmpty

/-- `UFS.CreateDirectory`: `os.MkdirAll(path, 0755)`. -/
def CreateDirectory (env : Env) (fs : Fs) (p : Path) : Fs × Bool :=
  osMkdirAll env fs p 0o755

/-- `UFS.RemoveFile`: declined when the path is not a file, else
`os.Remove`. -/
def RemoveFile (env : Env) (fs : Fs) (p : Path) : Fs × Bool :=
  if !IsFile fs p then (fs, false)
  else osRemove env fs p

/-- `UFS.RemoveDirectory`: declined unless the path is an empty directory,
else `os.Remove`. -/
def RemoveDirectory (env : Env) (fs : Fs) (p : Path) : Fs × Bool :=
  if !IsDirectory fs p then (fs, false)
  else if !IsDirectoryEmpty fs p then (fs, false)
  else osRemove env fs p

/-- `UFS.RemoveDirectoryRecursive`: declined when not a directory, else
`os.RemoveAll`. -/
def RemoveDirectoryRecursive (env : Env) (fs : Fs) (p : Path) : Fs × Bool :=
  if !IsDirectory fs p then (fs, false)
  else osRemoveAll env fs p

/-- `UFS.DeleteFile` (wrapper around `RemoveFile`). -/
def DeleteFile (env : Env) (fs : Fs) (p : Path) : Fs × Bool :=
  RemoveFile env fs p

/-- `UFS.DeleteDirectory` (wrapper around `RemoveDirectoryRecursive`). -/
def DeleteDirectory (env : Env) (fs : Fs) (p : Path) : Fs × Bool :=
  RemoveDirectoryRecursive env fs p

/-- `UFS.CopyFile`: source must be a file; the destination's parent is
created if missing; `os.Create(dst)` truncates, then the bytes are streamed.
The source is opened before the truncation, so the content copied is the one
visible after `os.Create` (copying a file onto itself empties it). -/
def CopyFile (env : Env) (fs : Fs) (src dst : Path) : Fs × Bool :=
  if !IsFile fs src then (fs, false)
  else
    let s1 :=
      if !IsDirectory fs dst.dropLast then osMkdirAll env fs dst.dropLast 0o755
      else (fs, true)
    if !s1.2 then (s1.1, false)
    else
      let s2 := osCreateTrunc env s1.1 dst 0o666
      if !s2.2 then (s2.1, false)
      else ioCopyInto env s2.1 dst ((fileContent s2.1 src).getD [])

/-- `UFS.copyThenDelete`: copy, then delete the source; if the delete fails
the destination is deleted again to avoid duplicates. -/
def copyThenDelete (env : Env) (fs : Fs) (src dst : Path) : Fs × Bool :=
  let c := CopyFile env fs src dst
  if !c.2 then (c.1, false)
  else
    let d := DeleteFile env c.1 src
    if !d.2 then
      let d2 := DeleteFile env d.1 dst
      (d2.1, false)
    else (d.1, true)

/-- `UFS.MoveFile`: source must be a file; destination parent created if
missing; an existing destination file is removed first; `os.Rename`, falling
back to `copyThenDelete` when the rename fails. -/
def MoveFile (env : Env) (fs : Fs) (src dst : Path) : Fs × Bool :=
  if !IsFile fs src then (fs, false)
  else
    let s1 :=
      if !IsDirectory fs dst.dropLast then CreateDirectory env fs dst.dropLast
      else (fs, true)
    if !s1.2 then (s1.1, false)
    else
      let s2 :=
        if IsFile s1.1 dst then RemoveFile env s1.1 dst
        else (s1.1, true)
      if !s2.2 then (s2.1, false)
      else
        let r := osRename env s2.1 src dst
        if r.2 then (r.1, true)
        else
          let c := copyThenDelete env r.1 src dst
          if c.2 then (c.1, true) else (c.1, false)

/-- The part of `UFS.MoveFile` after the destination-parent step, split out
so the proofs can analyse it once for both parent cases: remove an existing
destination file, rename, fall back to `copyThenDelete`. -/
def moveFileTail (env : Env) (fs1 : Fs) (src dst : Path) : Fs × Bool :=
  let s2 :=
    if IsFile fs1 dst then RemoveFile env fs1 dst
    else (fs1, true)
  if !s2.2 then (s2.1, false)
  else
    let r := osRename env s2.1 src dst
    if r.2 then (r.1, true)
    else
      let c := copyThenDelete env r.1 src dst
      if c.2 then (c.1, true) else (c.1, false)

/-- `UFS.MoveFileIfExists`: vacuous success when the source file is
missing. -/
def MoveFileIfExists (env : Env) (fs : Fs) (src dst : Path) : Fs × Bool :=
  if !IsFile fs src then (fs, true)
  else MoveFile env fs src dst

mutual

/-- `UFS.MoveDirectory` (fueled; `fuel = 0` answers failure, every mutual
call consumes one unit, and every claim supplies ample fuel for the trees
involved): try a plain rename when the destination is absent; merge into an
existing destination directory; fail on an existing destination file;
otherwise create the destination and merge. -/
def MoveDirectory (fuel : Nat) (env : Env) (fs : Fs) (src dst : Path) : Fs × Bool :=
  match fuel with
  | 0 => (fs, false)
  | f + 1 =>
    if !IsDirectory fs src then (fs, false)
    else
      let s1 :=
        if !IsDirectory fs dst.dropLast then CreateDirectory env fs dst.dropLast
        else (fs, true)
      if !s1.2 then (s1.1, false)
      else
        let r :=
          if !PathExists s1.1 dst then osRename env s1.1 src dst
          else (s1.1, false)
        if r.2 then (r.1, true)
        else if IsDirectory r.1 dst then mergeDirectories f env r.1 src dst
        else if IsFile r.1 dst then (r.1, false)
        else
          let c := CreateDirectory env r.1 dst
          if !c.2 then (c.1, false)
          else mergeDirectories f env c.1 src dst

/-- `UFS.mergeDirectories`: move every entry of `src` into `dst`
(best-effort), then `os.Remove(src)` when all succeeded. -/
def mergeDirectories (fuel : Nat) (env : Env) (fs : Fs) (src dst : Path) : Fs × Bool :=
  match fuel with
  | 0 => (fs, false)
  | f + 1 =>
    if !IsDirectory fs src then (fs, false)
    else
      let entries := (childNames fs src).map (fun n => (n, nodeIsDir fs (src ++ [n])))
      let step := mergeEntries f env fs src dst entries true
      if step.2 then
        let rem := osRemove env step.1 src
        if rem.2 then (rem.1, true) else (rem.1, false)
      else step

/-- The entry loop of `mergeDirectories`, with the per-entry kind captured
at `os.ReadDir` time. -/
def mergeEntries (fuel : Nat) (env : Env) (fs : Fs) (src dst : Path)
    (entries : List (GoStr × Bool)) (ok : Bool) : Fs × Bool :=
  match fuel with
  | 0 => (fs, false)
  | f + 1 =>
    match entries with
    | [] => (fs, ok)
    | e :: es =>
      if e.2 then
        let r := MoveDirectoryIfExists f env fs (src ++ [e.1]) (dst ++ [e.1])
        mergeEntries f env r.1 src dst es (ok && r.2)
      else
        let r := MoveFileIfExists env fs (src ++ [e.1]) (dst ++ [e.1])
        mergeEntries f env r.1 src dst es (ok && r.2)

/-- `UFS.MoveDirectoryIfExists`: vacuous success when the source directory
is missing. -/
def MoveDirectoryIfExists (fuel : Nat) (env : Env) (fs : Fs) (src dst : Path) : Fs × Bool :=
  match fuel with
  | 0 => (fs, false)
  | f + 1 =>
    if !IsDirectory fs src then (fs, true)
    else MoveDirectory f env fs src dst

end

/-- `UFS.DeleteDirectoryIfEmpty`: declined when the path is not a directory
or the directory is not empty; otherwise `RemoveDirectory` (not the
recursive variant, since the directory is known to be empty). -/
def DeleteDirectoryIfEmpty (env : Env) (fs : Fs) (p : Path) : Fs × Bool :=
  if !IsDirectory fs p then (fs, false)
  else if !IsDirectoryEmpty fs p then (fs, false)
  else RemoveDirectory env fs p

/-- The `<path>.bak` sibling: the last component with `.bak` appended. -/
def bakPath (p : Path) : Path :=
  p.dropLast ++ [(p.getLast?.getD []) ++ ['.', 'b', 'a', 'k']]

/-- `UFS.MoveWithBackup`: back an existing destination up to `<dest>.bak`
(removing a stale backup first), move the source in, restore the backup on
failure.  Returns the state, the success flag, and the reported backup path
(`none` models the empty string). -/
def MoveWithBackup (fuel : Nat) (env : Env) (fs : Fs) (src dst : Path) :
    Fs × Bool × Option Path :=
  let bp := bakPath dst
  let prep : Fs × Bool × Option Path :=
    if PathExists fs dst then
      let s1 :=
        if PathExists fs bp then
          if IsFile fs bp then RemoveFile env fs bp
          else if IsDirectory fs bp then RemoveDirectoryRecursive env fs bp
          else (fs, true)
        else (fs, true)
      if !s1.2 then (s1.1, false, none)
      else
        let s2 :=
          if IsFile s1.1 dst then MoveFile env s1.1 dst bp
          else if IsDirectory s1.1 dst then MoveDirectory fuel env s1.1 dst bp
          else (s1.1, true)
        if !s2.2 then (s2.1, false, none)
        else (s2.1, true, some bp)
    else (fs, true, none)
  if !prep.2.1 then prep
  else
    let fs1 := prep.1
    let backupPath := prep.2.2
    if IsFile fs1 src then
      let mv := MoveFile env fs1 src dst
      if !mv.2 && backupPath.isSome then
        let rest :=
          if IsFile mv.1 bp then MoveFile env mv.1 bp dst
          else if IsDirectory mv.1 bp then MoveDirectory fuel env mv.1 bp dst
          else (mv.1, true)
        (rest.1, false, none)
      else (mv.1, mv.2, backupPath)
    else if IsDirectory fs1 src then
      let mv := MoveDirectory fuel env fs1 src dst
      if !mv.2 && backupPath.isSome then
        let rest :=
          if IsFile mv.1 bp then MoveFile env mv.1 bp dst
          else if IsDirectory mv.1 bp then MoveDirectory fuel env mv.1 bp dst
          else (mv.1, true)
        (rest.1, false, none)
      else (mv.1, mv.2, backupPath)
    else (fs1, false, backupPath)

/-- The entry loop of `RemoveEmptyFiles`: `isDir` and `isEmpty` of each
entry are captured at `os.ReadDir` time; directories are skipped; empty
files are removed, counting successes and recording any failure. -/
def removeEmptyLoop (env : Env) (fs : Fs) (dir : Path)
    (entries : List (GoStr × Bool × Bool)) (ok : Bool) (count : Nat) :
    Fs × Bool × Nat :=
  match entries with
  | [] => (fs, ok, count)
  | e :: es =>
    if e.2.1 then removeEmptyLoop env fs dir es ok count
    else if e.2.2 then
      let r := RemoveFile env fs (dir ++ [e.1])
      if r.2 then removeEmptyLoop env r.1 dir es ok (count + 1)
      else removeEmptyLoop env r.1 dir es false count
    else removeEmptyLoop env fs dir es ok count

/-- `UFS.RemoveEmptyFiles`: remove every zero-byte file directly inside
`dir`, continuing past failures; reports an aggregate flag and the number of
files removed. -/
def RemoveEmptyFiles (env : Env) (fs : Fs) (dir : Path) : Fs × Bool × Nat :=
  if !IsDirectory fs dir then (fs, false, 0)
  else
    let entries := (childNames fs dir).map
      (fun n => (n, nodeIsDir fs (dir ++ [n]),
        ((fileContent fs (dir ++ [n])).getD [1]).isEmpty))
    removeEmptyLoop env fs dir entries true 0
/-- `getEsc` of `filepath.Match`: read one possibly-`\`-escaped character
of a `[...]` class.  `none` models `ErrBadPattern`: an empty remainder, a
stray `-` or `]`, a trailing escape, or nothing left after the character
(the class can then never be terminated by `]`). -/
def getEsc : GoStr → Option (Char × GoStr)
  | [] => none
  | c :: rest =>
    if c = '-' ∨ c = ']' then none
    else if c = '\\' then
      match rest with
      | [] => none
      | d :: rest2 => if rest2 = [] then none else some (d, rest2)
    else if rest = [] then none else some (c, rest)

/-- The leading-`*` elimination of `scanChunk`: whether a star was seen,
and the pattern after the stars. -/
def dropStars : GoStr → Bool × GoStr
  | [] => (false, [])
  | c :: rest =>
    if c = '*' then (true, (dropStars rest).2) else (false, c :: rest)

/-- The scan of `scanChunk`: cut the pattern at the next top-level `*` (a
star inside a `[...]` class does not end the chunk; `\` consumes the next
character). -/
def scanBody : Bool → GoStr → GoStr × GoStr
  | _, [] => ([], [])
  | inrange, c :: rest =>
    if c = '\\' then
      match rest with
      | [] => ([c], [])
      | d :: rest2 =>
        let b := scanBody inrange rest2
        (c :: d :: b.1, b.2)
    else if c = '[' then
      let b := scanBody true rest
      (c :: b.1, b.2)
    else if c = ']' then
      let b := scanBody false rest
      (c :: b.1, b.2)
    else if c = '*' ∧ ¬ inrange then ([], c :: rest)
    else
      let b := scanBody inrange rest
      (c :: b.1, b.2)
termination_by _ s => s.length

/-- `scanChunk` of `filepath.Match`: strip leading `*`s, then cut at the
next top-level `*`. -/
def scanChunk (pattern : GoStr) : Bool × GoStr × GoStr :=
  let s := dropStars pattern
  let b := scanBody false s.2
  (s.1, b.1, b.2)

/-- The range loop of `matchChunk`'s `[...]` case: parse `lo`(-`hi`)
ranges until the `]` that may close the class after at least one range,
recording whether `r` fell in any range.  Fueled; every round consumes at
least one pattern character through `getEsc`, so the caller's
`chunk.length + 1` budget never runs out. -/
def classRanges (r : Char) : Nat → GoStr → Bool → Nat → Option (Bool × GoStr)
  | 0, _, _, _ => none
  | fuel + 1, chunk, mtch, nrange =>
    if chunk.head? = some ']' ∧ 0 < nrange then some (mtch, chunk.tail)
    else
      match getEsc chunk with
      | none => none
      | some (lo, chunk1) =>
        if chunk1.head? = some '-' then
          match getEsc chunk1.tail with
          | none => none
          | some (hi, chunk2) =>
            classRanges r fuel chunk2
              (mtch || (decide (lo ≤ r) && decide (r ≤ hi))) (nrange + 1)
        else
          classRanges r fuel chunk1
            (mtch || (decide (lo ≤ r) && decide (r ≤ lo))) (nrange + 1)

/-- `matchChunk` (Go 1.16+): walk the chunk against the head of `s`; after
a failed literal match the `failed` flag is set and the walk continues, so
the rest of the chunk is still validated.  `none` models `ErrBadPattern`,
`some none` a clean non-match, `some (some t)` a match leaving `t` of the
name.  Fueled; every step consumes at least one chunk character, so the
caller's `chunk.length + 1` budget never runs out. -/
def matchChunk : Nat → GoStr → GoStr → Bool → Option (Option GoStr)
  | 0, _, _, _ => none
  | fuel + 1, chunk, s, failed =>
    match chunk with
    | [] => if failed then some none else some (some s)
    | c :: chunkRest =>
      let failed2 := failed || s.isEmpty
      if c = '[' then
        let r := if failed2 then Char.ofNat 0 else s.headD (Char.ofNat 0)
        let s2 := if failed2 then s else s.tail
        let neg : Bool × GoStr :=
          match chunkRest with
          | '^' :: t => (true, t)
          | _ => (false, chunkRest)
        match classRanges r (neg.2.length + 1) neg.2 false 0 with
        | none => none
        | some (mtch, chunk2) =>
          matchChunk fuel chunk2 s2 (failed2 || (mtch == neg.1))
      else if c = '?' then
        if failed2 then matchChunk fuel chunkRest s failed2
        else matchChunk fuel chunkRest s.tail (decide (s.headD (Char.ofNat 0) = '/'))
      else if c = '\\' then
        match chunkRest with
        | [] => none
        | d :: chunkRest2 =>
          if failed2 then matchChunk fuel chunkRest2 s failed2
          else matchChunk fuel chunkRest2 s.tail
            (decide (d ≠ s.headD (Char.ofNat 0)))
      else
        if failed2 then matchChunk fuel chunkRest s failed2
        else matchChunk fuel chunkRest s.tail (decide (c ≠ s.headD (Char.ofNat 0)))

/-- The trailing validation loop of `Match` (Go 1.16+): before a clean
non-match is returned, every remaining chunk must still be syntactically
valid.  Fueled; every round consumes at least one pattern character. -/
def validateRest : Nat → GoStr → Option Bool
  | 0, _ => none
  | fuel + 1, pat =>
    match pat with
    | [] => some false
    | _ :: _ =>
      let sc := scanChunk pat
      match matchChunk (sc.2.1.length + 1) sc.2.1 [] false with
      | none => none
      | some _ => validateRest fuel sc.2.2

mutual

/-- The chunk loop of `filepath.Match(pattern, name)` (Go 1.16+, Unix
separator): `*` matches any run of non-separator characters, `?` one
non-separator character, `[...]`/`[^...]` character classes, `\` escapes;
a malformed pattern is reported (`none` models `ErrBadPattern`) even when
the name has already failed to match.  Fueled; each `goMatchLoop` round
consumes at least one pattern character and each `starLoop` round one name
character, so the wrapper's budget of
`(pattern.length + 2) * (name.length + 2)` never runs out. -/
def goMatchLoop : Nat → GoStr → GoStr → Option Bool
  | 0, _, _ => none
  | fuel + 1, pattern, name =>
    match pattern with
    | [] => some name.isEmpty
    | _ :: _ =>
      let sc := scanChunk pattern
      if sc.1 ∧ sc.2.1 = [] then some (!name.contains '/')
      else
        match matchChunk (sc.2.1.length + 1) sc.2.1 name false with
        | none => none
        | some (some t) =>
          if t = [] ∨ sc.2.2 ≠ [] then goMatchLoop fuel sc.2.2 t
          else if sc.1 then starLoop fuel sc.2.1 sc.2.2 name
          else validateRest (sc.2.2.length + 1) sc.2.2
        | some none =>
          if sc.1 then starLoop fuel sc.2.1 sc.2.2 name
          else validateRest (sc.2.2.length + 1) sc.2.2

/-- The `*`-skip loop of `Match`: retry the chunk at each later position
of the name, never skipping past a separator; at the end of the name fall
back to the trailing validation. -/
def starLoop : Nat → GoStr → GoStr → GoStr → Option Bool
  | 0, _, _, _ => none
  | fuel + 1, chunk, rest, name =>
    match name with
    | [] => validateRest (rest.length + 1) rest
    | c :: nameRest =>
      if c = '/' then validateRest (rest.length + 1) rest
      else
        match matchChunk (chunk.length + 1) chunk nameRest false with
        | none => none
        | some (some t) =>
          if rest = [] ∧ t ≠ [] then starLoop fuel chunk rest nameRest
          else goMatchLoop fuel rest t
        | some none => starLoop fuel chunk rest nameRest

end

/-- `filepath.Match` with its sufficient fuel budget.  `none` models
`ErrBadPattern`. -/
def goMatch (pattern name : GoStr) : Option Bool :=
  goMatchLoop ((pattern.length + 2) * (name.length + 2)) pattern name

/-- The entry loop of `RemoveByPattern`: directories are skipped; a match
error marks failure and continues; matching files are removed, counting
successes. -/
def removeByPatternLoop (env : Env) (fs : Fs) (dir : Path) (pattern : GoStr)
    (entries : List (GoStr × Bool)) (ok : Bool) (count : Nat) :
    Fs × Bool × Nat :=
  match entries with
  | [] => (fs, ok, count)
  | e :: es =>
    if e.2 then removeByPatternLoop env fs dir pattern es ok count
    else
      match goMatch pattern e.1 with
      | none => removeByPatternLoop env fs dir pattern es false count
      | some false => removeByPatternLoop env fs dir pattern es ok count
      | some true =>
        let r := RemoveFile env fs (dir ++ [e.1])
        if r.2 then removeByPatternLoop env r.1 dir pattern es ok (count + 1)
        else removeByPatternLoop env r.1 dir pattern es false count

/-- `UFS.RemoveByPattern`: remove every file directly inside `dir` whose
name matches the glob pattern, continuing past failures. -/
def RemoveByPattern (env : Env) (fs : Fs) (dir : Path) (pattern : GoStr) :
    Fs × Bool × Nat :=
  if !IsDirectory fs dir then (fs, false, 0)
  else
    let entries := (childNames fs dir).map (fun n => (n, nodeIsDir fs (dir ++ [n])))
    removeByPatternLoop env fs dir pattern entries true 0

/-- The per-item outcome `removeByPatternLoop` folds over: skip
directories, a bad pattern is a failure, a non-match is a success, a match
succeeds when the removal does. -/
def patternItemOK (env : Env) (dir : Path) (pattern : GoStr) (e : GoStr × Bool) : Bool :=
  e.2 ||
    (match goMatch pattern e.1 with
     | none => false
     | some false => true
     | some true => env.removeOK (dir ++ [e.1]))

/-- Does `removeByPatternLoop` remove this item? -/
def patternItemRemoved (env : Env) (dir : Path) (pattern : GoStr) (e : GoStr × Bool) : Bool :=
  !e.2 && decide (goMatch pattern e.1 = some true) && env.removeOK (dir ++ [e.1])

mutual

/-- `UFS.copyDirectoryRecursive` (fueled like `MoveDirectory`): create the
destination, then copy every entry, recursing into subdirectories; any
per-entry failure marks the whole call failed without aborting the
remaining entries. -/
def copyDirectoryRecursive (fuel : Nat) (env : Env) (fs : Fs) (src dst : Path) :
    Fs × Bool :=
  match fuel with
  | 0 => (fs, false)
  | f + 1 =>
    let c := CreateDirectory env fs dst
    if !c.2 then (c.1, false)
    else if !IsDirectory c.1 src then (c.1, false)
    else
      let entries := (childNames c.1 src).map (fun n => (n, nodeIsDir c.1 (src ++ [n])))
      copyEntries f env c.1 src dst entries true

/-- The entry loop of `copyDirectoryRecursive`. -/
def copyEntries (fuel : Nat) (env : Env) (fs : Fs) (src dst : Path)
    (entries : List (GoStr × Bool)) (ok : Bool) : Fs × Bool :=
  match fuel with
  | 0 => (fs, false)
  | f + 1 =>
    match entries with
    | [] => (fs, ok)
    | e :: es =>
      if e.2 then
        let r := copyDirectoryRecursive f env fs (src ++ [e.1]) (dst ++ [e.1])
        copyEntries f env r.1 src dst es (ok && r.2)
      else
        let r := CopyFile env fs (src ++ [e.1]) (dst ++ [e.1])
        copyEntries f env r.1 src dst es (ok && r.2)

end

/-- The entry loop of the copier written as a plain left-to-right fold
with no early exit: every entry's step runs on the state its predecessors
left, and the flag conjoins every per-entry result.  Threads the same fuel
as `copyEntries` (the step and the continuation both receive one unit
less). -/
def copyFold (env : Env) (src dst : Path) : Nat → Fs → List (GoStr × Bool) → Fs × Bool
  | _, fs, [] => (fs, true)
  | fuel, fs, e :: es =>
    let r :=
      if e.2 then copyDirectoryRecursive (fuel - 1) env fs (src ++ [e.1]) (dst ++ [e.1])
      else CopyFile env fs (src ++ [e.1]) (dst ++ [e.1])
    let rest := copyFold env src dst (fuel - 1) r.1 es
    (rest.1, r.2 && rest.2)

/-! ## The archive layer (`Compress-Extract.go`)

The zip container itself is abstracted: `archive/zip` is trusted to
round-trip the header list, so an archive is its list of records (name
relative to the compression root, kind, mode, payload).  `filepath.Abs` is
modelled as the identity on the already-absolute paths the claims use. -/

/-- One record of a zip archive: `zip.FileHeader` name/mode plus payload. -/
structure ZipEntry where
  name : GoStr
  isDir : Bool
  mode : Nat
  content : List Nat
deriving DecidableEq, Repr

/-- The record-materialization half of `extractZipFile`, once the zip-slip
check has passed and the joined path has been resolved to `target`:
`MkdirAll(filePath, mode)` for a directory record, otherwise
`MkdirAll(Dir(filePath), 0755)` + `OpenFile(CREATE|TRUNC, mode)` +
`io.Copy`. -/
def extractTarget (env : Env) (fs : Fs) (file : ZipEntry) (target : Path) : Fs × Bool :=
  if file.isDir then
    osMkdirAll env fs target file.mode
  else
    let s1 := osMkdirAll env fs target.dropLast 0o755
    if !s1.2 then (s1.1, false)
    else
      let s2 := osCreateTrunc env s1.1 target file.mode
      if !s2.2 then (s2.1, false)
      else ioCopyInto env s2.1 target file.content

/-- `UFS.extractZipFile`: join the destination root with the record name,
reject the record unless the joined path still starts with
`Clean(dest) + "/"` (the zip-slip check), then materialize the record.  The
`Bool` is `true` when the record extracted without error. -/
def extractZipFile (env : Env) (fs : Fs) (file : ZipEntry) (destPath : GoStr) : Fs × Bool :=
  let filePath := goJoin destPath file.name
  if !goHasPrefix filePath (goClean destPath ++ ['/']) then (fs, false)
  else extractTarget env fs file (cleanComps filePath)

/-- The record loop of `ExtractArchive`: extract records in order, stopping
at (and reporting) the first failure; mutations already made remain. -/
def extractEntries (env : Env) (fs : Fs) (entries : List ZipEntry) (destPath : GoStr) :
    Fs × Bool :=
  match entries with
  | [] => (fs, true)
  | e :: es =>
    let r := extractZipFile env fs e destPath
    if !r.2 then (r.1, false)
    else extractEntries env r.1 es destPath

/-- The opening `MkdirAll` of `ExtractArchive`: ensure the destination
directory exists. -/
def archivePrep (env : Env) (fs : Fs) (dest : Path) : Fs × Bool :=
  if !IsDirectory fs dest then osMkdirAll env fs dest 0o755 else (fs, true)

/-- `UFS.ExtractArchive`: ensure the destination directory exists, then
extract every record, aborting on the first per-record error. -/
def ExtractArchive (env : Env) (fs : Fs) (entries : List ZipEntry) (dest : Path) :
    Fs × Bool :=
  if !(archivePrep env fs dest).2 then ((archivePrep env fs dest).1, false)
  else extractEntries env (archivePrep env fs dest).1 entries (renderRooted dest)

/-- Lexicographic order on strings (character lists). -/
def goStrLe : GoStr → GoStr → Bool
  | [], _ => true
  | _ :: _, [] => false
  | a :: as, b :: bs =>
    if a < b then true
    else if b < a then false
    else goStrLe as bs

/-- Lexicographic order on component paths; a proper prefix sorts before
its extensions, so a depth-first walk with sorted `ReadDir` listings visits
paths in exactly this order. -/
def pathLe : Path → Path → Bool
  | [], _ => true
  | _ :: _, [] => false
  | a :: as, b :: bs =>
    if a = b then pathLe as bs
    else goStrLe a b

/-- Insert into a `pathLe`-sorted list. -/
def insertPath (p : Path) : List Path → List Path
  | [] => [p]
  | q :: qs => if pathLe p q then p :: q :: qs else q :: insertPath p qs

/-- Insertion sort by `pathLe`. -/
def sortPaths : List Path → List Path
  | [] => []
  | p :: ps => insertPath p (sortPaths ps)

/-- The `filepath.Walk` visit order below `root` (the root itself is
visited first but `CompressDirectory` skips it): every path strictly below
`root`, in lexicographic order - parents before children. -/
def walkPaths (fs : Fs) (root : Path) : List Path :=
  sortPaths ((fs.map Prod.fst).filter (fun k => root.isPrefixOf k && k ≠ root))

/-- `UFS.CompressDirectory`: fails unless the source is a directory;
otherwise walks the tree, skipping the source root and the destination zip
path itself, and records each entry under its path relative to the source
root.  The zip container write is abstracted to the record list. -/
def CompressDirectory (fs : Fs) (source destZip : Path) : Option (List ZipEntry) :=
  if !IsDirectory fs source then none
  else some ((walkPaths fs source).filterMap (fun k =>
    if k = destZip then none
    else
      match statNode fs k with
      | some (Node.dir m) => some ⟨joinComps (k.drop source.length), true, m, []⟩
      | some (Node.file m c) => some ⟨joinComps (k.drop source.length), false, m, c⟩
      | none => none))

/-- The record `CompressDirectory` emits for the key `k` (defined whenever
`k` is bound; the `none` branch is a dummy). -/
def recOf (fs : Fs) (source : Path) (k : Path) : ZipEntry :=
  match statNode fs k with
  | some (Node.dir m) => ⟨joinComps (k.drop source.length), true, m, []⟩
  | some (Node.file m c) => ⟨joinComps (k.drop source.length), false, m, c⟩
  | none => ⟨joinComps (k.drop source.length), false, 0, []⟩

/-! ## Well-formedness -/

/-- A well-formed path component: what a real directory entry name can be
(nonempty, no separator, not `.` or `..`). -/
def WfComp (c : GoStr) : Prop :=
  c ≠ [] ∧ '/' ∉ c ∧ c ≠ ['.'] ∧ c ≠ ['.', '.']

instance : DecidablePred WfComp := fun c => by
  unfold WfComp; infer_instance

/-- A well-formed filesystem: keys are distinct nonempty paths of
well-formed components, and every proper nonempty prefix of a key is bound
to a directory. -/
def WfFs (fs : Fs) : Prop :=
  (fs.map Prod.fst).Nodup ∧
  ∀ kn ∈ fs, kn.1 ≠ [] ∧ (∀ c ∈ kn.1, WfComp c) ∧
    ∀ q ∈ ancestors kn.1.dropLast, nodeIsDir fs q = true

instance : DecidablePred WfFs := fun fs => by
  unfold WfFs; infer_instance

/-! ## Concrete witness data -/

/-- A directory `/a` holding the one-byte file `/a/f.txt`. -/
def fsW9 : Fs := [(["a".data], Node.dir 0o755), (["a".data, "f.txt".data], Node.file 0o644 [49])]

/-- The path `/a/f.txt`. -/
def pW9 : Path := ["a".data, "f.txt".data]

/-- A directory `/d` holding exactly one zero-byte file `/d/z`. -/
def fsW7a : Fs := [(["d".data], Node.dir 0o755), (["d".data, "z".data], Node.file 0o644 [])]

/-- An empty directory `/d`. -/
def fsW7b : Fs := [(["d".data], Node.dir 0o755)]

/-- An environment in which deleting `/s.txt` fails and everything else
succeeds. -/
def envW5 : Env := { Env.allOK with removeOK := fun p => decide (p ≠ ["s.txt".data]) }

/-- A lone file `/s.txt`. -/
def fsW5 : Fs := [(["s.txt".data], Node.file 0o644 [55])]

/-- The merge-conflict scenario of the spec: `src/a/x.txt` and
`dst/a/x.txt` both exist, with arbitrary modes and contents. -/
def fsW4 (m1 m2 : Nat) (c1 c2 : List Nat) : Fs :=
  [(["src".data], Node.dir 0o755),
   (["src".data, "a".data], Node.dir 0o755),
   (["src".data, "a".data, "x.txt".data], Node.file m1 c1),
   (["dst".data], Node.dir 0o755),
   (["dst".data, "a".data], Node.dir 0o755),
   (["dst".data, "a".data, "x.txt".data], Node.file m2 c2)]

/-- Files `/s` and `/d`, for the `MoveWithBackup` scenarios. -/
def fsW6 : Fs := [(["s".data], Node.file 0o644 [7]), (["d".data], Node.file 0o644 [9])]

/-- An environment in which only the backup rename `d -> d.bak` is allowed
and the destination can never be created: the move-in fails AND the restore
fails. -/
def envW6bad : Env := { Env.allOK with
  renameOK := fun s d => decide (s = ["d".data] ∧ d = bakPath ["d".data]),
  createOK := fun p => decide (p ≠ ["d".data]) }

/-- An environment in which the move-in of `/s` onto `/d` fails (rename
disallowed and the destination cannot be created) but the backup and
restore renames succeed. -/
def envW6 : Env := { Env.allOK with
  renameOK := fun s d => decide (¬ (s = ["s".data] ∧ d = ["d".data])),
  createOK := fun p => decide (p ≠ ["d".data]) }

/-- A source directory `/s` with one file, for the copier runs. -/
def fsW8a : Fs :=
  [([['s']], Node.dir 0o755), ([['s'], ['f', '1']], Node.file 0o644 [1])]

/-- A source directory `/s` with two files. -/
def fsW8b : Fs :=
  [([['s']], Node.dir 0o755), ([['s'], ['f', '1']], Node.file 0o644 [1]),
   ([['s'], ['f', '2']], Node.file 0o644 [2])]

/-- An environment in which creating the copied file `/o/f1` fails but
everything else succeeds. -/
def envW8 : Env :=
  { Env.allOK with createOK := fun p => decide (p ≠ [['o'], ['f', '1']]) }

/-- An existing destination tree `/tmp/out` for the extraction scenarios. -/
def fsW1 : Fs :=
  [(["tmp".data], Node.dir 0o755), (["tmp".data, "out".data], Node.dir 0o755)]

/-- An archive record with an absolute name. -/
def entW1 : ZipEntry := ⟨"/etc/passwd".data, false, 0o644, [7]⟩

/-- A benign record for the partial-extraction scenario. -/
def entW10a : ZipEntry := ⟨"sub/a.txt".data, false, 0o644, [1]⟩

/-- A record escaping via `..` segments. -/
def entW10b : ZipEntry := ⟨"../../evil.txt".data, false, 0o644, [2]⟩

/-- A record after the failing one, never reached. -/
def entW10c : ZipEntry := ⟨"b.txt".data, false, 0o644, [3]⟩

/-- A source tree `/s` with a nested file and an empty directory, for the
roundtrip witness. -/
def fsW2 : Fs :=
  [(["s".data], Node.dir 0o755),
   (["s".data, "d1".data], Node.dir 0o700),
   (["s".data, "d1".data, "f".data], Node.file 0o600 [9, 8]),
   (["s".data, "e".data], Node.dir 0o711)]

/-- A filesystem holding only the fresh empty destination `/o`. -/
def fsW2dst : Fs := [(["o".data], Node.dir 0o755)]

/-- The archive `CompressDirectory` produces for `fsW2`. -/
def entriesW2 : List ZipEntry :=
  [⟨"d1".data, true, 0o700, []⟩,
   ⟨"d1/f".data, false, 0o600, [9, 8]⟩,
   ⟨"e".data, true, 0o711, []⟩]

/-! ## Basic filesystem lemmas -/

theorem statNode_nil (fs : Fs) : statNode fs [] = some (Node.dir 0o755) := by
  simp [statNode]

theorem find?_eq_of_mem_nodup {fs : Fs} {p : Path} {n : Node}
    (hnd : (fs.map Prod.fst).Nodup) (hmem : (p, n) ∈ fs) :
    fs.find? (fun kn => kn.1 = p) = some (p, n) := by
  induction fs with
  | nil => simp at hmem
  | cons kn fs ih =>
    simp only [List.map_cons, List.nodup_cons] at hnd
    rcases List.mem_cons.mp hmem with h | h
    · subst h
      simp [List.find?_cons]
    · have hne : kn.1 ≠ p := by
        intro he
        exact hnd.1 (he ▸ (List.mem_map.mpr ⟨(p, n), h, rfl⟩))
      simp [List.find?_cons, hne, ih hnd.2 h]

theorem statNode_of_mem {fs : Fs} {p : Path} {n : Node}
    (hw : WfFs fs) (hmem : (p, n) ∈ fs) : statNode fs p = some n := by
  have hne : p ≠ [] := ((hw.2 _ hmem).1)
  simp [statNode, hne, find?_eq_of_mem_nodup hw.1 hmem]

theorem statNode_eq_some {fs : Fs} {p : Path} {n : Node}
    (h : statNode fs p = some n) (hp : p ≠ []) : (p, n) ∈ fs := by
  unfold statNode at h
  rw [if_neg hp] at h
  rcases hfind : fs.find? (fun kn => kn.1 = p) with _ | kn
  · rw [hfind] at h; simp at h
  · rw [hfind] at h
    simp only [Option.map_some'] at h
    have hmem := List.mem_of_find?_eq_some hfind
    have hkey := List.find?_some hfind
    simp only [decide_eq_true_eq] at hkey
    obtain ⟨k, m⟩ := kn
    simp only at h hkey
    subst hkey
    cases h
    exact hmem

theorem find?_fsErase_ne {fs : Fs} {p q : Path} (h : q ≠ p) :
    (fsErase fs p).find? (fun kn => kn.1 = q) = fs.find? (fun kn => kn.1 = q) := by
  induction fs with
  | nil => rfl
  | cons kn fs ih =>
    unfold fsErase at ih ⊢
    rw [List.filter_cons]
    by_cases hkp : kn.1 = p
    · have h1 : decide (kn.1 ≠ p) = false := by simp [hkp]
      rw [h1]
      simp only [Bool.false_eq_true, if_false]
      rw [ih, List.find?_cons]
      have h2 : decide (kn.1 = q) = false :=
        decide_eq_false_iff_not.mpr (fun he => h (he ▸ hkp))
      rw [h2]
    · have h1 : decide (kn.1 ≠ p) = true := by simp [hkp]
      rw [h1]
      simp only [if_true]
      rw [List.find?_cons, List.find?_cons]
      cases hd : decide (kn.1 = q) with
      | true => rfl
      | false => exact ih

theorem statNode_fsErase_ne (fs : Fs) {p q : Path} (h : q ≠ p) :
    statNode (fsErase fs p) q = statNode fs q := by
  by_cases hq : q = []
  · simp [statNode, hq]
  · simp only [statNode, if_neg hq]
    rw [find?_fsErase_ne h]

theorem statNode_fsErase_self (fs : Fs) {p : Path} (hp : p ≠ []) :
    statNode (fsErase fs p) p = none := by
  simp only [statNode, if_neg hp]
  have hnone : (fsErase fs p).find? (fun kn => kn.1 = p) = none := by
    apply List.find?_eq_none.mpr
    intro kn hmem
    have h2 := List.of_mem_filter hmem
    simp only [decide_eq_true_eq, Bool.not_eq_true', decide_eq_false_iff_not] at h2 ⊢
    exact h2
  rw [hnone]
  rfl

theorem isFile_iff {fs : Fs} {p : Path} :
    IsFile fs p = true ↔ ∃ m c, statNode fs p = some (Node.file m c) := by
  unfold IsFile nodeIsFile
  cases h : statNode fs p with
  | none => simp
  | some n => cases n <;> simp

theorem self_mem_ancestors {q : Path} (h : q ≠ []) : q ∈ ancestors q := by
  unfold ancestors
  apply List.mem_map.mpr
  refine ⟨q.length - 1, ?_, ?_⟩
  · have := List.length_pos.mpr h
    simp only [List.mem_range]
    omega
  · have hl : q.length - 1 + 1 = q.length := by
      have := List.length_pos.mpr h
      omega
    rw [hl, List.take_length]

theorem parent_isDir {fs : Fs} {p : Path} {n : Node}
    (hw : WfFs fs) (hmem : (p, n) ∈ fs) :
    nodeIsDir fs p.dropLast = true := by
  by_cases h : p.dropLast = []
  · rw [h]
    simp [nodeIsDir, statNode_nil]
  · exact (hw.2 _ hmem).2.2 _ (self_mem_ancestors h)

theorem dropLast_ne_self {p : Path} (h : p ≠ []) : p.dropLast ≠ p := by
  intro he
  have h1 : p.dropLast.length = p.length - 1 := List.length_dropLast p
  have h2 := List.length_pos.mpr h
  rw [he] at h1
  omega

/-- C9: `MoveFile(p, p)` on an existing file `p` reports failure and the
file is gone: the destination-overwrite step removes `p` itself, then both
the rename and the copy fallback fail on the missing source. -/
theorem C9_moveFile_self_loses_file (fs : Fs) (p : Path)
    (hw : WfFs fs) (hf : IsFile fs p = true) :
    (MoveFile Env.allOK fs p p).2 = false ∧
    statNode (MoveFile Env.allOK fs p p).1 p = none := by
  obtain ⟨m, c, hstat⟩ := isFile_iff.mp hf
  have hp : p ≠ [] := by
    intro hpe
    rw [hpe, statNode_nil] at hstat
    cases hstat
  have hmem := statNode_eq_some hstat hp
  have hdir : nodeIsDir fs p.dropLast = true := parent_isDir hw hmem
  have hne : p.dropLast ≠ p := dropLast_ne_self hp
  have hnf : nodeIsFile fs p = true := hf
  have hfe : nodeIsFile (fsErase fs p) p = false := by
    unfold nodeIsFile
    rw [statNode_fsErase_self fs hp]
  have hde : nodeIsDir (fsErase fs p) p.dropLast = true := by
    unfold nodeIsDir at hdir ⊢
    rw [statNode_fsErase_ne fs hne]
    exact hdir
  have hmain : MoveFile Env.allOK fs p p = (fsErase fs p, false) := by
    simp [MoveFile, CreateDirectory, RemoveFile, DeleteFile, copyThenDelete, CopyFile,
      IsFile, IsDirectory, osRemove, osRename, Env.allOK,
      hstat, hdir, hnf, hfe, hde, hp, hne, statNode_fsErase_self fs hp]
  rw [hmain]
  exact ⟨rfl, statNode_fsErase_self fs hp⟩

/-- Witness for C9 at the concrete tree `fsW9`. -/
theorem C9_witness :
    (MoveFile Env.allOK fsW9 pW9 pW9).2 = false ∧
    statNode (MoveFile Env.allOK fsW9 pW9 pW9).1 pW9 = none :=
  C9_moveFile_self_loses_file fsW9 pW9 (by decide) (by decide)

theorem isDir_iff {fs : Fs} {p : Path} :
    nodeIsDir fs p = true ↔ ∃ m, statNode fs p = some (Node.dir m) := by
  unfold nodeIsDir
  cases h : statNode fs p with
  | none => simp
  | some n => cases n <;> simp

theorem statNode_fsSet_self (fs : Fs) {p : Path} (n : Node) (hp : p ≠ []) :
    statNode (fsSet fs p n) p = some n := by
  simp [statNode, fsSet, List.find?_cons, hp]

theorem statNode_fsSet_ne (fs : Fs) {p q : Path} (n : Node) (h : q ≠ p) :
    statNode (fsSet fs p n) q = statNode fs q := by
  by_cases hq : q = []
  · simp [statNode, hq]
  · simp only [statNode, if_neg hq, fsSet, List.find?_cons]
    have hd : decide (p = q) = false := decide_eq_false_iff_not.mpr (fun he => h he.symm)
    rw [hd]
    rw [show ((fsErase fs p).find? fun kn => kn.1 = q) = fs.find? (fun kn => kn.1 = q)
      from find?_fsErase_ne h]

theorem childNames_ne_nil {fs : Fs} {d k : Path} {n : Node}
    (hmem : (k, n) ∈ fs) (hlen : k.length = d.length + 1) (hpre : d <+: k) :
    childNames fs d ≠ [] := by
  have hgl : k ≠ [] := by
    intro he
    rw [he] at hlen
    simp at hlen
  have hx : ∃ x, x ∈ childNames fs d := by
    have hhead : (k.drop d.length).head? = some (k.getLast hgl) := by
      have hdrop : (k.drop d.length).length = 1 := by
        rw [List.length_drop, hlen]
        omega
      match hmatch : k.drop d.length with
      | [] => rw [hmatch] at hdrop; simp at hdrop
      | [x] =>
        have hk : k = d ++ [x] := by
          have := List.prefix_iff_eq_take.mp hpre
          rw [this, ← hmatch, List.take_append_drop]
        simp [hmatch]
        subst hk
        simp [List.getLast_append]
      | x :: y :: t => rw [hmatch] at hdrop; simp at hdrop
    refine ⟨k.getLast hgl, List.mem_filterMap.mpr ⟨(k, n), hmem, ?_⟩⟩
    rw [if_pos ⟨hlen, List.isPrefixOf_iff_prefix.mpr hpre⟩]
    exact hhead
  intro hnil
  rw [hnil] at hx
  simp at hx

theorem hasEntryBelow_eq_false {fs : Fs} {d : Path}
    (hw : WfFs fs) (hempty : childNames fs d = []) :
    hasEntryBelow fs d = false := by
  unfold hasEntryBelow
  rw [List.any_eq_false]
  intro kn hmem
  simp only [Bool.not_eq_true, decide_eq_false_iff_not]
  intro hcl
  have hne2 : d ≠ kn.1 := hcl.1
  have hpre : d <+: kn.1 := List.isPrefixOf_iff_prefix.mp hcl.2
  have hlt : d.length < kn.1.length := by
    rcases lt_or_eq_of_le (List.IsPrefix.length_le hpre) with h | h
    · exact h
    · exact absurd (List.prefix_iff_eq_take.mp hpre ▸ (by rw [h, List.take_length])
        : d = kn.1) hne2
  by_cases hcase : kn.1.length = d.length + 1
  · exact childNames_ne_nil hmem hcase hpre hempty
  · -- a strictly deeper entry: its prefix of length `d.length + 1` is a
    -- directory entry of the filesystem, hence a child of `d`
    have hdeep : d.length + 1 < kn.1.length := by omega
    have hqmem : kn.1.take (d.length + 1) ∈ ancestors kn.1.dropLast := by
      unfold ancestors
      apply List.mem_map.mpr
      refine ⟨d.length, ?_, ?_⟩
      · simp only [List.mem_range, List.length_dropLast]
        omega
      · rw [List.dropLast_eq_take, List.take_take]
        congr 1
        omega
    have hqdir := (hw.2 _ hmem).2.2 _ hqmem
    obtain ⟨m, hqstat⟩ := isDir_iff.mp hqdir
    have hqlen : (kn.1.take (d.length + 1)).length = d.length + 1 := by
      rw [List.length_take]
      omega
    have hqne : kn.1.take (d.length + 1) ≠ [] := by
      intro he
      rw [he] at hqlen
      simp at hqlen
    have hqmem2 := statNode_eq_some hqstat hqne
    have hqpre : d <+: kn.1.take (d.length + 1) := by
      have htk : (kn.1.take (d.length + 1)).take d.length = d := by
        rw [List.take_take, show min d.length (d.length + 1) = d.length by omega]
        exact (List.prefix_iff_eq_take.mp hpre).symm
      exact List.prefix_iff_eq_take.mpr htk.symm
    exact childNames_ne_nil hqmem2 hqlen hqpre hempty

/-- C7: `DeleteDirectoryIfEmpty` on a directory holding exactly one
zero-byte file is declined (false) with the state untouched - emptiness is
"zero directory entries", not "zero-byte contents" - while on a directory
with zero entries it succeeds and the directory is gone. -/
theorem C7_deleteDirectoryIfEmpty (env : Env) (fs : Fs) (d : Path)
    (hw : WfFs fs) (hd : IsDirectory fs d = true) (hne : d ≠ []) :
    (∀ nm, childNames fs d = [nm] → IsFileEmpty fs (d ++ [nm]) = true →
      DeleteDirectoryIfEmpty env fs d = (fs, false)) ∧
    (childNames fs d = [] → env.removeOK d = true →
      DeleteDirectoryIfEmpty env fs d = (fsErase fs d, true) ∧
      statNode (fsErase fs d) d = none) := by
  constructor
  · intro nm hch _
    simp [DeleteDirectoryIfEmpty, IsDirectoryEmpty, hd, hch]
  · intro hch hrem
    obtain ⟨m, hstat⟩ := isDir_iff.mp hd
    have hbelow := hasEntryBelow_eq_false hw hch
    refine ⟨?_, statNode_fsErase_self fs hne⟩
    simp [DeleteDirectoryIfEmpty, RemoveDirectory, IsDirectoryEmpty, hd, hch,
      osRemove, hne, hstat, hbelow, hrem]

/-- Witness for C7: the declined case on `fsW7a` and the successful case on
`fsW7b`. -/
theorem C7_witness :
    DeleteDirectoryIfEmpty Env.allOK fsW7a ["d".data] = (fsW7a, false) ∧
    DeleteDirectoryIfEmpty Env.allOK fsW7b ["d".data] = (fsErase fsW7b ["d".data], true) :=
  ⟨(C7_deleteDirectoryIfEmpty Env.allOK fsW7a ["d".data] (by decide) (by decide)
      (by decide)).1 "z".data (by decide) (by decide),
   ((C7_deleteDirectoryIfEmpty Env.allOK fsW7b ["d".data] (by decide) (by decide)
      (by decide)).2 (by decide) (by decide)).1⟩

/-- C5 counterexample: with the copy succeeding and the source delete
failing, `copyThenDelete` reports failure but the data does NOT remain at
both locations - the code deletes the destination copy ("to avoid
duplicates"), so the destination is empty afterwards, contradicting the
claim's "data then exists at both the source and the destination". -/
theorem C5_counterexample :
    (copyThenDelete envW5 fsW5 ["s.txt".data] ["d.txt".data]).2 = false ∧
    statNode (copyThenDelete envW5 fsW5 ["s.txt".data] ["d.txt".data]).1 ["s.txt".data]
      = some (Node.file 0o644 [55]) ∧
    statNode (copyThenDelete envW5 fsW5 ["s.txt".data] ["d.txt".data]).1 ["d.txt".data]
      = none := by
  decide

/-- C5 amended: when the copy succeeds and the source delete fails,
`copyThenDelete` reports failure with the source intact; the destination
copy is then removed again (no duplicate) whenever that cleanup delete
succeeds, and data remains at both locations only when the cleanup delete
also fails. -/
theorem C5_amended (env : Env) (fs : Fs) (src dst : Path) (m : Nat) (c : List Nat)
    (hne : src ≠ dst)
    (hsrc : statNode fs src = some (Node.file m c))
    (hpar : nodeIsDir fs dst.dropLast = true)
    (hnotdir : nodeIsDir fs dst = false)
    (hdst : dst ≠ [])
    (hcr : env.createOK dst = true)
    (hio : env.ioCopyOK dst = true)
    (hdel : env.removeOK src = false) :
    (copyThenDelete env fs src dst).2 = false ∧
    statNode (copyThenDelete env fs src dst).1 src = some (Node.file m c) ∧
    (env.removeOK dst = true → statNode (copyThenDelete env fs src dst).1 dst = none) ∧
    (env.removeOK dst = false → ∃ mm, statNode (copyThenDelete env fs src dst).1 dst
      = some (Node.file mm c)) := by
  have hsne : src ≠ [] := by
    intro he
    rw [he, statNode_nil] at hsrc
    cases hsrc
  have hIsFile : IsFile fs src = true := isFile_iff.mpr ⟨m, c, hsrc⟩
  obtain ⟨m', hcre⟩ : ∃ m', osCreateTrunc env fs dst 0o666 =
      (fsSet fs dst (Node.file m' []), true) := by
    unfold osCreateTrunc
    cases hd : statNode fs dst with
    | none => exact ⟨0o666, by simp [hdst, hpar, hcr]⟩
    | some n =>
      cases n with
      | dir md =>
        have hcontra : nodeIsDir fs dst = true := by simp [nodeIsDir, hd]
        rw [hcontra] at hnotdir
        cases hnotdir
      | file mf cf => exact ⟨mf, by simp [hdst, hpar, hcr]⟩
  have hcf : CopyFile env fs src dst =
      (fsSet (fsSet fs dst (Node.file m' [])) dst (Node.file m' c), true) := by
    have hcontent : fileContent (fsSet fs dst (Node.file m' [])) src = some c := by
      unfold fileContent
      rw [statNode_fsSet_ne fs _ hne, hsrc]
    have hmode : fileModeAt (fsSet fs dst (Node.file m' [])) dst = m' := by
      unfold fileModeAt
      rw [statNode_fsSet_self fs _ hdst]
    simp [CopyFile, hIsFile, IsDirectory, hpar, hcre, ioCopyInto, hio, hmode, hcontent]
  have hsrc2 : statNode (fsSet (fsSet fs dst (Node.file m' [])) dst (Node.file m' c)) src
      = some (Node.file m c) := by
    rw [statNode_fsSet_ne _ _ hne, statNode_fsSet_ne _ _ hne, hsrc]
  have hdst2 : statNode (fsSet (fsSet fs dst (Node.file m' [])) dst (Node.file m' c)) dst
      = some (Node.file m' c) :=
    statNode_fsSet_self _ _ hdst
  have hctd : copyThenDelete env fs src dst =
      (if env.removeOK dst then
        (fsErase (fsSet (fsSet fs dst (Node.file m' [])) dst (Node.file m' c)) dst, false)
      else (fsSet (fsSet fs dst (Node.file m' [])) dst (Node.file m' c), false)) := by
    simp only [copyThenDelete, hcf]
    cases hrd : env.removeOK dst <;>
      simp [DeleteFile, RemoveFile, IsFile, nodeIsFile, hsrc2, hdst2, osRemove,
        hsne, hdst, hdel, hrd]
  rw [hctd]
  cases hrd : env.removeOK dst with
  | true =>
    rw [if_pos rfl]
    exact ⟨rfl, by rw [statNode_fsErase_ne _ hne, hsrc2],
      fun _ => statNode_fsErase_self _ hdst,
      fun hcontra => absurd hcontra (by decide)⟩
  | false =>
    rw [if_neg (by decide : ¬(false = true))]
    exact ⟨rfl, hsrc2, fun hcontra => absurd hcontra (by decide),
      fun _ => ⟨m', hdst2⟩⟩

/-- Witness for C5's amended statement, at a concrete file and failing
delete environment. -/
theorem C5_amended_witness :
    (copyThenDelete envW5 fsW5 ["s.txt".data] ["e.txt".data]).2 = false ∧
    statNode (copyThenDelete envW5 fsW5 ["s.txt".data] ["e.txt".data]).1 ["s.txt".data]
      = some (Node.file 0o644 [55]) ∧
    (envW5.removeOK ["e.txt".data] = true →
      statNode (copyThenDelete envW5 fsW5 ["s.txt".data] ["e.txt".data]).1 ["e.txt".data]
        = none) ∧
    (envW5.removeOK ["e.txt".data] = false →
      ∃ mm, statNode (copyThenDelete envW5 fsW5 ["s.txt".data] ["e.txt".data]).1
        ["e.txt".data] = some (Node.file mm [55])) :=
  C5_amended envW5 fsW5 ["s.txt".data] ["e.txt".data] 0o644 [55]
    (by decide) (by decide) (by decide) (by decide) (by decide) (by decide)
    (by decide) (by decide)

set_option maxHeartbeats 2000000 in
/-- C4: on the per-name conflict of the spec scenario the source version
replaces the destination version with no content comparison: with
`src/a/x.txt = "1"` (byte 49) and `dst/a/x.txt = "2"` (byte 50),
`MoveDirectory` succeeds, `dst/a/x.txt` reads `"1"` and the whole `src`
tree no longer exists; swapping the two contents symmetrically yields the
(other) source content, so no content ordering is consulted. -/
theorem C4_merge_source_wins :
    ((MoveDirectory 20 Env.allOK (fsW4 0o644 0o644 [49] [50]) ["src".data] ["dst".data]).2 = true ∧
     fileContent (MoveDirectory 20 Env.allOK (fsW4 0o644 0o644 [49] [50]) ["src".data] ["dst".data]).1
       ["dst".data, "a".data, "x.txt".data] = some [49] ∧
     statNode (MoveDirectory 20 Env.allOK (fsW4 0o644 0o644 [49] [50]) ["src".data] ["dst".data]).1
       ["src".data] = none ∧
     statNode (MoveDirectory 20 Env.allOK (fsW4 0o644 0o644 [49] [50]) ["src".data] ["dst".data]).1
       ["src".data, "a".data] = none ∧
     statNode (MoveDirectory 20 Env.allOK (fsW4 0o644 0o644 [49] [50]) ["src".data] ["dst".data]).1
       ["src".data, "a".data, "x.txt".data] = none) ∧
    ((MoveDirectory 20 Env.allOK (fsW4 0o644 0o644 [50] [49]) ["src".data] ["dst".data]).2 = true ∧
     fileContent (MoveDirectory 20 Env.allOK (fsW4 0o644 0o644 [50] [49]) ["src".data] ["dst".data]).1
       ["dst".data, "a".data, "x.txt".data] = some [50]) := by
  decide

/-! ## Operation characterization lemmas -/

theorem mem_ancestors_length {p q : Path} (h : q ∈ ancestors p) :
    0 < q.length ∧ q.length ≤ p.length := by
  unfold ancestors at h
  obtain ⟨i, hi, hq⟩ := List.mem_map.mp h
  rw [List.mem_range] at hi
  subst hq
  rw [List.length_take]
  omega

theorem chainFold_preserve_some {q : Path} {n : Node} (mode : Nat) :
    ∀ (l : List Path) (fs : Fs), statNode fs q = some n →
    statNode (l.foldl
      (fun acc r => if (statNode acc r).isSome then acc else fsSet acc r (Node.dir mode)) fs)
      q = some n := by
  intro l
  induction l with
  | nil => intro fs h; exact h
  | cons a l ih =>
    intro fs h
    rw [List.foldl_cons]
    apply ih
    by_cases ha : (statNode fs a).isSome
    · rw [if_pos ha]; exact h
    · rw [if_neg ha]
      by_cases hqa : q = a
      · subst hqa; rw [h] at ha; simp at ha
      · rw [statNode_fsSet_ne _ _ hqa]; exact h

theorem chainFold_preserve_notmem {q : Path} (mode : Nat) :
    ∀ (l : List Path) (fs : Fs), q ∉ l →
    statNode (l.foldl
      (fun acc r => if (statNode acc r).isSome then acc else fsSet acc r (Node.dir mode)) fs)
      q = statNode fs q := by
  intro l
  induction l with
  | nil => intro fs _; rfl
  | cons a l ih =>
    intro fs h
    have hqa : q ≠ a := fun he => h (he ▸ List.mem_cons_self a l)
    have hql : q ∉ l := fun hm => h (List.mem_cons_of_mem a hm)
    rw [List.foldl_cons, ih _ hql]
    by_cases ha : (statNode fs a).isSome
    · rw [if_pos ha]
    · rw [if_neg ha, statNode_fsSet_ne _ _ hqa]

theorem mkdirChain_preserve_some {fs : Fs} {q : Path} {n : Node} (p : Path) (mode : Nat)
    (h : statNode fs q = some n) : statNode (mkdirChain fs p mode) q = some n :=
  chainFold_preserve_some mode (ancestors p) fs h

theorem mkdirChain_preserve_notmem {fs : Fs} {q : Path} (p : Path) (mode : Nat)
    (h : q ∉ ancestors p) : statNode (mkdirChain fs p mode) q = statNode fs q :=
  chainFold_preserve_notmem mode (ancestors p) fs h

theorem ancestors_dropLast_append {p : Path} (h : p ≠ []) :
    ancestors p = ancestors p.dropLast ++ [p] := by
  unfold ancestors
  have hpos := List.length_pos.mpr h
  have hlen : p.length = p.dropLast.length + 1 := by
    rw [List.length_dropLast]
    omega
  rw [hlen, List.range_succ, List.map_append]
  congr 1
  · apply List.map_congr_left
    intro i hi
    rw [List.mem_range] at hi
    rw [List.dropLast_eq_take, List.take_take]
    congr 1
    omega
  · simp only [List.map_cons, List.map_nil, List.length_dropLast]
    have h2 : p.length - 1 + 1 = p.length := by omega
    rw [h2, List.take_length]

theorem mkdirChain_isDir_self {fs : Fs} {p : Path} (mode : Nat)
    (hnone : statNode fs p = none) (hp : p ≠ []) :
    statNode (mkdirChain fs p mode) p = some (Node.dir mode) := by
  unfold mkdirChain
  rw [ancestors_dropLast_append hp, List.foldl_append, List.foldl_cons, List.foldl_nil]
  have hnm : p ∉ ancestors p.dropLast := by
    intro hm
    have hl := mem_ancestors_length hm
    rw [List.length_dropLast] at hl
    have := List.length_pos.mpr hp
    omega
  have hstill := chainFold_preserve_notmem mode (ancestors p.dropLast) fs hnm
  rw [hnone] at hstill
  rw [if_neg (by rw [hstill]; simp)]
  exact statNode_fsSet_self _ _ hp

theorem osMkdirAll_fail_eq {env : Env} {fs : Fs} {p : Path} {m : Nat}
    (h : (osMkdirAll env fs p m).2 = false) : (osMkdirAll env fs p m).1 = fs := by
  unfold osMkdirAll at h ⊢
  cases hs : statNode fs p with
  | some n =>
    cases n with
    | dir md => rw [hs] at h
    | file mf cf => simp [hs]
  | none =>
    simp only [hs] at h ⊢
    by_cases hany : ((ancestors p).any fun q => nodeIsFile fs q) = true
    · rw [if_pos hany]
    · rw [if_neg hany] at h ⊢
      by_cases hmk : env.mkdirOK p = true
      · rw [if_pos hmk] at h; simp at h
      · rw [if_neg hmk]

theorem osMkdirAll_cases (env : Env) (fs : Fs) (p : Path) (m : Nat) :
    (osMkdirAll env fs p m).1 = fs ∨
    (osMkdirAll env fs p m) = (mkdirChain fs p m, true) ∧ statNode fs p = none := by
  unfold osMkdirAll
  cases hs : statNode fs p with
  | some n => cases n <;> simp [hs]
  | none =>
    simp only [hs]
    by_cases hany : ((ancestors p).any fun q => nodeIsFile fs q) = true
    · rw [if_pos hany]; left; rfl
    · rw [if_neg hany]
      by_cases hmk : env.mkdirOK p = true
      · rw [if_pos hmk]; right; exact ⟨rfl, trivial⟩
      · rw [if_neg hmk]; left; rfl

theorem osMkdirAll_success_isDir {env : Env} {fs : Fs} {p : Path} {m : Nat}
    (h : (osMkdirAll env fs p m).2 = true) (hp : p ≠ []) :
    nodeIsDir (osMkdirAll env fs p m).1 p = true := by
  unfold osMkdirAll at h ⊢
  cases hs : statNode fs p with
  | some n =>
    cases n with
    | dir md => simp [nodeIsDir, hs]
    | file mf cf => rw [hs] at h; simp at h
  | none =>
    simp only [hs] at h ⊢
    by_cases hany : ((ancestors p).any fun q => nodeIsFile fs q) = true
    · rw [if_pos hany] at h; simp at h
    · rw [if_neg hany] at h ⊢
      by_cases hmk : env.mkdirOK p = true
      · rw [if_pos hmk]
        simp [nodeIsDir, mkdirChain_isDir_self m hs hp]
      · rw [if_neg hmk] at h; simp at h

theorem osRemove_fail_eq {env : Env} {fs : Fs} {p : Path}
    (h : (osRemove env fs p).2 = false) : (osRemove env fs p).1 = fs := by
  unfold osRemove at h ⊢
  by_cases hp : p = []
  · rw [if_pos hp]
  · rw [if_neg hp] at h ⊢
    cases hs : statNode fs p with
    | none => simp only [hs]
    | some n =>
      cases n with
      | dir md =>
        simp only [hs] at h ⊢
        by_cases hb : hasEntryBelow fs p = true
        · rw [if_pos hb]
        · rw [if_neg hb] at h ⊢
          by_cases hr : env.removeOK p = true
          · rw [if_pos hr] at h; simp at h
          · rw [if_neg hr]
      | file mf cf =>
        simp only [hs] at h ⊢
        by_cases hr : env.removeOK p = true
        · rw [if_pos hr] at h; simp at h
        · rw [if_neg hr]

theorem osRemove_success_eq {env : Env} {fs : Fs} {p : Path}
    (h : (osRemove env fs p).2 = true) : (osRemove env fs p).1 = fsErase fs p := by
  unfold osRemove at h ⊢
  by_cases hp : p = []
  · rw [if_pos hp] at h; simp at h
  · rw [if_neg hp] at h ⊢
    cases hs : statNode fs p with
    | none => rw [hs] at h; simp at h
    | some n =>
      cases n with
      | dir md =>
        simp only [hs] at h ⊢
        by_cases hb : hasEntryBelow fs p = true
        · rw [if_pos hb] at h; simp at h
        · rw [if_neg hb] at h ⊢
          by_cases hr : env.removeOK p = true
          · rw [if_pos hr]
          · rw [if_neg hr] at h; simp at h
      | file mf cf =>
        simp only [hs] at h ⊢
        by_cases hr : env.removeOK p = true
        · rw [if_pos hr]
        · rw [if_neg hr] at h; simp at h

theorem osCreateTrunc_fail_eq {env : Env} {fs : Fs} {p : Path} {m : Nat}
    (h : (osCreateTrunc env fs p m).2 = false) : (osCreateTrunc env fs p m).1 = fs := by
  unfold osCreateTrunc at h ⊢
  by_cases hp : p = []
  · rw [if_pos hp]
  · rw [if_neg hp] at h ⊢
    by_cases hd : ¬ nodeIsDir fs p.dropLast = true
    · rw [if_pos hd]
    · rw [if_neg hd] at h ⊢
      by_cases hc : ¬ env.createOK p = true
      · rw [if_pos hc]
      · rw [if_neg hc] at h ⊢
        cases hs : statNode fs p with
        | none => rw [hs] at h; simp at h
        | some n =>
          cases n with
          | dir md => simp only [hs]
          | file mf cf => rw [hs] at h; simp at h

theorem osCreateTrunc_success {env : Env} {fs : Fs} {p : Path} {m : Nat}
    (h : (osCreateTrunc env fs p m).2 = true) :
    p ≠ [] ∧ ∃ m2, osCreateTrunc env fs p m = (fsSet fs p (Node.file m2 []), true) := by
  unfold osCreateTrunc at h ⊢
  by_cases hp : p = []
  · rw [if_pos hp] at h; simp at h
  · rw [if_neg hp] at h ⊢
    refine ⟨hp, ?_⟩
    by_cases hd : ¬ nodeIsDir fs p.dropLast = true
    · rw [if_pos hd] at h; simp at h
    · rw [if_neg hd] at h ⊢
      by_cases hc : ¬ env.createOK p = true
      · rw [if_pos hc] at h; simp at h
      · rw [if_neg hc] at h ⊢
        cases hs : statNode fs p with
        | none => simp only [hs]; exact ⟨m, rfl⟩
        | some n =>
          cases n with
          | dir md => rw [hs] at h; simp at h
          | file mf cf => simp only [hs]; exact ⟨mf, rfl⟩

theorem osRename_fail_eq {env : Env} {fs : Fs} {src dst : Path}
    (h : (osRename env fs src dst).2 = false) : (osRename env fs src dst).1 = fs := by
  unfold osRename at h ⊢
  by_cases h0 : src = [] ∨ dst = []
  · rw [if_pos h0]
  · rw [if_neg h0] at h ⊢
    by_cases h1 : ¬ env.renameOK src dst = true
    · rw [if_pos h1]
    · rw [if_neg h1] at h ⊢
      by_cases h2 : ¬ nodeIsDir fs dst.dropLast = true
      · rw [if_pos h2]
      · rw [if_neg h2] at h ⊢
        cases hs : statNode fs src with
        | none => simp only [hs]
        | some n =>
          cases n with
          | file mf cf =>
            simp only [hs] at h ⊢
            by_cases h3 : nodeIsDir fs dst = true
            · rw [if_pos h3]
            · rw [if_neg h3] at h
              simp at h
          | dir md =>
            simp only [hs] at h ⊢
            by_cases h4 : src.isPrefixOf dst = true
            · rw [if_pos h4]
            · rw [if_neg h4] at h ⊢
              cases hd : statNode fs dst with
              | none => rw [hd] at h; simp at h
              | some nd =>
                cases nd with
                | file mf2 cf2 => simp only [hd]
                | dir md2 =>
                  simp only [hd] at h ⊢
                  by_cases h5 : hasEntryBelow fs dst = true
                  · rw [if_pos h5]
                  · rw [if_neg h5] at h; simp at h

theorem osRename_file_success {env : Env} {fs : Fs} {src dst : Path} {m : Nat} {c : List Nat}
    (hs : statNode fs src = some (Node.file m c))
    (h : (osRename env fs src dst).2 = true) :
    osRename env fs src dst = (fsSet (fsErase fs src) dst (Node.file m c), true) := by
  unfold osRename at h ⊢
  by_cases h0 : src = [] ∨ dst = []
  · rw [if_pos h0] at h; simp at h
  · rw [if_neg h0] at h ⊢
    by_cases h1 : ¬ env.renameOK src dst = true
    · rw [if_pos h1] at h; simp at h
    · rw [if_neg h1] at h ⊢
      by_cases h2 : ¬ nodeIsDir fs dst.dropLast = true
      · rw [if_pos h2] at h; simp at h
      · rw [if_neg h2] at h ⊢
        simp only [hs] at h ⊢
        by_cases h3 : nodeIsDir fs dst = true
        · rw [if_pos h3] at h; simp at h
        · rw [if_neg h3]

theorem not_mem_ancestors_dropLast (p : Path) : p ∉ ancestors p.dropLast := by
  intro hm
  have h := mem_ancestors_length hm
  rw [List.length_dropLast] at h
  omega

theorem osMkdirAll_preserve_some {env : Env} {fs : Fs} {q : Path} {n : Node} (p : Path)
    (m : Nat) (h : statNode fs q = some n) :
    statNode (osMkdirAll env fs p m).1 q = some n := by
  rcases osMkdirAll_cases env fs p m with hc | ⟨hc, _⟩
  · rw [hc]; exact h
  · rw [hc]; exact mkdirChain_preserve_some p m h

theorem osMkdirAll_parent_preserve {env : Env} {fs : Fs} (dst : Path) (m : Nat) :
    statNode (osMkdirAll env fs dst.dropLast m).1 dst = statNode fs dst := by
  rcases osMkdirAll_cases env fs dst.dropLast m with hc | ⟨hc, _⟩
  · rw [hc]
  · rw [hc]
    exact mkdirChain_preserve_notmem _ m (not_mem_ancestors_dropLast dst)

theorem copyFile_analysis (env : Env) (fs : Fs) {src dst : Path} {m : Nat} {c : List Nat}
    (hne : src ≠ dst) (hio : env.ioCopyOK dst = true)
    (hsrc : statNode fs src = some (Node.file m c)) :
    ((CopyFile env fs src dst).2 = false →
      statNode (CopyFile env fs src dst).1 src = statNode fs src ∧
      statNode (CopyFile env fs src dst).1 dst = statNode fs dst) ∧
    ((CopyFile env fs src dst).2 = true →
      dst ≠ [] ∧ ∃ m2, statNode (CopyFile env fs src dst).1 src = some (Node.file m c) ∧
        statNode (CopyFile env fs src dst).1 dst = some (Node.file m2 c)) := by
  have hf : IsFile fs src = true := isFile_iff.mpr ⟨m, c, hsrc⟩
  simp only [CopyFile, hf, Bool.not_true, Bool.false_eq_true, if_false]
  by_cases hd : IsDirectory fs dst.dropLast = true
  case pos =>
    simp only [hd, Bool.not_true, Bool.false_eq_true, if_false]
    by_cases hcr : (osCreateTrunc env fs dst 0o666).2 = true
    case neg =>
      have hb : (osCreateTrunc env fs dst 0o666).2 = false := by
        cases hx : (osCreateTrunc env fs dst 0o666).2
        · rfl
        · exact absurd hx hcr
      rw [osCreateTrunc_fail_eq hb]
      simp only [hb, Bool.not_false, if_true]
      exact ⟨fun _ => ⟨trivial, trivial⟩, fun hcontra => by simp at hcontra⟩
    case pos =>
      obtain ⟨hdne, m2, hcreq⟩ := osCreateTrunc_success hcr
      rw [hcreq]
      simp only [Bool.not_true, Bool.false_eq_true, if_false, ioCopyInto, hio, if_true]
      have hsrc2 : statNode (fsSet fs dst (Node.file m2 [])) src = some (Node.file m c) := by
        rw [statNode_fsSet_ne _ _ hne]; exact hsrc
      have hcont : fileContent (fsSet fs dst (Node.file m2 [])) src = some c := by
        unfold fileContent; rw [hsrc2]
      have hmode : fileModeAt (fsSet fs dst (Node.file m2 [])) dst = m2 := by
        unfold fileModeAt; rw [statNode_fsSet_self _ _ hdne]
      rw [hcont, hmode]
      constructor
      · intro hcontra; simp at hcontra
      · intro _
        refine ⟨hdne, m2, ?_, ?_⟩
        · rw [statNode_fsSet_ne _ _ hne]; exact hsrc2
        · simp [statNode_fsSet_self _ _ hdne]
  case neg =>
    have hd2 : IsDirectory fs dst.dropLast = false := by
      cases hx : IsDirectory fs dst.dropLast
      · rfl
      · exact absurd hx hd
    simp only [hd2, Bool.not_false, if_true]
    by_cases hmk : (osMkdirAll env fs dst.dropLast 0o755).2 = true
    case neg =>
      have hb : (osMkdirAll env fs dst.dropLast 0o755).2 = false := by
        cases hx : (osMkdirAll env fs dst.dropLast 0o755).2
        · rfl
        · exact absurd hx hmk
      rw [osMkdirAll_fail_eq hb]
      simp only [hb, Bool.not_false, if_true]
      exact ⟨fun _ => ⟨trivial, trivial⟩, fun hcontra => by simp at hcontra⟩
    case pos =>
      simp only [hmk, Bool.not_true, Bool.false_eq_true, if_false]
      have hsrc1 : statNode (osMkdirAll env fs dst.dropLast 0o755).1 src
          = some (Node.file m c) := osMkdirAll_preserve_some _ _ hsrc
      have hdst1 : statNode (osMkdirAll env fs dst.dropLast 0o755).1 dst
          = statNode fs dst := osMkdirAll_parent_preserve _ _
      by_cases hcr : (osCreateTrunc env (osMkdirAll env fs dst.dropLast 0o755).1 dst 0o666).2
          = true
      case neg =>
        have hb : (osCreateTrunc env (osMkdirAll env fs dst.dropLast 0o755).1 dst 0o666).2
            = false := by
          cases hx : (osCreateTrunc env (osMkdirAll env fs dst.dropLast 0o755).1 dst 0o666).2
          · rfl
          · exact absurd hx hcr
        rw [osCreateTrunc_fail_eq hb]
        simp only [hb, Bool.not_false, if_true]
        exact ⟨fun _ => ⟨hsrc1.trans hsrc.symm, hdst1⟩,
          fun hcontra => by simp at hcontra⟩
      case pos =>
        obtain ⟨hdne, m2, hcreq⟩ := osCreateTrunc_success hcr
        rw [hcreq]
        simp only [Bool.not_true, Bool.false_eq_true, if_false, ioCopyInto, hio, if_true]
        have hsrc2 : statNode (fsSet (osMkdirAll env fs dst.dropLast 0o755).1 dst
            (Node.file m2 [])) src = some (Node.file m c) := by
          rw [statNode_fsSet_ne _ _ hne]; exact hsrc1
        have hcont : fileContent (fsSet (osMkdirAll env fs dst.dropLast 0o755).1 dst
            (Node.file m2 [])) src = some c := by
          unfold fileContent; rw [hsrc2]
        have hmode : fileModeAt (fsSet (osMkdirAll env fs dst.dropLast 0o755).1 dst
            (Node.file m2 [])) dst = m2 := by
          unfold fileModeAt; rw [statNode_fsSet_self _ _ hdne]
        rw [hcont, hmode]
        constructor
        · intro hcontra; simp at hcontra
        · intro _
          refine ⟨hdne, m2, ?_, ?_⟩
          · rw [statNode_fsSet_ne _ _ hne]; exact hsrc2
          · simp [statNode_fsSet_self _ _ hdne]

theorem osRename_success_ne {env : Env} {fs : Fs} {src dst : Path}
    (h : (osRename env fs src dst).2 = true) : src ≠ [] ∧ dst ≠ [] := by
  unfold osRename at h
  by_cases h0 : src = [] ∨ dst = []
  · rw [if_pos h0] at h; simp at h
  · push_neg at h0
    exact h0

theorem copyThenDelete_analysis (env : Env) (fs : Fs) {src dst : Path} {m : Nat}
    {c : List Nat} (hne : src ≠ dst) (hio : env.ioCopyOK dst = true)
    (hsrc : statNode fs src = some (Node.file m c)) :
    ((copyThenDelete env fs src dst).2 = true →
      statNode (copyThenDelete env fs src dst).1 src = none ∧
      ∃ m2, statNode (copyThenDelete env fs src dst).1 dst = some (Node.file m2 c)) ∧
    ((copyThenDelete env fs src dst).2 = false →
      statNode (copyThenDelete env fs src dst).1 src = some (Node.file m c) ∧
      (statNode (copyThenDelete env fs src dst).1 dst = statNode fs dst ∨
       statNode (copyThenDelete env fs src dst).1 dst = none ∨
       env.removeOK dst = false ∧
         ∃ m2, statNode (copyThenDelete env fs src dst).1 dst = some (Node.file m2 c))) := by
  have hsne : src ≠ [] := by
    intro he
    rw [he, statNode_nil] at hsrc
    cases hsrc
  obtain ⟨hfail, hsucc⟩ := copyFile_analysis env fs hne hio hsrc
  unfold copyThenDelete
  by_cases hc : (CopyFile env fs src dst).2 = true
  case neg =>
    have hb : (CopyFile env fs src dst).2 = false := by
      cases hx : (CopyFile env fs src dst).2
      · rfl
      · exact absurd hx hc
    obtain ⟨h1, h2⟩ := hfail hb
    simp only [hb, Bool.not_false, if_true]
    exact ⟨fun hcontra => by simp at hcontra,
      fun _ => ⟨h1.trans hsrc, Or.inl h2⟩⟩
  case pos =>
    obtain ⟨hdne, m2, hs2, hd2⟩ := hsucc hc
    simp only [hc, Bool.not_true, Bool.false_eq_true, if_false]
    have hIsF : IsFile (CopyFile env fs src dst).1 src = true := isFile_iff.mpr ⟨m, c, hs2⟩
    by_cases hrs : env.removeOK src = true
    case pos =>
      have hdel : DeleteFile env (CopyFile env fs src dst).1 src
          = (fsErase (CopyFile env fs src dst).1 src, true) := by
        simp [DeleteFile, RemoveFile, hIsF, osRemove, hsne, hs2, hrs]
      rw [hdel]
      simp only [Bool.not_true, Bool.false_eq_true, if_false]
      refine ⟨fun _ => ⟨statNode_fsErase_self _ hsne, m2, ?_⟩,
        fun hcontra => by simp at hcontra⟩
      rw [statNode_fsErase_ne _ (fun he => hne he.symm)]
      exact hd2
    case neg =>
      have hrs2 : env.removeOK src = false := by
        cases hx : env.removeOK src
        · rfl
        · exact absurd hx hrs
      have hdel : DeleteFile env (CopyFile env fs src dst).1 src
          = ((CopyFile env fs src dst).1, false) := by
        simp [DeleteFile, RemoveFile, hIsF, osRemove, hsne, hs2, hrs2]
      rw [hdel]
      simp only [Bool.not_false, if_true]
      have hIsFd : IsFile (CopyFile env fs src dst).1 dst = true := isFile_iff.mpr ⟨m2, c, hd2⟩
      by_cases hrd : env.removeOK dst = true
      case pos =>
        have hdel2 : DeleteFile env (CopyFile env fs src dst).1 dst
            = (fsErase (CopyFile env fs src dst).1 dst, true) := by
          simp [DeleteFile, RemoveFile, hIsFd, osRemove, hdne, hd2, hrd]
        rw [hdel2]
        refine ⟨fun hcontra => by simp at hcontra, fun _ => ⟨?_, Or.inr (Or.inl ?_)⟩⟩
        · rw [statNode_fsErase_ne _ hne]
          exact hs2
        · exact statNode_fsErase_self _ hdne
      case neg =>
        have hrd2 : env.removeOK dst = false := by
          cases hx : env.removeOK dst
          · rfl
          · exact absurd hx hrd
        have hdel2 : DeleteFile env (CopyFile env fs src dst).1 dst
            = ((CopyFile env fs src dst).1, false) := by
          simp [DeleteFile, RemoveFile, hIsFd, osRemove, hdne, hd2, hrd2]
        rw [hdel2]
        exact ⟨fun hcontra => by simp at hcontra,
          fun _ => ⟨hs2, Or.inr (Or.inr ⟨hrd2, m2, hd2⟩)⟩⟩

theorem moveFileTail_analysis (env : Env) (fs1 fs : Fs) {src dst : Path} {m : Nat}
    {c : List Nat} (hne : src ≠ dst) (hio : env.ioCopyOK dst = true)
    (hsrc1 : statNode fs1 src = some (Node.file m c))
    (hdst1 : statNode fs1 dst = statNode fs dst) :
    ((moveFileTail env fs1 src dst).2 = true →
      statNode (moveFileTail env fs1 src dst).1 src = none ∧
      ∃ m2, statNode (moveFileTail env fs1 src dst).1 dst = some (Node.file m2 c)) ∧
    ((moveFileTail env fs1 src dst).2 = false →
      statNode (moveFileTail env fs1 src dst).1 src = some (Node.file m c) ∧
      (statNode (moveFileTail env fs1 src dst).1 dst = statNode fs dst ∨
       statNode (moveFileTail env fs1 src dst).1 dst = none ∨
       env.removeOK dst = false ∧
         ∃ m2, statNode (moveFileTail env fs1 src dst).1 dst = some (Node.file m2 c))) := by
  have hsne : src ≠ [] := by
    intro he
    rw [he, statNode_nil] at hsrc1
    cases hsrc1
  -- step 2: the destination-overwrite removal, ending in a state `fs2`
  -- with the source still the same file and the destination either
  -- untouched or erased
  have hstep : ∀ fs2 : Fs, statNode fs2 src = some (Node.file m c) →
      (statNode fs2 dst = statNode fs dst ∨ statNode fs2 dst = none) →
      ((let r := osRename env fs2 src dst
        if r.2 then (r.1, true)
        else
          let c := copyThenDelete env r.1 src dst
          if c.2 then (c.1, true) else (c.1, false)).2 = true →
        statNode (let r := osRename env fs2 src dst
          if r.2 then (r.1, true)
          else
            let c := copyThenDelete env r.1 src dst
            if c.2 then (c.1, true) else (c.1, false)).1 src = none ∧
        ∃ m2, statNode (let r := osRename env fs2 src dst
          if r.2 then (r.1, true)
          else
            let c := copyThenDelete env r.1 src dst
            if c.2 then (c.1, true) else (c.1, false)).1 dst = some (Node.file m2 c)) ∧
      ((let r := osRename env fs2 src dst
        if r.2 then (r.1, true)
        else
          let c := copyThenDelete env r.1 src dst
          if c.2 then (c.1, true) else (c.1, false)).2 = false →
        statNode (let r := osRename env fs2 src dst
          if r.2 then (r.1, true)
          else
            let c := copyThenDelete env r.1 src dst
            if c.2 then (c.1, true) else (c.1, false)).1 src = some (Node.file m c) ∧
        (statNode (let r := osRename env fs2 src dst
          if r.2 then (r.1, true)
          else
            let c := copyThenDelete env r.1 src dst
            if c.2 then (c.1, true) else (c.1, false)).1 dst = statNode fs dst ∨
         statNode (let r := osRename env fs2 src dst
          if r.2 then (r.1, true)
          else
            let c := copyThenDelete env r.1 src dst
            if c.2 then (c.1, true) else (c.1, false)).1 dst = none ∨
         env.removeOK dst = false ∧
           ∃ m2, statNode (let r := osRename env fs2 src dst
            if r.2 then (r.1, true)
            else
              let c := copyThenDelete env r.1 src dst
              if c.2 then (c.1, true) else (c.1, false)).1 dst = some (Node.file m2 c))) := by
    intro fs2 hsrc2 hdst2
    by_cases hr : (osRename env fs2 src dst).2 = true
    case pos =>
      have hren := osRename_file_success hsrc2 hr
      have hdne : dst ≠ [] := (osRename_success_ne hr).2
      simp only [hren, if_true]
      refine ⟨fun _ => ⟨?_, m, ?_⟩, fun hcontra => by simp at hcontra⟩
      · rw [statNode_fsSet_ne _ _ hne]
        exact statNode_fsErase_self _ hsne
      · exact statNode_fsSet_self _ _ hdne
    case neg =>
      have hb : (osRename env fs2 src dst).2 = false := by
        cases hx : (osRename env fs2 src dst).2
        · rfl
        · exact absurd hx hr
      have hreq := osRename_fail_eq hb
      obtain ⟨hA, hB⟩ := copyThenDelete_analysis env fs2 hne hio hsrc2
      simp only [hb, Bool.false_eq_true, if_false, hreq]
      by_cases hc : (copyThenDelete env fs2 src dst).2 = true
      case pos =>
        obtain ⟨h1, m2, h2⟩ := hA hc
        simp only [hc, if_true]
        exact ⟨fun _ => ⟨h1, m2, h2⟩, fun hcontra => by simp at hcontra⟩
      case neg =>
        have hcb : (copyThenDelete env fs2 src dst).2 = false := by
          cases hx : (copyThenDelete env fs2 src dst).2
          · rfl
          · exact absurd hx hc
        obtain ⟨h1, h2⟩ := hB hcb
        simp only [hcb, Bool.false_eq_true, if_false]
        refine ⟨fun hcontra => by simp at hcontra, fun _ => ⟨h1, ?_⟩⟩
        rcases h2 with h2 | h2 | ⟨hrd, m2, h2⟩
        · rcases hdst2 with hd | hd
          · exact Or.inl (h2.trans hd)
          · exact Or.inr (Or.inl (h2.trans hd))
        · exact Or.inr (Or.inl h2)
        · exact Or.inr (Or.inr ⟨hrd, m2, h2⟩)
  unfold moveFileTail
  by_cases hdf : IsFile fs1 dst = true
  case pos =>
    obtain ⟨md, cd, hdstat⟩ := isFile_iff.mp hdf
    have hdne : dst ≠ [] := by
      intro he
      rw [he, statNode_nil] at hdstat
      cases hdstat
    by_cases hrd : env.removeOK dst = true
    case pos =>
      have hrem : RemoveFile env fs1 dst = (fsErase fs1 dst, true) := by
        simp [RemoveFile, hdf, osRemove, hdne, hdstat, hrd]
      simp only [hdf, if_true, hrem, Bool.not_true, Bool.false_eq_true, if_false]
      exact hstep (fsErase fs1 dst)
        (by rw [statNode_fsErase_ne _ hne]; exact hsrc1)
        (Or.inr (statNode_fsErase_self _ hdne))
    case neg =>
      have hrd2 : env.removeOK dst = false := by
        cases hx : env.removeOK dst
        · rfl
        · exact absurd hx hrd
      have hrem : RemoveFile env fs1 dst = (fs1, false) := by
        simp [RemoveFile, hdf, osRemove, hdne, hdstat, hrd2]
      simp only [hdf, if_true, hrem, Bool.not_false]
      exact ⟨fun hcontra => by simp at hcontra,
        fun _ => ⟨hsrc1, Or.inl hdst1⟩⟩
  case neg =>
    have hdf2 : IsFile fs1 dst = false := by
      cases hx : IsFile fs1 dst
      · rfl
      · exact absurd hx hdf
    simp only [hdf2, Bool.false_eq_true, if_false, Bool.not_true]
    exact hstep fs1 hsrc1 (Or.inl hdst1)

/-- C3 counterexample: at `src = dst = /a/f.txt` (an existing file),
`MoveFile` reports failure yet the original file is destroyed - neither of
the claim's two permitted outcomes (moved exactly once, or source untouched
with nothing created), and not the documented duplicate-risk exception. -/
theorem C3_counterexample :
    statNode fsW9 pW9 = some (Node.file 0o644 [49]) ∧
    (MoveFile Env.allOK fsW9 pW9 pW9).2 = false ∧
    statNode (MoveFile Env.allOK fsW9 pW9 pW9).1 pW9 = none := by
  decide

/-- Full success/failure analysis of `MoveFile` for distinct source and
destination paths when `io.Copy` itself does not fail mid-stream. -/
theorem moveFile_analysis (env : Env) (fs : Fs) (src dst : Path)
    (hne : src ≠ dst) (hio : env.ioCopyOK dst = true) :
    ((MoveFile env fs src dst).2 = true →
      ∃ m c, statNode fs src = some (Node.file m c) ∧
        statNode (MoveFile env fs src dst).1 src = none ∧
        ∃ m2, statNode (MoveFile env fs src dst).1 dst = some (Node.file m2 c)) ∧
    ((MoveFile env fs src dst).2 = false →
      statNode (MoveFile env fs src dst).1 src = statNode fs src ∧
      (statNode (MoveFile env fs src dst).1 dst = statNode fs dst ∨
       statNode (MoveFile env fs src dst).1 dst = none ∨
       env.removeOK dst = false ∧
         ∃ m c m2, statNode fs src = some (Node.file m c) ∧
           statNode (MoveFile env fs src dst).1 dst = some (Node.file m2 c))) := by
  by_cases hf : IsFile fs src = true
  case neg =>
    have hf2 : IsFile fs src = false := by
      cases hx : IsFile fs src
      · rfl
      · exact absurd hx hf
    simp only [MoveFile, hf2, Bool.not_false, if_true]
    exact ⟨fun hcontra => by simp at hcontra, fun _ => ⟨trivial, Or.inl trivial⟩⟩
  case pos =>
    obtain ⟨m, c, hsrc⟩ := isFile_iff.mp hf
    by_cases hd : IsDirectory fs dst.dropLast = true
    case pos =>
      have heq : MoveFile env fs src dst = moveFileTail env fs src dst := by
        simp only [MoveFile, moveFileTail, hf, hd, Bool.not_true, Bool.false_eq_true,
          if_false]
      obtain ⟨hA, hB⟩ := moveFileTail_analysis env fs fs hne hio hsrc rfl
      rw [heq]
      constructor
      · intro ht
        obtain ⟨h1, m2, h2⟩ := hA ht
        exact ⟨m, c, hsrc, h1, m2, h2⟩
      · intro hfl
        obtain ⟨h1, h2⟩ := hB hfl
        refine ⟨h1.trans hsrc.symm, ?_⟩
        rcases h2 with h2 | h2 | ⟨hrd, m2, h2⟩
        · exact Or.inl h2
        · exact Or.inr (Or.inl h2)
        · exact Or.inr (Or.inr ⟨hrd, m, c, m2, hsrc, h2⟩)
    case neg =>
      have hd2 : IsDirectory fs dst.dropLast = false := by
        cases hx : IsDirectory fs dst.dropLast
        · rfl
        · exact absurd hx hd
      by_cases hm : (osMkdirAll env fs dst.dropLast 0o755).2 = true
      case pos =>
        have heq : MoveFile env fs src dst
            = moveFileTail env (osMkdirAll env fs dst.dropLast 0o755).1 src dst := by
          simp only [MoveFile, moveFileTail, CreateDirectory, hf, hd2, hm,
            Bool.not_true, Bool.not_false, Bool.false_eq_true, if_false, if_true]
        obtain ⟨hA, hB⟩ := moveFileTail_analysis env (osMkdirAll env fs dst.dropLast 0o755).1
          fs hne hio (osMkdirAll_preserve_some _ _ hsrc) (osMkdirAll_parent_preserve _ _)
        rw [heq]
        constructor
        · intro ht
          obtain ⟨h1, m2, h2⟩ := hA ht
          exact ⟨m, c, hsrc, h1, m2, h2⟩
        · intro hfl
          obtain ⟨h1, h2⟩ := hB hfl
          refine ⟨h1.trans hsrc.symm, ?_⟩
          rcases h2 with h2 | h2 | ⟨hrd, m2, h2⟩
          · exact Or.inl h2
          · exact Or.inr (Or.inl h2)
          · exact Or.inr (Or.inr ⟨hrd, m, c, m2, hsrc, h2⟩)
      case neg =>
        have hmf : (osMkdirAll env fs dst.dropLast 0o755).2 = false := by
          cases hx : (osMkdirAll env fs dst.dropLast 0o755).2
          · rfl
          · exact absurd hx hm
        have heq : MoveFile env fs src dst = ((osMkdirAll env fs dst.dropLast 0o755).1, false) := by
          simp only [MoveFile, CreateDirectory, hf, hd2, hmf, Bool.not_true, Bool.not_false,
            Bool.false_eq_true, if_false, if_true]
        rw [heq, osMkdirAll_fail_eq hmf]
        exact ⟨fun hcontra => by simp at hcontra, fun _ => ⟨rfl, Or.inl rfl⟩⟩

/-- C3 amended: for distinct source and destination paths, and provided no
I/O error interrupts the byte copy itself (`io.Copy` succeeds whenever the
destination was created), `MoveFile` either succeeds - the source's bytes
sit at the destination and the source is gone - or fails with the source
binding unchanged and the destination either untouched, removed (the
overwrite-removal may already have happened), or - the single documented
duplicate exception - holding a copy of the source's bytes. -/
theorem C3_amended (env : Env) (fs : Fs) (src dst : Path)
    (hne : src ≠ dst) (hio : env.ioCopyOK dst = true) :
    ((MoveFile env fs src dst).2 = true →
      ∃ m c, statNode fs src = some (Node.file m c) ∧
        statNode (MoveFile env fs src dst).1 src = none ∧
        ∃ m2, statNode (MoveFile env fs src dst).1 dst = some (Node.file m2 c)) ∧
    ((MoveFile env fs src dst).2 = false →
      statNode (MoveFile env fs src dst).1 src = statNode fs src ∧
      (statNode (MoveFile env fs src dst).1 dst = statNode fs dst ∨
       statNode (MoveFile env fs src dst).1 dst = none ∨
       env.removeOK dst = false ∧
         ∃ m c m2, statNode fs src = some (Node.file m c) ∧
           statNode (MoveFile env fs src dst).1 dst = some (Node.file m2 c))) :=
  moveFile_analysis env fs src dst hne hio

/-- Witness for C3's amended statement: moving `/a/f.txt` to `/b.txt` in
the all-success environment. -/
theorem C3_amended_witness :
    ((MoveFile Env.allOK fsW9 pW9 ["b.txt".data]).2 = true →
      ∃ m c, statNode fsW9 pW9 = some (Node.file m c) ∧
        statNode (MoveFile Env.allOK fsW9 pW9 ["b.txt".data]).1 pW9 = none ∧
        ∃ m2, statNode (MoveFile Env.allOK fsW9 pW9 ["b.txt".data]).1 ["b.txt".data]
          = some (Node.file m2 c)) ∧
    ((MoveFile Env.allOK fsW9 pW9 ["b.txt".data]).2 = false →
      statNode (MoveFile Env.allOK fsW9 pW9 ["b.txt".data]).1 pW9 = statNode fsW9 pW9 ∧
      (statNode (MoveFile Env.allOK fsW9 pW9 ["b.txt".data]).1 ["b.txt".data]
         = statNode fsW9 ["b.txt".data] ∨
       statNode (MoveFile Env.allOK fsW9 pW9 ["b.txt".data]).1 ["b.txt".data] = none ∨
       Env.allOK.removeOK ["b.txt".data] = false ∧
         ∃ m c m2, statNode fsW9 pW9 = some (Node.file m c) ∧
           statNode (MoveFile Env.allOK fsW9 pW9 ["b.txt".data]).1 ["b.txt".data]
             = some (Node.file m2 c))) :=
  C3_amended Env.allOK fsW9 pW9 ["b.txt".data] (by decide) (by decide)

/-! ## Frame lemmas and `bakPath` facts -/

theorem bakPath_dropLast (p : Path) : (bakPath p).dropLast = p.dropLast := by
  unfold bakPath
  rw [List.dropLast_concat]

theorem bakPath_ne_nil (p : Path) : bakPath p ≠ [] := by
  unfold bakPath
  simp

theorem bakPath_getLast? (p : Path) :
    (bakPath p).getLast? = some ((p.getLast?.getD []) ++ ['.', 'b', 'a', 'k']) := by
  unfold bakPath
  rw [List.getLast?_concat]

theorem bakPath_ne_self (p : Path) : bakPath p ≠ p := by
  intro he
  cases hp : p.getLast? with
  | none =>
    rw [List.getLast?_eq_none_iff] at hp
    subst hp
    exact bakPath_ne_nil [] he
  | some l =>
    have h1 := bakPath_getLast? p
    rw [he, hp] at h1
    simp only [Option.getD_some, Option.some.injEq] at h1
    have := congrArg List.length h1
    simp at this

theorem osRename_src_none {env : Env} {fs : Fs} {src dst : Path}
    (hs : statNode fs src = none) : osRename env fs src dst = (fs, false) := by
  unfold osRename
  by_cases h0 : src = [] ∨ dst = []
  · rw [if_pos h0]
  · rw [if_neg h0]
    by_cases h1 : ¬ env.renameOK src dst = true
    · rw [if_pos h1]
    · rw [if_neg h1]
      by_cases h2 : ¬ nodeIsDir fs dst.dropLast = true
      · rw [if_pos h2]
      · rw [if_neg h2]
        simp only [hs]

theorem osRename_file_frame {env : Env} {fs : Fs} {src dst q : Path} {m : Nat}
    {c : List Nat} (hsrc : statNode fs src = some (Node.file m c))
    (hq1 : q ≠ src) (hq2 : q ≠ dst) :
    statNode (osRename env fs src dst).1 q = statNode fs q := by
  by_cases hr : (osRename env fs src dst).2 = true
  · rw [osRename_file_success hsrc hr]
    rw [statNode_fsSet_ne _ _ hq2, statNode_fsErase_ne _ hq1]
  · have hb : (osRename env fs src dst).2 = false := by
      cases hx : (osRename env fs src dst).2
      · rfl
      · exact absurd hx hr
    rw [osRename_fail_eq hb]

theorem osRemove_frame {env : Env} {fs : Fs} {p q : Path} (hq : q ≠ p) :
    statNode (osRemove env fs p).1 q = statNode fs q := by
  by_cases hr : (osRemove env fs p).2 = true
  · rw [osRemove_success_eq hr, statNode_fsErase_ne _ hq]
  · have hb : (osRemove env fs p).2 = false := by
      cases hx : (osRemove env fs p).2
      · rfl
      · exact absurd hx hr
    rw [osRemove_fail_eq hb]

theorem osCreateTrunc_frame {env : Env} {fs : Fs} {p q : Path} {m : Nat} (hq : q ≠ p) :
    statNode (osCreateTrunc env fs p m).1 q = statNode fs q := by
  by_cases hr : (osCreateTrunc env fs p m).2 = true
  · obtain ⟨_, m2, heq⟩ := osCreateTrunc_success hr
    rw [heq, statNode_fsSet_ne _ _ hq]
  · have hb : (osCreateTrunc env fs p m).2 = false := by
      cases hx : (osCreateTrunc env fs p m).2
      · rfl
      · exact absurd hx hr
    rw [osCreateTrunc_fail_eq hb]

theorem ioCopyInto_frame {env : Env} {fs : Fs} {dst q : Path} {c : List Nat} (hq : q ≠ dst) :
    statNode (ioCopyInto env fs dst c).1 q = statNode fs q := by
  unfold ioCopyInto
  by_cases hio : env.ioCopyOK dst = true
  · rw [if_pos hio]
    exact statNode_fsSet_ne _ _ hq
  · rw [if_neg hio]

theorem copyFile_frame_pd {env : Env} {fs : Fs} {src dst q : Path}
    (hpd : nodeIsDir fs dst.dropLast = true) (hq : q ≠ dst) :
    statNode (CopyFile env fs src dst).1 q = statNode fs q := by
  unfold CopyFile
  by_cases hf : (!IsFile fs src) = true
  · rw [if_pos hf]
  · rw [if_neg hf]
    have hpd2 : (!IsDirectory fs dst.dropLast) = false := by
      simp [IsDirectory, hpd]
    simp only [hpd2, Bool.false_eq_true, if_false]
    by_cases hcr : (osCreateTrunc env fs dst 0o666).2 = true
    · simp only [hcr, Bool.not_true, Bool.false_eq_true, if_false]
      rw [ioCopyInto_frame hq, osCreateTrunc_frame hq]
    · have hb : (osCreateTrunc env fs dst 0o666).2 = false := by
        cases hx : (osCreateTrunc env fs dst 0o666).2
        · rfl
        · exact absurd hx hcr
      simp only [hb, Bool.not_false, if_true]
      exact osCreateTrunc_frame hq

theorem copyThenDelete_frame_pd {env : Env} {fs : Fs} {src dst q : Path}
    (hpd : nodeIsDir fs dst.dropLast = true) (hq1 : q ≠ src) (hq2 : q ≠ dst) :
    statNode (copyThenDelete env fs src dst).1 q = statNode fs q := by
  unfold copyThenDelete
  by_cases hc : (CopyFile env fs src dst).2 = true
  · simp only [hc, Bool.not_true, Bool.false_eq_true, if_false]
    have hcf := @copyFile_frame_pd env _ src _ _ hpd hq2
    by_cases hd : (DeleteFile env (CopyFile env fs src dst).1 src).2 = true
    · simp only [hd, Bool.not_true, Bool.false_eq_true, if_false]
      unfold DeleteFile RemoveFile at hd ⊢
      by_cases hif : (!IsFile (CopyFile env fs src dst).1 src) = true
      · rw [if_pos hif] at hd; simp at hd
      · rw [if_neg hif] at hd ⊢
        rw [osRemove_frame hq1, hcf]
    · have hb : (DeleteFile env (CopyFile env fs src dst).1 src).2 = false := by
        cases hx : (DeleteFile env (CopyFile env fs src dst).1 src).2
        · rfl
        · exact absurd hx hd
      simp only [hb, Bool.not_false, if_true]
      have hfd : (DeleteFile env (CopyFile env fs src dst).1 src).1
          = (CopyFile env fs src dst).1 := by
        unfold DeleteFile RemoveFile at hb ⊢
        by_cases hif : (!IsFile (CopyFile env fs src dst).1 src) = true
        · rw [if_pos hif]
        · rw [if_neg hif] at hb ⊢
          exact osRemove_fail_eq hb
      rw [hfd]
      unfold DeleteFile RemoveFile
      by_cases hif2 : (!IsFile (CopyFile env fs src dst).1 dst) = true
      · rw [if_pos hif2]
        exact hcf
      · rw [if_neg hif2]
        rw [osRemove_frame hq2, hcf]
  · have hb : (CopyFile env fs src dst).2 = false := by
      cases hx : (CopyFile env fs src dst).2
      · rfl
      · exact absurd hx hc
    simp only [hb, Bool.not_false, if_true]
    exact copyFile_frame_pd hpd hq2

theorem removeFile_success_eq {env : Env} {fs : Fs} {p : Path}
    (h : (RemoveFile env fs p).2 = true) : (RemoveFile env fs p).1 = fsErase fs p := by
  unfold RemoveFile at h ⊢
  by_cases hf : (!IsFile fs p) = true
  · rw [if_pos hf] at h; simp at h
  · rw [if_neg hf] at h ⊢
    exact osRemove_success_eq h

theorem removeFile_fail_eq {env : Env} {fs : Fs} {p : Path}
    (h : (RemoveFile env fs p).2 = false) : (RemoveFile env fs p).1 = fs := by
  unfold RemoveFile at h ⊢
  by_cases hf : (!IsFile fs p) = true
  · rw [if_pos hf]
  · rw [if_neg hf] at h ⊢
    exact osRemove_fail_eq h

theorem moveFile_frame_pd {env : Env} {fs : Fs} {src dst q : Path}
    (hpd : nodeIsDir fs dst.dropLast = true) (hq1 : q ≠ src) (hq2 : q ≠ dst) :
    statNode (MoveFile env fs src dst).1 q = statNode fs q := by
  by_cases hf : IsFile fs src = true
  case neg =>
    have hf2 : IsFile fs src = false := by
      cases hx : IsFile fs src
      · rfl
      · exact absurd hx hf
    simp only [MoveFile, hf2, Bool.not_false, if_true]
  case pos =>
    obtain ⟨m, c, hsrc⟩ := isFile_iff.mp hf
    have heq : MoveFile env fs src dst = moveFileTail env fs src dst := by
      simp only [MoveFile, moveFileTail, hf, show IsDirectory fs dst.dropLast = true from hpd,
        Bool.not_true, Bool.false_eq_true, if_false]
    rw [heq]
    have htail : ∀ fs2 : Fs, nodeIsDir fs2 dst.dropLast = true →
        (statNode fs2 src = some (Node.file m c) ∨ statNode fs2 src = none) →
        statNode (let r := osRename env fs2 src dst
          if r.2 then (r.1, true)
          else
            let c := copyThenDelete env r.1 src dst
            if c.2 then (c.1, true) else (c.1, false)).1 q = statNode fs2 q := by
      intro fs2 hpd2 hsrc2
      by_cases hr : (osRename env fs2 src dst).2 = true
      case pos =>
        rcases hsrc2 with hs2 | hs2
        · have hren := osRename_file_success hs2 hr
          simp only [hren, if_true]
          rw [statNode_fsSet_ne _ _ hq2, statNode_fsErase_ne _ hq1]
        · rw [osRename_src_none hs2] at hr
          simp at hr
      case neg =>
        have hb : (osRename env fs2 src dst).2 = false := by
          cases hx : (osRename env fs2 src dst).2
          · rfl
          · exact absurd hx hr
        simp only [hb, Bool.false_eq_true, if_false, osRename_fail_eq hb]
        have hctd := @copyThenDelete_frame_pd env _ _ _ _ hpd2 hq1 hq2
        by_cases hc : (copyThenDelete env fs2 src dst).2 = true
        · simp only [hc, if_true]
          exact hctd
        · have hcb : (copyThenDelete env fs2 src dst).2 = false := by
            cases hx : (copyThenDelete env fs2 src dst).2
            · rfl
            · exact absurd hx hc
          simp only [hcb, Bool.false_eq_true, if_false]
          exact hctd
    unfold moveFileTail
    by_cases hdf : IsFile fs dst = true
    case pos =>
      by_cases hrem : (RemoveFile env fs dst).2 = true
      case pos =>
        have hrw := removeFile_success_eq hrem
        simp only [hdf, if_true, hrem, Bool.not_true, Bool.false_eq_true, if_false, hrw]
        have hpd3 : nodeIsDir (fsErase fs dst) dst.dropLast = true := by
          unfold nodeIsDir at hpd ⊢
          rw [statNode_fsErase_ne _ (by
            intro he
            have := congrArg List.length he
            rw [List.length_dropLast] at this
            have hdne : dst ≠ [] := by
              intro h0
              rw [h0] at hdf
              simp [IsFile, nodeIsFile, statNode] at hdf
            have := List.length_pos.mpr hdne
            omega)]
          exact hpd
        have hs3 : statNode (fsErase fs dst) src = some (Node.file m c) ∨
            statNode (fsErase fs dst) src = none := by
          by_cases hsd : src = dst
          · right
            rw [hsd]
            apply statNode_fsErase_self
            intro h0
            rw [h0] at hdf
            simp [IsFile, nodeIsFile, statNode] at hdf
          · left
            rw [statNode_fsErase_ne _ hsd]
            exact hsrc
        rw [htail _ hpd3 hs3, statNode_fsErase_ne _ hq2]
      case neg =>
        have hrb : (RemoveFile env fs dst).2 = false := by
          cases hx : (RemoveFile env fs dst).2
          · rfl
          · exact absurd hx hrem
        simp only [hdf, if_true, hrb, Bool.not_false, if_true, removeFile_fail_eq hrb]
    case neg =>
      have hdf2 : IsFile fs dst = false := by
        cases hx : IsFile fs dst
        · rfl
        · exact absurd hx hdf
      simp only [hdf2, Bool.false_eq_true, if_false, Bool.not_true]
      exact htail fs hpd (Or.inl hsrc)

theorem moveFile_rename_path (env : Env) (fs : Fs) {src dst : Path} {m : Nat} {c : List Nat}
    (hsrc : statNode fs src = some (Node.file m c))
    (hpar : nodeIsDir fs dst.dropLast = true)
    (hdnf : IsFile fs dst = false)
    (hdnd : nodeIsDir fs dst = false)
    (hdne : dst ≠ [])
    (hrok : env.renameOK src dst = true) :
    MoveFile env fs src dst = (fsSet (fsErase fs src) dst (Node.file m c), true) := by
  have hsne : src ≠ [] := by
    intro he
    rw [he, statNode_nil] at hsrc
    cases hsrc
  have hf : IsFile fs src = true := isFile_iff.mpr ⟨m, c, hsrc⟩
  have hrn : osRename env fs src dst = (fsSet (fsErase fs src) dst (Node.file m c), true) := by
    unfold osRename
    rw [if_neg (by push_neg; exact ⟨hsne, hdne⟩)]
    rw [if_neg (by simp [hrok])]
    rw [if_neg (by simp [hpar])]
    simp only [hsrc]
    rw [if_neg (by simp [hdnd])]
  simp only [MoveFile, hf, Bool.not_true, Bool.false_eq_true, if_false,
    show IsDirectory fs dst.dropLast = true from hpar, hdnf, if_true, Bool.not_false,
    hrn]

theorem bakPath_length (p : Path) : (bakPath p).length = p.dropLast.length + 1 := by
  unfold bakPath
  rw [List.length_append]
  rfl

/-- C6 counterexample: when the restore step itself fails (here neither the
rename back nor a re-creation of the destination is possible), the original
destination content is NOT restored - the destination is simply absent
afterwards - although the function does report failure.  The claim's
unconditional "the original destination content is restored exactly" is
therefore false. -/
theorem C6_counterexample :
    statNode fsW6 ["d".data] = some (Node.file 0o644 [9]) ∧
    (MoveWithBackup 5 envW6bad fsW6 ["s".data] ["d".data]).2.1 = false ∧
    statNode (MoveWithBackup 5 envW6bad fsW6 ["s".data] ["d".data]).1 ["d".data] = none := by
  decide

/-- C6 amended: starting from files at `src` and `dst`, no stale backup,
and an environment in which the backup rename, the restore rename, and the
destination-cleanup delete succeed, `MoveWithBackup` first moves `dst` to
`dst.bak`; then if the move-in of `src` succeeds the call returns success
together with the backup path, and if the move-in fails the original
destination node is restored exactly at `dst` and the call reports failure
(with an empty backup path). -/
theorem C6_amended (fuel : Nat) (env : Env) (fs : Fs) (src dst : Path) (ms md : Nat)
    (cs cd : List Nat)
    (hsrc : statNode fs src = some (Node.file ms cs))
    (hdst : statNode fs dst = some (Node.file md cd))
    (hbp : statNode fs (bakPath dst) = none)
    (hpar : nodeIsDir fs dst.dropLast = true)
    (hne : src ≠ dst)
    (hnsbp : src ≠ bakPath dst)
    (hrb : env.renameOK dst (bakPath dst) = true)
    (hrr : env.renameOK (bakPath dst) dst = true)
    (hremd : env.removeOK dst = true)
    (hio : env.ioCopyOK dst = true) :
    ((MoveFile env (fsSet (fsErase fs dst) (bakPath dst) (Node.file md cd)) src dst).2 = true →
      MoveWithBackup fuel env fs src dst
        = ((MoveFile env (fsSet (fsErase fs dst) (bakPath dst) (Node.file md cd)) src dst).1,
           true, some (bakPath dst))) ∧
    ((MoveFile env (fsSet (fsErase fs dst) (bakPath dst) (Node.file md cd)) src dst).2 = false →
      (MoveWithBackup fuel env fs src dst).2.1 = false ∧
      (MoveWithBackup fuel env fs src dst).2.2 = none ∧
      statNode (MoveWithBackup fuel env fs src dst).1 dst = some (Node.file md cd)) := by
  have hdne : dst ≠ [] := by
    intro he
    rw [he, statNode_nil] at hdst
    cases hdst
  have hbpne : bakPath dst ≠ [] := bakPath_ne_nil dst
  have hbpd : bakPath dst ≠ dst := bakPath_ne_self dst
  have hdbp : dst ≠ bakPath dst := fun he => hbpd he.symm
  have hdlbp : dst.dropLast ≠ bakPath dst := by
    intro he
    have := congrArg List.length he
    rw [bakPath_length] at this
    omega
  have hdld : dst.dropLast ≠ dst := by
    intro he
    have := congrArg List.length he
    rw [List.length_dropLast] at this
    have := List.length_pos.mpr hdne
    omega
  have hsrc1 : statNode (fsSet (fsErase fs dst) (bakPath dst) (Node.file md cd)) src
      = some (Node.file ms cs) := by
    rw [statNode_fsSet_ne _ _ hnsbp, statNode_fsErase_ne _ hne]
    exact hsrc
  have hdst1 : statNode (fsSet (fsErase fs dst) (bakPath dst) (Node.file md cd)) dst
      = none := by
    rw [statNode_fsSet_ne _ _ hdbp]
    exact statNode_fsErase_self _ hdne
  have hpar1 : nodeIsDir (fsSet (fsErase fs dst) (bakPath dst) (Node.file md cd))
      dst.dropLast = true := by
    unfold nodeIsDir at hpar ⊢
    rw [statNode_fsSet_ne _ _ hdlbp, statNode_fsErase_ne _ hdld]
    exact hpar
  have hbk : MoveFile env fs dst (bakPath dst)
      = (fsSet (fsErase fs dst) (bakPath dst) (Node.file md cd), true) := by
    apply moveFile_rename_path env fs hdst
    · rw [bakPath_dropLast]
      exact hpar
    · simp [IsFile, nodeIsFile, hbp]
    · simp [nodeIsDir, hbp]
    · exact hbpne
    · exact hrb
  have hpe : PathExists fs dst = true := by simp [PathExists, hdst]
  have hpb : PathExists fs (bakPath dst) = false := by simp [PathExists, hbp]
  have hifd : IsFile fs dst = true := isFile_iff.mpr ⟨md, cd, hdst⟩
  have hif1 : IsFile (fsSet (fsErase fs dst) (bakPath dst) (Node.file md cd)) src = true :=
    isFile_iff.mpr ⟨ms, cs, hsrc1⟩
  by_cases hmv : (MoveFile env (fsSet (fsErase fs dst) (bakPath dst) (Node.file md cd))
      src dst).2 = true
  case pos =>
    have hrun : MoveWithBackup fuel env fs src dst
        = ((MoveFile env (fsSet (fsErase fs dst) (bakPath dst) (Node.file md cd)) src dst).1,
           true, some (bakPath dst)) := by
      simp only [MoveWithBackup, hpe, if_true, hpb, Bool.false_eq_true, if_false, hifd,
        hbk, Bool.not_true, Bool.not_false, hif1, hmv, Bool.true_and, Bool.and_self,
        Option.isSome_some]
      simp [hmv]
    exact ⟨fun _ => hrun, fun hcontra => absurd hmv (by rw [hcontra]; simp)⟩
  case neg =>
    have hmvf : (MoveFile env (fsSet (fsErase fs dst) (bakPath dst) (Node.file md cd))
        src dst).2 = false := by
      cases hx : (MoveFile env (fsSet (fsErase fs dst) (bakPath dst) (Node.file md cd))
          src dst).2
      · rfl
      · exact absurd hx hmv
    obtain ⟨hA, hB⟩ := moveFile_analysis env
      (fsSet (fsErase fs dst) (bakPath dst) (Node.file md cd)) src dst hne hio
    obtain ⟨hs2, hd2⟩ := hB hmvf
    have hdstmv : statNode (MoveFile env (fsSet (fsErase fs dst) (bakPath dst)
        (Node.file md cd)) src dst).1 dst = none := by
      rcases hd2 with h | h | ⟨hrd, _⟩
      · rw [h, hdst1]
      · exact h
      · rw [hremd] at hrd
        cases hrd
    have hbpmv : statNode (MoveFile env (fsSet (fsErase fs dst) (bakPath dst)
        (Node.file md cd)) src dst).1 (bakPath dst) = some (Node.file md cd) := by
      rw [moveFile_frame_pd hpar1 (fun he => hnsbp he.symm) hbpd]
      exact statNode_fsSet_self _ _ hbpne
    have hparmv : nodeIsDir (MoveFile env (fsSet (fsErase fs dst) (bakPath dst)
        (Node.file md cd)) src dst).1 dst.dropLast = true := by
      unfold nodeIsDir at hpar1 ⊢
      rw [moveFile_frame_pd hpar1 (by
        intro he
        rw [he] at hpar1
        rw [hsrc1] at hpar1
        simp at hpar1) hdld]
      exact hpar1
    have hrest : MoveFile env (MoveFile env (fsSet (fsErase fs dst) (bakPath dst)
        (Node.file md cd)) src dst).1 (bakPath dst) dst
        = (fsSet (fsErase (MoveFile env (fsSet (fsErase fs dst) (bakPath dst)
            (Node.file md cd)) src dst).1 (bakPath dst)) dst (Node.file md cd), true) := by
      apply moveFile_rename_path _ _ hbpmv
      · exact hparmv
      · simp [IsFile, nodeIsFile, hdstmv]
      · simp [nodeIsDir, hdstmv]
      · exact hdne
      · exact hrr
    have hifbp : IsFile (MoveFile env (fsSet (fsErase fs dst) (bakPath dst)
        (Node.file md cd)) src dst).1 (bakPath dst) = true :=
      isFile_iff.mpr ⟨md, cd, hbpmv⟩
    have hrun : MoveWithBackup fuel env fs src dst
        = ((fsSet (fsErase (MoveFile env (fsSet (fsErase fs dst) (bakPath dst)
            (Node.file md cd)) src dst).1 (bakPath dst)) dst (Node.file md cd)),
           false, none) := by
      simp only [MoveWithBackup, hpe, if_true, hpb, Bool.false_eq_true, if_false, hifd,
        hbk, Bool.not_true, Bool.not_false, hif1, hmvf, Bool.true_and, Bool.and_self,
        Option.isSome_some, hifbp, hrest]
    rw [hrun]
    exact ⟨fun hcontra => absurd hcontra (by rw [hmvf]; simp),
      fun _ => ⟨rfl, rfl, statNode_fsSet_self _ _ hdne⟩⟩

/-- Witness for C6's amended statement: `/s` onto `/d` with an environment
in which the move-in fails but backup and restore renames succeed. -/
theorem C6_amended_witness :
    ((MoveFile envW6 (fsSet (fsErase fsW6 ["d".data]) (bakPath ["d".data])
        (Node.file 0o644 [9])) ["s".data] ["d".data]).2 = true →
      MoveWithBackup 5 envW6 fsW6 ["s".data] ["d".data]
        = ((MoveFile envW6 (fsSet (fsErase fsW6 ["d".data]) (bakPath ["d".data])
            (Node.file 0o644 [9])) ["s".data] ["d".data]).1,
           true, some (bakPath ["d".data]))) ∧
    ((MoveFile envW6 (fsSet (fsErase fsW6 ["d".data]) (bakPath ["d".data])
        (Node.file 0o644 [9])) ["s".data] ["d".data]).2 = false →
      (MoveWithBackup 5 envW6 fsW6 ["s".data] ["d".data]).2.1 = false ∧
      (MoveWithBackup 5 envW6 fsW6 ["s".data] ["d".data]).2.2 = none ∧
      statNode (MoveWithBackup 5 envW6 fsW6 ["s".data] ["d".data]).1 ["d".data]
        = some (Node.file 0o644 [9])) :=
  C6_amended 5 envW6 fsW6 ["s".data] ["d".data] 0o644 0o644 [7] [9]
    (by decide) (by decide) (by decide) (by decide) (by decide) (by decide)
    (by decide) (by decide) (by decide) (by decide)

/-! ## Children lemmas for the batch operations -/

theorem childPath_inj {dir : Path} {a b : GoStr} (h : dir ++ [a] = dir ++ [b]) : a = b := by
  have h2 := List.append_cancel_left h
  cases h2
  rfl

theorem childPath_ne_nil (dir : Path) (a : GoStr) : dir ++ [a] ≠ [] := by
  simp

theorem childNames_eq_keys (fs : Fs) (dir : Path) :
    childNames fs dir = (fs.map Prod.fst).filterMap (fun k =>
      if k.length = dir.length + 1 ∧ dir.isPrefixOf k then (k.drop dir.length).head?
      else none) := by
  unfold childNames
  rw [List.filterMap_map]
  rfl

theorem childKey_eq {dir k : Path} {n : GoStr}
    (h : (if k.length = dir.length + 1 ∧ dir.isPrefixOf k then (k.drop dir.length).head?
      else none) = some n) : k = dir ++ [n] := by
  by_cases hc : k.length = dir.length + 1 ∧ dir.isPrefixOf k = true
  · rw [if_pos hc] at h
    have hpre : dir <+: k := List.isPrefixOf_iff_prefix.mp hc.2
    have htake := List.prefix_iff_eq_take.mp hpre
    have hdrop : (k.drop dir.length).length = 1 := by
      rw [List.length_drop, hc.1]
      omega
    match hmatch : k.drop dir.length with
    | [] => rw [hmatch] at hdrop; simp at hdrop
    | [x] =>
      rw [hmatch] at h
      simp only [List.head?_cons, Option.some.injEq] at h
      subst h
      rw [htake, ← hmatch, List.take_append_drop]
    | x :: y :: t => rw [hmatch] at hdrop; simp at hdrop
  · rw [if_neg hc] at h
    cases h

theorem childNames_nodup {fs : Fs} (dir : Path) (hw : WfFs fs) :
    (childNames fs dir).Nodup := by
  rw [childNames_eq_keys]
  apply List.Nodup.filterMap
  · intro a b c hca hcb
    rw [childKey_eq hca, childKey_eq hcb]
  · exact hw.1

theorem childNames_mem_statNode {fs : Fs} {dir : Path} {n : GoStr}
    (hw : WfFs fs) (h : n ∈ childNames fs dir) :
    ∃ node, statNode fs (dir ++ [n]) = some node := by
  rw [childNames_eq_keys] at h
  obtain ⟨k, hk, hsome⟩ := List.mem_filterMap.mp h
  obtain ⟨kn, hkn, hfst⟩ := List.mem_map.mp hk
  have hkey := childKey_eq hsome
  obtain ⟨k, v⟩ := kn
  simp only at hfst
  subst hfst
  rw [hkey] at hkn
  exact ⟨v, statNode_of_mem hw hkn⟩

theorem removeEmptyLoop_nil (env : Env) (fs : Fs) (dir : Path) (ok : Bool) (count : Nat) :
    removeEmptyLoop env fs dir [] ok count = (fs, ok, count) := rfl

theorem removeEmptyLoop_cons (env : Env) (fs : Fs) (dir : Path) (e : GoStr × Bool × Bool)
    (es : List (GoStr × Bool × Bool)) (ok : Bool) (count : Nat) :
    removeEmptyLoop env fs dir (e :: es) ok count
      = (if e.2.1 then removeEmptyLoop env fs dir es ok count
         else if e.2.2 then
           (let r := RemoveFile env fs (dir ++ [e.1])
            if r.2 then removeEmptyLoop env r.1 dir es ok (count + 1)
            else removeEmptyLoop env r.1 dir es false count)
         else removeEmptyLoop env fs dir es ok count) := rfl

/-- The specification of `removeEmptyLoop`: with accurate captured flags
and distinct names, the final flag is `ok` AND every empty-file item being
removable, the count grows by the number of removable empty-file items,
every removable empty-file item is actually gone afterwards (even when
other items failed), and nothing outside the item paths changes. -/
theorem removeEmptyLoop_spec (env : Env) (dir : Path) :
    ∀ (entries : List (GoStr × Bool × Bool)) (fs : Fs) (ok : Bool) (count : Nat),
    (∀ e ∈ entries, e.2.1 = false → e.2.2 = true →
      ∃ m, statNode fs (dir ++ [e.1]) = some (Node.file m [])) →
    (entries.map Prod.fst).Nodup →
    (removeEmptyLoop env fs dir entries ok count).2.1
      = (ok && entries.all (fun e => e.2.1 || !e.2.2 || env.removeOK (dir ++ [e.1]))) ∧
    (removeEmptyLoop env fs dir entries ok count).2.2
      = count + (entries.filter
          (fun e => !e.2.1 && e.2.2 && env.removeOK (dir ++ [e.1]))).length ∧
    (∀ e ∈ entries, e.2.1 = false → e.2.2 = true → env.removeOK (dir ++ [e.1]) = true →
      statNode (removeEmptyLoop env fs dir entries ok count).1 (dir ++ [e.1]) = none) ∧
    (∀ q : Path, (∀ e ∈ entries, q ≠ dir ++ [e.1]) →
      statNode (removeEmptyLoop env fs dir entries ok count).1 q = statNode fs q) := by
  intro entries
  induction entries with
  | nil =>
    intro fs ok count _ _
    refine ⟨by simp [removeEmptyLoop], by simp [removeEmptyLoop], ?_, ?_⟩
    · intro e he
      simp at he
    · intro q _
      rfl
  | cons e es ih =>
    intro fs ok count hacc hnd
    simp only [List.map_cons, List.nodup_cons] at hnd
    obtain ⟨hhd, htl⟩ := hnd
    have hne : ∀ e2 ∈ es, dir ++ [e.1] ≠ dir ++ [e2.1] := by
      intro e2 he2 heq
      exact hhd (childPath_inj heq ▸ List.mem_map.mpr ⟨e2, he2, rfl⟩)
    cases hd1 : e.2.1 with
    | true =>
      have hstep : removeEmptyLoop env fs dir (e :: es) ok count
          = removeEmptyLoop env fs dir es ok count := by
        rw [removeEmptyLoop_cons, if_pos hd1]
      obtain ⟨ih1, ih2, ih3, ih4⟩ := ih fs ok count
        (fun e2 he2 => hacc e2 (List.mem_cons_of_mem _ he2)) htl
      rw [hstep]
      refine ⟨by rw [ih1]; simp [hd1], by rw [ih2]; simp [hd1], ?_, ?_⟩
      · intro e2 he2 h1 h2 h3
        rcases List.mem_cons.mp he2 with he2 | he2
        · subst he2; rw [hd1] at h1; cases h1
        · exact ih3 e2 he2 h1 h2 h3
      · intro q hq
        exact ih4 q (fun e2 he2 => hq e2 (List.mem_cons_of_mem _ he2))
    | false =>
      cases hd2 : e.2.2 with
      | false =>
        have hstep : removeEmptyLoop env fs dir (e :: es) ok count
            = removeEmptyLoop env fs dir es ok count := by
          rw [removeEmptyLoop_cons, if_neg (by rw [hd1]; simp), if_neg (by rw [hd2]; simp)]
        obtain ⟨ih1, ih2, ih3, ih4⟩ := ih fs ok count
          (fun e2 he2 => hacc e2 (List.mem_cons_of_mem _ he2)) htl
        rw [hstep]
        refine ⟨by rw [ih1]; simp [hd1, hd2], by rw [ih2]; simp [hd1, hd2], ?_, ?_⟩
        · intro e2 he2 h1 h2 h3
          rcases List.mem_cons.mp he2 with he2 | he2
          · subst he2; rw [hd2] at h2; cases h2
          · exact ih3 e2 he2 h1 h2 h3
        · intro q hq
          exact ih4 q (fun e2 he2 => hq e2 (List.mem_cons_of_mem _ he2))
      | true =>
        obtain ⟨m, hstat⟩ := hacc e (List.mem_cons_self e es) hd1 hd2
        have hIsF : IsFile fs (dir ++ [e.1]) = true := isFile_iff.mpr ⟨m, [], hstat⟩
        cases hrok : env.removeOK (dir ++ [e.1]) with
        | true =>
          have hrem : RemoveFile env fs (dir ++ [e.1])
              = (fsErase fs (dir ++ [e.1]), true) := by
            simp [RemoveFile, hIsF, osRemove, childPath_ne_nil dir e.1, hstat, hrok]
          have hstep : removeEmptyLoop env fs dir (e :: es) ok count
              = removeEmptyLoop env (fsErase fs (dir ++ [e.1])) dir es ok (count + 1) := by
            rw [removeEmptyLoop_cons, if_neg (by rw [hd1]; simp), if_pos (by rw [hd2])]
            rw [hrem]
            simp
          obtain ⟨ih1, ih2, ih3, ih4⟩ := ih (fsErase fs (dir ++ [e.1])) ok (count + 1)
            (fun e2 he2 h1 h2 => by
              obtain ⟨m2, hm2⟩ := hacc e2 (List.mem_cons_of_mem _ he2) h1 h2
              refine ⟨m2, ?_⟩
              rw [statNode_fsErase_ne _ (fun heq => hne e2 he2 heq.symm)]
              exact hm2) htl
          rw [hstep]
          refine ⟨by rw [ih1]; simp [hd1, hd2, hrok], ?_, ?_, ?_⟩
          · rw [ih2]
            simp only [List.filter_cons, hd1, hd2, hrok]
            simp
            omega
          · intro e2 he2 h1 h2 h3
            rcases List.mem_cons.mp he2 with he2 | he2
            · subst he2
              rw [ih4 _ (fun e3 he3 => hne e3 he3)]
              exact statNode_fsErase_self _ (childPath_ne_nil dir e2.1)
            · exact ih3 e2 he2 h1 h2 h3
          · intro q hq
            rw [ih4 q (fun e2 he2 => hq e2 (List.mem_cons_of_mem _ he2))]
            exact statNode_fsErase_ne _ (hq e (List.mem_cons_self e es))
        | false =>
          have hrem : RemoveFile env fs (dir ++ [e.1]) = (fs, false) := by
            simp [RemoveFile, hIsF, osRemove, childPath_ne_nil dir e.1, hstat, hrok]
          have hstep : removeEmptyLoop env fs dir (e :: es) ok count
              = removeEmptyLoop env fs dir es false count := by
            rw [removeEmptyLoop_cons, if_neg (by rw [hd1]; simp), if_pos (by rw [hd2])]
            rw [hrem]
            simp
          obtain ⟨ih1, ih2, ih3, ih4⟩ := ih fs false count
            (fun e2 he2 => hacc e2 (List.mem_cons_of_mem _ he2)) htl
          rw [hstep]
          refine ⟨by rw [ih1]; simp [hd1, hd2, hrok], by rw [ih2]; simp [hd1, hd2, hrok],
            ?_, ?_⟩
          · intro e2 he2 h1 h2 h3
            rcases List.mem_cons.mp he2 with he2 | he2
            · subst he2
              rw [hrok] at h3
              cases h3
            · exact ih3 e2 he2 h1 h2 h3
          · intro q hq
            exact ih4 q (fun e2 he2 => hq e2 (List.mem_cons_of_mem _ he2))

theorem removeByPatternLoop_nil (env : Env) (fs : Fs) (dir : Path) (pattern : GoStr)
    (ok : Bool) (count : Nat) :
    removeByPatternLoop env fs dir pattern [] ok count = (fs, ok, count) := rfl

theorem removeByPatternLoop_cons (env : Env) (fs : Fs) (dir : Path) (pattern : GoStr)
    (e : GoStr × Bool) (es : List (GoStr × Bool)) (ok : Bool) (count : Nat) :
    removeByPatternLoop env fs dir pattern (e :: es) ok count
      = (if e.2 then removeByPatternLoop env fs dir pattern es ok count
         else
           match goMatch pattern e.1 with
           | none => removeByPatternLoop env fs dir pattern es false count
           | some false => removeByPatternLoop env fs dir pattern es ok count
           | some true =>
             (let r := RemoveFile env fs (dir ++ [e.1])
              if r.2 then removeByPatternLoop env r.1 dir pattern es ok (count + 1)
              else removeByPatternLoop env r.1 dir pattern es false count)) := rfl

/-- The specification of `removeByPatternLoop`: analogous to
`removeEmptyLoop_spec`. -/
theorem removeByPatternLoop_spec (env : Env) (dir : Path) (pattern : GoStr) :
    ∀ (entries : List (GoStr × Bool)) (fs : Fs) (ok : Bool) (count : Nat),
    (∀ e ∈ entries, e.2 = false →
      ∃ m c, statNode fs (dir ++ [e.1]) = some (Node.file m c)) →
    (entries.map Prod.fst).Nodup →
    (removeByPatternLoop env fs dir pattern entries ok count).2.1
      = (ok && entries.all (patternItemOK env dir pattern)) ∧
    (removeByPatternLoop env fs dir pattern entries ok count).2.2
      = count + (entries.filter (patternItemRemoved env dir pattern)).length ∧
    (∀ e ∈ entries, e.2 = false → goMatch pattern e.1 = some true →
      env.removeOK (dir ++ [e.1]) = true →
      statNode (removeByPatternLoop env fs dir pattern entries ok count).1 (dir ++ [e.1])
        = none) ∧
    (∀ q : Path, (∀ e ∈ entries, q ≠ dir ++ [e.1]) →
      statNode (removeByPatternLoop env fs dir pattern entries ok count).1 q
        = statNode fs q) := by
  intro entries
  induction entries with
  | nil =>
    intro fs ok count _ _
    refine ⟨by simp [removeByPatternLoop_nil], by simp [removeByPatternLoop_nil], ?_, ?_⟩
    · intro e he
      simp at he
    · intro q _
      rfl
  | cons e es ih =>
    intro fs ok count hacc hnd
    simp only [List.map_cons, List.nodup_cons] at hnd
    obtain ⟨hhd, htl⟩ := hnd
    have hne : ∀ e2 ∈ es, dir ++ [e.1] ≠ dir ++ [e2.1] := by
      intro e2 he2 heq
      exact hhd (childPath_inj heq ▸ List.mem_map.mpr ⟨e2, he2, rfl⟩)
    cases hd1 : e.2 with
    | true =>
      have hstep : removeByPatternLoop env fs dir pattern (e :: es) ok count
          = removeByPatternLoop env fs dir pattern es ok count := by
        rw [removeByPatternLoop_cons, if_pos hd1]
      obtain ⟨ih1, ih2, ih3, ih4⟩ := ih fs ok count
        (fun e2 he2 => hacc e2 (List.mem_cons_of_mem _ he2)) htl
      rw [hstep]
      refine ⟨by rw [ih1]; simp [patternItemOK, hd1],
        by rw [ih2]; simp [patternItemRemoved, hd1], ?_, ?_⟩
      · intro e2 he2 h1 h2 h3
        rcases List.mem_cons.mp he2 with he2 | he2
        · subst he2; rw [hd1] at h1; cases h1
        · exact ih3 e2 he2 h1 h2 h3
      · intro q hq
        exact ih4 q (fun e2 he2 => hq e2 (List.mem_cons_of_mem _ he2))
    | false =>
      cases hm : goMatch pattern e.1 with
      | none =>
        have hstep : removeByPatternLoop env fs dir pattern (e :: es) ok count
            = removeByPatternLoop env fs dir pattern es false count := by
          rw [removeByPatternLoop_cons, if_neg (by rw [hd1]; simp)]
          rw [hm]
        obtain ⟨ih1, ih2, ih3, ih4⟩ := ih fs false count
          (fun e2 he2 => hacc e2 (List.mem_cons_of_mem _ he2)) htl
        rw [hstep]
        refine ⟨by rw [ih1]; simp [patternItemOK, hd1, hm],
          by rw [ih2]; simp [patternItemRemoved, hd1, hm], ?_, ?_⟩
        · intro e2 he2 h1 h2 h3
          rcases List.mem_cons.mp he2 with he2 | he2
          · subst he2; rw [hm] at h2; cases h2
          · exact ih3 e2 he2 h1 h2 h3
        · intro q hq
          exact ih4 q (fun e2 he2 => hq e2 (List.mem_cons_of_mem _ he2))
      | some b =>
        cases b with
        | false =>
          have hstep : removeByPatternLoop env fs dir pattern (e :: es) ok count
              = removeByPatternLoop env fs dir pattern es ok count := by
            rw [removeByPatternLoop_cons, if_neg (by rw [hd1]; simp)]
            rw [hm]
          obtain ⟨ih1, ih2, ih3, ih4⟩ := ih fs ok count
            (fun e2 he2 => hacc e2 (List.mem_cons_of_mem _ he2)) htl
          rw [hstep]
          refine ⟨by rw [ih1]; simp [patternItemOK, hd1, hm],
            by rw [ih2]; simp [patternItemRemoved, hd1, hm], ?_, ?_⟩
          · intro e2 he2 h1 h2 h3
            rcases List.mem_cons.mp he2 with he2 | he2
            · subst he2; rw [hm] at h2; cases h2
            · exact ih3 e2 he2 h1 h2 h3
          · intro q hq
            exact ih4 q (fun e2 he2 => hq e2 (List.mem_cons_of_mem _ he2))
        | true =>
          obtain ⟨m, c, hstat⟩ := hacc e (List.mem_cons_self e es) hd1
          have hIsF : IsFile fs (dir ++ [e.1]) = true := isFile_iff.mpr ⟨m, c, hstat⟩
          cases hrok : env.removeOK (dir ++ [e.1]) with
          | true =>
            have hrem : RemoveFile env fs (dir ++ [e.1])
                = (fsErase fs (dir ++ [e.1]), true) := by
              simp [RemoveFile, hIsF, osRemove, childPath_ne_nil dir e.1, hstat, hrok]
            have hstep : removeByPatternLoop env fs dir pattern (e :: es) ok count
                = removeByPatternLoop env (fsErase fs (dir ++ [e.1])) dir pattern es ok
                    (count + 1) := by
              rw [removeByPatternLoop_cons, if_neg (by rw [hd1]; simp)]
              rw [hm, hrem]
              simp
            obtain ⟨ih1, ih2, ih3, ih4⟩ := ih (fsErase fs (dir ++ [e.1])) ok (count + 1)
              (fun e2 he2 h1 => by
                obtain ⟨m2, c2, hm2⟩ := hacc e2 (List.mem_cons_of_mem _ he2) h1
                refine ⟨m2, c2, ?_⟩
                rw [statNode_fsErase_ne _ (fun heq => hne e2 he2 heq.symm)]
                exact hm2) htl
            rw [hstep]
            refine ⟨by rw [ih1]; simp [patternItemOK, hd1, hm, hrok], ?_, ?_, ?_⟩
            · rw [ih2]
              simp only [List.filter_cons, patternItemRemoved, hd1, hm, hrok]
              simp
              omega
            · intro e2 he2 h1 h2 h3
              rcases List.mem_cons.mp he2 with he2 | he2
              · subst he2
                rw [ih4 _ (fun e3 he3 => hne e3 he3)]
                exact statNode_fsErase_self _ (childPath_ne_nil dir e2.1)
              · exact ih3 e2 he2 h1 h2 h3
            · intro q hq
              rw [ih4 q (fun e2 he2 => hq e2 (List.mem_cons_of_mem _ he2))]
              exact statNode_fsErase_ne _ (hq e (List.mem_cons_self e es))
          | false =>
            have hrem : RemoveFile env fs (dir ++ [e.1]) = (fs, false) := by
              simp [RemoveFile, hIsF, osRemove, childPath_ne_nil dir e.1, hstat, hrok]
            have hstep : removeByPatternLoop env fs dir pattern (e :: es) ok count
                = removeByPatternLoop env fs dir pattern es false count := by
              rw [removeByPatternLoop_cons, if_neg (by rw [hd1]; simp)]
              rw [hm, hrem]
              simp
            obtain ⟨ih1, ih2, ih3, ih4⟩ := ih fs false count
              (fun e2 he2 => hacc e2 (List.mem_cons_of_mem _ he2)) htl
            rw [hstep]
            refine ⟨by rw [ih1]; simp [patternItemOK, hd1, hm, hrok],
              by rw [ih2]; simp [patternItemRemoved, hd1, hm, hrok], ?_, ?_⟩
            · intro e2 he2 h1 h2 h3
              rcases List.mem_cons.mp he2 with he2 | he2
              · subst he2
                rw [hrok] at h3
                cases h3
              · exact ih3 e2 he2 h1 h2 h3
            · intro q hq
              exact ih4 q (fun e2 he2 => hq e2 (List.mem_cons_of_mem _ he2))

theorem all_map_eq {α β : Type} (l : List α) (f : α → β) (p : β → Bool) :
    (l.map f).all p = l.all (fun a => p (f a)) := by
  induction l with
  | nil => rfl
  | cons a l ih => simp [List.all_cons, ih]

theorem length_filter_map_eq {α β : Type} (l : List α) (f : α → β) (p : β → Bool) :
    ((l.map f).filter p).length = (l.filter (fun a => p (f a))).length := by
  induction l with
  | nil => rfl
  | cons a l ih =>
    simp only [List.map_cons, List.filter_cons]
    cases h : p (f a) <;> simp [ih]

/-- `RemoveEmptyFiles` on a directory of a well-formed state: the flag is
true iff every zero-byte plain-file child could be removed, the count is
the number of such children actually removed, each removable one is gone,
and every other path is untouched. -/
theorem removeEmptyFiles_spec (env : Env) (fs : Fs) (dir : Path)
    (hw : WfFs fs) (hd : IsDirectory fs dir = true) :
    (RemoveEmptyFiles env fs dir).2.1
      = (childNames fs dir).all (fun n => nodeIsDir fs (dir ++ [n]) ||
          !((fileContent fs (dir ++ [n])).getD [1]).isEmpty ||
          env.removeOK (dir ++ [n])) ∧
    (RemoveEmptyFiles env fs dir).2.2
      = ((childNames fs dir).filter (fun n => !nodeIsDir fs (dir ++ [n]) &&
          ((fileContent fs (dir ++ [n])).getD [1]).isEmpty &&
          env.removeOK (dir ++ [n]))).length ∧
    (∀ n ∈ childNames fs dir, nodeIsDir fs (dir ++ [n]) = false →
      ((fileContent fs (dir ++ [n])).getD [1]).isEmpty = true →
      env.removeOK (dir ++ [n]) = true →
      statNode (RemoveEmptyFiles env fs dir).1 (dir ++ [n]) = none) ∧
    (∀ q : Path, (∀ n ∈ childNames fs dir, q ≠ dir ++ [n]) →
      statNode (RemoveEmptyFiles env fs dir).1 q = statNode fs q) := by
  have heq : RemoveEmptyFiles env fs dir
      = removeEmptyLoop env fs dir ((childNames fs dir).map
          (fun n => (n, nodeIsDir fs (dir ++ [n]),
            ((fileContent fs (dir ++ [n])).getD [1]).isEmpty))) true 0 := by
    simp [RemoveEmptyFiles, hd]
  have hacc : ∀ e ∈ (childNames fs dir).map
      (fun n => (n, nodeIsDir fs (dir ++ [n]),
        ((fileContent fs (dir ++ [n])).getD [1]).isEmpty)),
      e.2.1 = false → e.2.2 = true →
      ∃ m, statNode fs (dir ++ [e.1]) = some (Node.file m []) := by
    intro e he h1 h2
    obtain ⟨n, hn, hmk⟩ := List.mem_map.mp he
    subst hmk
    have h1a : nodeIsDir fs (dir ++ [n]) = false := h1
    have h2a : ((fileContent fs (dir ++ [n])).getD [1]).isEmpty = true := h2
    obtain ⟨node, hnode⟩ := childNames_mem_statNode hw hn
    cases node with
    | dir m => simp [nodeIsDir, hnode] at h1a
    | file m c =>
      simp [fileContent, hnode, List.isEmpty_iff] at h2a
      exact ⟨m, by rw [hnode, h2a]⟩
  have hnd : (((childNames fs dir).map
      (fun n => (n, nodeIsDir fs (dir ++ [n]),
        ((fileContent fs (dir ++ [n])).getD [1]).isEmpty))).map Prod.fst).Nodup := by
    rw [List.map_map]
    have hc : (Prod.fst ∘ fun n : GoStr => (n, nodeIsDir fs (dir ++ [n]),
        ((fileContent fs (dir ++ [n])).getD [1]).isEmpty)) = id := rfl
    rw [hc, List.map_id]
    exact childNames_nodup dir hw
  obtain ⟨s1, s2, s3, s4⟩ := removeEmptyLoop_spec env dir _ fs true 0 hacc hnd
  refine ⟨?_, ?_, ?_, ?_⟩
  · rw [heq, s1, all_map_eq]
    simp only [Bool.true_and]
  · rw [heq, s2, length_filter_map_eq]
    simp only [Nat.zero_add]
  · intro n hn h1 h2 h3
    rw [heq]
    exact s3 _ (List.mem_map.mpr ⟨n, hn, rfl⟩) h1 h2 h3
  · intro q hq
    rw [heq]
    refine s4 q ?_
    intro e he
    obtain ⟨n, hn, hmk⟩ := List.mem_map.mp he
    subst hmk
    exact hq n hn

/-- `RemoveByPattern` on a directory of a well-formed state: the flag is
true iff every child is a directory, fails to parse against the pattern
never, and every matching plain file could be removed; the count is the
number of matching files removed; matching removable files are gone and
all other paths untouched. -/
theorem removeByPattern_spec (env : Env) (fs : Fs) (dir : Path) (pattern : GoStr)
    (hw : WfFs fs) (hd : IsDirectory fs dir = true) :
    (RemoveByPattern env fs dir pattern).2.1
      = (childNames fs dir).all (fun n =>
          patternItemOK env dir pattern (n, nodeIsDir fs (dir ++ [n]))) ∧
    (RemoveByPattern env fs dir pattern).2.2
      = ((childNames fs dir).filter (fun n =>
          patternItemRemoved env dir pattern (n, nodeIsDir fs (dir ++ [n])))).length ∧
    (∀ n ∈ childNames fs dir, nodeIsDir fs (dir ++ [n]) = false →
      goMatch pattern n = some true → env.removeOK (dir ++ [n]) = true →
      statNode (RemoveByPattern env fs dir pattern).1 (dir ++ [n]) = none) ∧
    (∀ q : Path, (∀ n ∈ childNames fs dir, q ≠ dir ++ [n]) →
      statNode (RemoveByPattern env fs dir pattern).1 q = statNode fs q) := by
  have heq : RemoveByPattern env fs dir pattern
      = removeByPatternLoop env fs dir pattern ((childNames fs dir).map
          (fun n => (n, nodeIsDir fs (dir ++ [n])))) true 0 := by
    simp [RemoveByPattern, hd]
  have hacc : ∀ e ∈ (childNames fs dir).map
      (fun n => (n, nodeIsDir fs (dir ++ [n]))),
      e.2 = false → ∃ m c, statNode fs (dir ++ [e.1]) = some (Node.file m c) := by
    intro e he h1
    obtain ⟨n, hn, hmk⟩ := List.mem_map.mp he
    subst hmk
    have h1a : nodeIsDir fs (dir ++ [n]) = false := h1
    obtain ⟨node, hnode⟩ := childNames_mem_statNode hw hn
    cases node with
    | dir m => simp [nodeIsDir, hnode] at h1a
    | file m c => exact ⟨m, c, hnode⟩
  have hnd : (((childNames fs dir).map
      (fun n => (n, nodeIsDir fs (dir ++ [n])))).map Prod.fst).Nodup := by
    rw [List.map_map]
    have hc : (Prod.fst ∘ fun n : GoStr => (n, nodeIsDir fs (dir ++ [n]))) = id := rfl
    rw [hc, List.map_id]
    exact childNames_nodup dir hw
  obtain ⟨s1, s2, s3, s4⟩ := removeByPatternLoop_spec env dir pattern _ fs true 0 hacc hnd
  refine ⟨?_, ?_, ?_, ?_⟩
  · rw [heq, s1, all_map_eq]
    simp only [Bool.true_and]
  · rw [heq, s2, length_filter_map_eq]
    simp only [Nat.zero_add]
  · intro n hn h1 h2 h3
    rw [heq]
    exact s3 _ (List.mem_map.mpr ⟨n, hn, rfl⟩) h1 h2 h3
  · intro q hq
    rw [heq]
    refine s4 q ?_
    intro e he
    obtain ⟨n, hn, hmk⟩ := List.mem_map.mp he
    subst hmk
    exact hq n hn

theorem copyEntries_succ_nil (f : Nat) (env : Env) (fs : Fs) (src dst : Path)
    (ok : Bool) : copyEntries (f + 1) env fs src dst [] ok = (fs, ok) := rfl

theorem copyEntries_succ_cons (f : Nat) (env : Env) (fs : Fs) (src dst : Path)
    (e : GoStr × Bool) (es : List (GoStr × Bool)) (ok : Bool) :
    copyEntries (f + 1) env fs src dst (e :: es) ok
      = (if e.2 then
          copyEntries f env
            (copyDirectoryRecursive f env fs (src ++ [e.1]) (dst ++ [e.1])).1 src dst es
            (ok && (copyDirectoryRecursive f env fs (src ++ [e.1]) (dst ++ [e.1])).2)
         else
          copyEntries f env (CopyFile env fs (src ++ [e.1]) (dst ++ [e.1])).1 src dst es
            (ok && (CopyFile env fs (src ++ [e.1]) (dst ++ [e.1])).2)) := rfl

theorem copyFold_nil (env : Env) (src dst : Path) (fuel : Nat) (fs : Fs) :
    copyFold env src dst fuel fs [] = (fs, true) := rfl

theorem copyFold_cons (env : Env) (src dst : Path) (fuel : Nat) (fs : Fs)
    (e : GoStr × Bool) (es : List (GoStr × Bool)) :
    copyFold env src dst fuel fs (e :: es)
      = ((copyFold env src dst (fuel - 1)
            (if e.2 then
              copyDirectoryRecursive (fuel - 1) env fs (src ++ [e.1]) (dst ++ [e.1])
             else CopyFile env fs (src ++ [e.1]) (dst ++ [e.1])).1 es).1,
         (if e.2 then
            copyDirectoryRecursive (fuel - 1) env fs (src ++ [e.1]) (dst ++ [e.1])
          else CopyFile env fs (src ++ [e.1]) (dst ++ [e.1])).2 &&
         (copyFold env src dst (fuel - 1)
            (if e.2 then
              copyDirectoryRecursive (fuel - 1) env fs (src ++ [e.1]) (dst ++ [e.1])
             else CopyFile env fs (src ++ [e.1]) (dst ++ [e.1])).1 es).2) := rfl

/-- With enough fuel for the list, the copier's entry loop is exactly the
no-early-exit fold `copyFold`: every entry is attempted in order whatever
the earlier outcomes were, and the returned flag is `ok` conjoined with
every per-entry result. -/
theorem copyEntries_eq_fold (env : Env) (src dst : Path) :
    ∀ (entries : List (GoStr × Bool)) (fuel : Nat) (fs : Fs) (ok : Bool),
    entries.length < fuel →
    copyEntries fuel env fs src dst entries ok
      = ((copyFold env src dst fuel fs entries).1,
         ok && (copyFold env src dst fuel fs entries).2) := by
  intro entries
  induction entries with
  | nil =>
    intro fuel fs ok hf
    cases fuel with
    | zero => simp at hf
    | succ f =>
      rw [copyEntries_succ_nil, copyFold_nil, Bool.and_true]
  | cons e es ih =>
    intro fuel fs ok hf
    cases fuel with
    | zero => simp at hf
    | succ f =>
      have hlt : es.length < f := by
        simp at hf
        omega
      rw [copyEntries_succ_cons, copyFold_cons]
      simp only [Nat.add_sub_cancel]
      by_cases he : e.2 = true
      · rw [if_pos he, if_pos he, ih f _ _ hlt, Bool.and_assoc]
      · rw [if_neg he, if_neg he, ih f _ _ hlt, Bool.and_assoc]

theorem copyDirectoryRecursive_succ (f : Nat) (env : Env) (fs : Fs) (src dst : Path) :
    copyDirectoryRecursive (f + 1) env fs src dst
      = (if !(CreateDirectory env fs dst).2 then ((CreateDirectory env fs dst).1, false)
         else if !IsDirectory (CreateDirectory env fs dst).1 src then
           ((CreateDirectory env fs dst).1, false)
         else copyEntries f env (CreateDirectory env fs dst).1 src dst
           ((childNames (CreateDirectory env fs dst).1 src).map
             (fun n => (n, nodeIsDir (CreateDirectory env fs dst).1 (src ++ [n])))) true) :=
  rfl

/-- The copier never aborts on a per-entry failure: whenever the
destination is created and the source is a directory, the whole call is
the `copyFold` of its entry listing - each sibling is attempted on the
state its predecessors left, and the flag is the conjunction of every
per-entry result. -/
theorem copyDirectoryRecursive_continues (env : Env) (fs : Fs) (src dst : Path)
    (fuel : Nat)
    (hc : (CreateDirectory env fs dst).2 = true)
    (hs : IsDirectory (CreateDirectory env fs dst).1 src = true)
    (hf : (childNames (CreateDirectory env fs dst).1 src).length + 1 < fuel) :
    copyDirectoryRecursive fuel env fs src dst
      = copyFold env src dst (fuel - 1) (CreateDirectory env fs dst).1
          ((childNames (CreateDirectory env fs dst).1 src).map
            (fun n => (n, nodeIsDir (CreateDirectory env fs dst).1 (src ++ [n])))) := by
  cases fuel with
  | zero => simp at hf
  | succ f =>
    rw [copyDirectoryRecursive_succ, hc, hs]
    simp only [Bool.not_true, Bool.false_eq_true, if_false]
    have hlt : (((childNames (CreateDirectory env fs dst).1 src).map
        (fun n => (n, nodeIsDir (CreateDirectory env fs dst).1 (src ++ [n])))).length)
        < f := by
      rw [List.length_map]
      omega
    rw [copyEntries_eq_fold env src dst _ f _ true hlt]
    simp only [Nat.add_sub_cancel, Bool.true_and]

/-- C8 counterexample: the recursive directory copier reports no count of
successfully processed items.  Two all-success runs from sources with one
and with two files return the same value (just `true`), even though the
second run copies a file (`/o/f2`) that the first does not. -/
theorem C8_counterexample :
    (copyDirectoryRecursive 4 Env.allOK fsW8a [['s']] [['o']]).2
      = (copyDirectoryRecursive 4 Env.allOK fsW8b [['s']] [['o']]).2 ∧
    statNode (copyDirectoryRecursive 4 Env.allOK fsW8a [['s']] [['o']]).1
      [['o'], ['f', '2']] = none ∧
    statNode (copyDirectoryRecursive 4 Env.allOK fsW8b [['s']] [['o']]).1
      [['o'], ['f', '2']] = some (Node.file 0o666 [2]) := by decide

/-- The hypotheses of the general copier clause are satisfiable, and the
continuation is visible concretely: with the creation of `/o/f1` failing,
the sibling `/s/f2` is still copied to `/o/f2` and the aggregate flag is
false. -/
theorem copyFold_continues_example :
    (CreateDirectory envW8 fsW8b [['o']]).2 = true ∧
    IsDirectory (CreateDirectory envW8 fsW8b [['o']]).1 [['s']] = true ∧
    (childNames (CreateDirectory envW8 fsW8b [['o']]).1 [['s']]).length + 1 < 4 ∧
    (copyDirectoryRecursive 4 envW8 fsW8b [['s']] [['o']]).2 = false ∧
    statNode (copyDirectoryRecursive 4 envW8 fsW8b [['s']] [['o']]).1
      [['o'], ['f', '2']] = some (Node.file 0o666 [2]) ∧
    statNode (copyDirectoryRecursive 4 envW8 fsW8b [['s']] [['o']]).1
      [['o'], ['f', '1']] = none := by decide

/-- C8 (amended): `RemoveEmptyFiles` and `RemoveByPattern` continue past
per-item failures and report a flag that is true exactly when every item
succeeded (a malformed pattern, `filepath.Match`'s `ErrBadPattern`, counts
as that item failing) together with a count of the items removed, and each
removable item really is removed; the recursive directory copier likewise
never aborts - whenever the destination is created and the source is a
directory it equals the no-early-exit fold `copyFold` over all its
entries, so every sibling is attempted and the flag conjoins every
per-entry result - but it returns no count. -/
theorem C8_amended (env : Env) (fs : Fs) (dir : Path) (pattern : GoStr)
    (hw : WfFs fs) (hd : IsDirectory fs dir = true) :
    ((RemoveEmptyFiles env fs dir).2.1
      = (childNames fs dir).all (fun n => nodeIsDir fs (dir ++ [n]) ||
          !((fileContent fs (dir ++ [n])).getD [1]).isEmpty ||
          env.removeOK (dir ++ [n])) ∧
     (RemoveEmptyFiles env fs dir).2.2
      = ((childNames fs dir).filter (fun n => !nodeIsDir fs (dir ++ [n]) &&
          ((fileContent fs (dir ++ [n])).getD [1]).isEmpty &&
          env.removeOK (dir ++ [n]))).length ∧
     (∀ n ∈ childNames fs dir, nodeIsDir fs (dir ++ [n]) = false →
        ((fileContent fs (dir ++ [n])).getD [1]).isEmpty = true →
        env.removeOK (dir ++ [n]) = true →
        statNode (RemoveEmptyFiles env fs dir).1 (dir ++ [n]) = none)) ∧
    ((RemoveByPattern env fs dir pattern).2.1
      = (childNames fs dir).all (fun n =>
          patternItemOK env dir pattern (n, nodeIsDir fs (dir ++ [n]))) ∧
     (RemoveByPattern env fs dir pattern).2.2
      = ((childNames fs dir).filter (fun n =>
          patternItemRemoved env dir pattern (n, nodeIsDir fs (dir ++ [n])))).length ∧
     (∀ n ∈ childNames fs dir, nodeIsDir fs (dir ++ [n]) = false →
        goMatch pattern n = some true → env.removeOK (dir ++ [n]) = true →
        statNode (RemoveByPattern env fs dir pattern).1 (dir ++ [n]) = none)) ∧
    (∀ (fuel : Nat) (fs2 : Fs) (src dst : Path),
      (CreateDirectory env fs2 dst).2 = true →
      IsDirectory (CreateDirectory env fs2 dst).1 src = true →
      (childNames (CreateDirectory env fs2 dst).1 src).length + 1 < fuel →
      copyDirectoryRecursive fuel env fs2 src dst
        = copyFold env src dst (fuel - 1) (CreateDirectory env fs2 dst).1
            ((childNames (CreateDirectory env fs2 dst).1 src).map
              (fun n => (n, nodeIsDir (CreateDirectory env fs2 dst).1 (src ++ [n]))))) := by
  obtain ⟨a1, a2, a3, _⟩ := removeEmptyFiles_spec env fs dir hw hd
  obtain ⟨b1, b2, b3, _⟩ := removeByPattern_spec env fs dir pattern hw hd
  exact ⟨⟨a1, a2, a3⟩, ⟨b1, b2, b3⟩,
    fun fuel fs2 src dst hc hs hf =>
      copyDirectoryRecursive_continues env fs2 src dst fuel hc hs hf⟩

theorem C8_amended_witness :
    WfFs fsW8b ∧ IsDirectory fsW8b [['s']] = true ∧
    (((RemoveEmptyFiles Env.allOK fsW8b [['s']]).2.1
      = (childNames fsW8b [['s']]).all (fun n => nodeIsDir fsW8b ([['s']] ++ [n]) ||
          !((fileContent fsW8b ([['s']] ++ [n])).getD [1]).isEmpty ||
          Env.allOK.removeOK ([['s']] ++ [n])) ∧
     (RemoveEmptyFiles Env.allOK fsW8b [['s']]).2.2
      = ((childNames fsW8b [['s']]).filter (fun n => !nodeIsDir fsW8b ([['s']] ++ [n]) &&
          ((fileContent fsW8b ([['s']] ++ [n])).getD [1]).isEmpty &&
          Env.allOK.removeOK ([['s']] ++ [n]))).length ∧
     (∀ n ∈ childNames fsW8b [['s']], nodeIsDir fsW8b ([['s']] ++ [n]) = false →
        ((fileContent fsW8b ([['s']] ++ [n])).getD [1]).isEmpty = true →
        Env.allOK.removeOK ([['s']] ++ [n]) = true →
        statNode (RemoveEmptyFiles Env.allOK fsW8b [['s']]).1 ([['s']] ++ [n]) = none)) ∧
    ((RemoveByPattern Env.allOK fsW8b [['s']] ['*']).2.1
      = (childNames fsW8b [['s']]).all (fun n =>
          patternItemOK Env.allOK [['s']] ['*'] (n, nodeIsDir fsW8b ([['s']] ++ [n]))) ∧
     (RemoveByPattern Env.allOK fsW8b [['s']] ['*']).2.2
      = ((childNames fsW8b [['s']]).filter (fun n =>
          patternItemRemoved Env.allOK [['s']] ['*']
            (n, nodeIsDir fsW8b ([['s']] ++ [n])))).length ∧
     (∀ n ∈ childNames fsW8b [['s']], nodeIsDir fsW8b ([['s']] ++ [n]) = false →
        goMatch ['*'] n = some true → Env.allOK.removeOK ([['s']] ++ [n]) = true →
        statNode (RemoveByPattern Env.allOK fsW8b [['s']] ['*']).1
          ([['s']] ++ [n]) = none)) ∧
    (∀ (fuel : Nat) (fs2 : Fs) (src dst : Path),
      (CreateDirectory Env.allOK fs2 dst).2 = true →
      IsDirectory (CreateDirectory Env.allOK fs2 dst).1 src = true →
      (childNames (CreateDirectory Env.allOK fs2 dst).1 src).length + 1 < fuel →
      copyDirectoryRecursive fuel Env.allOK fs2 src dst
        = copyFold Env.allOK src dst (fuel - 1) (CreateDirectory Env.allOK fs2 dst).1
            ((childNames (CreateDirectory Env.allOK fs2 dst).1 src).map
              (fun n => (n, nodeIsDir (CreateDirectory Env.allOK fs2 dst).1
                (src ++ [n])))))) :=
  ⟨by decide, by decide,
   C8_amended Env.allOK fsW8b [['s']] ['*'] (by decide) (by decide)⟩

/-! ## Path-string parsing lemmas for the zip-slip check -/

theorem splitSlash_ne_nil (s : GoStr) : splitSlash s ≠ [] := by
  induction s with
  | nil => simp [splitSlash]
  | cons c rest ih =>
    unfold splitSlash
    by_cases hc : c = '/'
    · simp [hc]
    · rw [if_neg hc]
      cases h : splitSlash rest with
      | nil => simp
      | cons p ps => simp

theorem splitSlash_append (a b : GoStr) :
    splitSlash (a ++ '/' :: b) = splitSlash a ++ splitSlash b := by
  induction a with
  | nil => simp [splitSlash]
  | cons c rest ih =>
    simp only [List.cons_append, splitSlash]
    by_cases hc : c = '/'
    · simp [hc, ih]
    · rw [if_neg hc, if_neg hc]
      have ih2 : splitSlash (rest.append ('/' :: b)) = splitSlash rest ++ splitSlash b := ih
      rw [ih2]
      cases h : splitSlash rest with
      | nil => exact absurd h (splitSlash_ne_nil rest)
      | cons p ps => simp [h]

theorem mem_splitSlash_no_slash (s : GoStr) : ∀ c ∈ splitSlash s, '/' ∉ c := by
  induction s with
  | nil =>
    intro c hc
    simp [splitSlash] at hc
    simp [hc]
  | cons x rest ih =>
    intro c hc
    by_cases hx : x = '/'
    · simp only [splitSlash, if_pos hx] at hc
      rcases List.mem_cons.mp hc with hc | hc
      · simp [hc]
      · exact ih c hc
    · simp only [splitSlash, if_neg hx] at hc
      cases h : splitSlash rest with
      | nil => exact absurd h (splitSlash_ne_nil rest)
      | cons p ps =>
        rw [h] at hc
        rcases List.mem_cons.mp hc with hc | hc
        · subst hc
          intro hmem
          rcases List.mem_cons.mp hmem with he | he
          · exact hx he.symm
          · exact ih p (h ▸ List.mem_cons_self p ps) he
        · exact ih c (h ▸ List.mem_cons_of_mem p hc)

theorem splitSlash_no_slash_eq (c : GoStr) (h : '/' ∉ c) : splitSlash c = [c] := by
  induction c with
  | nil => rfl
  | cons x rest ih =>
    have hx : x ≠ '/' := fun he => h (he ▸ List.mem_cons_self x rest)
    have hr : '/' ∉ rest := fun hm => h (List.mem_cons_of_mem x hm)
    simp only [splitSlash, if_neg hx, ih hr]

theorem joinComps_cons (c : GoStr) (cs : List GoStr) (h : cs ≠ []) :
    joinComps (c :: cs) = c ++ '/' :: joinComps cs := by
  cases cs with
  | nil => exact absurd rfl h
  | cons d ds => rfl

theorem splitSlash_joinComps : ∀ (d : List GoStr), (∀ c ∈ d, '/' ∉ c) → d ≠ [] →
    splitSlash (joinComps d) = d := by
  intro d
  induction d with
  | nil => intro _ h; exact absurd rfl h
  | cons c cs ih =>
    intro hw _
    cases cs with
    | nil => exact splitSlash_no_slash_eq c (hw c (List.mem_cons_self c []))
    | cons e es =>
      rw [joinComps_cons c (e :: es) (by simp), splitSlash_append,
        splitSlash_no_slash_eq c (hw c (List.mem_cons_self _ _)),
        ih (fun x hx => hw x (List.mem_cons_of_mem c hx)) (by simp)]
      rfl

theorem resolveComps_wf_append : ∀ (xs : List GoStr) (acc : List GoStr),
    (∀ c ∈ xs, WfComp c) → resolveComps true acc xs = acc.reverse ++ xs := by
  intro xs
  induction xs with
  | nil =>
    intro acc _
    simp [resolveComps]
  | cons c cs ih =>
    intro acc hw
    obtain ⟨h1, h2, h3, h4⟩ := hw c (List.mem_cons_self c cs)
    have hif1 : ¬ (c = [] ∨ c = ['.']) := by
      rintro (h | h)
      · exact h1 h
      · exact h3 h
    unfold resolveComps
    rw [if_neg hif1, if_neg h4,
      ih (c :: acc) (fun x hx => hw x (List.mem_cons_of_mem c hx))]
    simp

theorem resolveComps_rooted_wf : ∀ (xs acc : List GoStr),
    (∀ c ∈ acc, WfComp c) → (∀ c ∈ xs, '/' ∉ c) →
    ∀ c ∈ resolveComps true acc xs, WfComp c := by
  intro xs
  induction xs with
  | nil =>
    intro acc hacc _ c hc
    unfold resolveComps at hc
    exact hacc c (List.mem_reverse.mp hc)
  | cons x cs ih =>
    intro acc hacc hx c hc
    unfold resolveComps at hc
    by_cases h1 : x = [] ∨ x = ['.']
    · rw [if_pos h1] at hc
      exact ih acc hacc (fun y hy => hx y (List.mem_cons_of_mem x hy)) c hc
    · rw [if_neg h1] at hc
      by_cases h2 : x = ['.', '.']
      · rw [if_pos h2] at hc
        cases hacc2 : acc with
        | nil =>
          rw [hacc2] at hc
          exact ih [] (by intro y hy; cases hy)
            (fun y hy => hx y (List.mem_cons_of_mem x hy)) c (by simpa using hc)
        | cons a as =>
          rw [hacc2] at hc
          have ha := hacc a (hacc2 ▸ List.mem_cons_self a as)
          have hc2 : c ∈ (if a = ['.', '.'] then resolveComps true (x :: a :: as) cs
              else resolveComps true as cs) := hc
          rw [if_neg ha.2.2.2] at hc2
          exact ih as (fun y hy => hacc y (hacc2 ▸ List.mem_cons_of_mem a hy))
            (fun y hy => hx y (List.mem_cons_of_mem x hy)) c hc2
      · rw [if_neg h2] at hc
        refine ih (x :: acc) ?_ (fun y hy => hx y (List.mem_cons_of_mem x hy)) c hc
        intro y hy
        rcases List.mem_cons.mp hy with hy | hy
        · rw [hy]
          exact ⟨fun he => h1 (Or.inl he), hx x (List.mem_cons_self x cs),
            fun he => h1 (Or.inr he), h2⟩
        · exact hacc y hy

theorem cleanComps_renderRooted (d : List GoStr) (hd : ∀ c ∈ d, WfComp c) :
    cleanComps (renderRooted d) = d := by
  cases d with
  | nil => rfl
  | cons c cs =>
    show resolveComps true [] (splitSlash ('/' :: joinComps (c :: cs))) = c :: cs
    have h1 : splitSlash ('/' :: joinComps (c :: cs))
        = [] :: splitSlash (joinComps (c :: cs)) := by
      simp [splitSlash]
    rw [h1, splitSlash_joinComps (c :: cs) (fun x hx => (hd x hx).2.1) (by simp)]
    show resolveComps true [] ([] :: c :: cs) = c :: cs
    unfold resolveComps
    rw [if_pos (Or.inl rfl)]
    simpa using resolveComps_wf_append (c :: cs) [] hd

theorem goClean_renderRooted (d : List GoStr) (hd : ∀ c ∈ d, WfComp c) :
    goClean (renderRooted d) = renderRooted d := by
  have h := cleanComps_renderRooted d hd
  show goClean ('/' :: joinComps d) = renderRooted d
  have h2 : goClean ('/' :: joinComps d)
      = renderRooted (cleanComps ('/' :: joinComps d)) := by
    simp [goClean]
  rw [h2]
  exact congrArg renderRooted h

theorem prefix_slash_not_in (u : GoStr) : ∀ (a b : GoStr), '/' ∉ b →
    (a ++ '/' :: u).isPrefixOf b = false := by
  intro a
  induction a with
  | nil =>
    intro b hb
    cases b with
    | nil => rfl
    | cons y bs =>
      have hy : ('/' : Char) ≠ y := fun he => hb (by rw [he]; exact List.mem_cons_self y bs)
      have hbeq : (('/' : Char) == y) = false := beq_eq_false_iff_ne.mpr hy
      simp [List.isPrefixOf, hbeq]
  | cons x as ih =>
    intro b hb
    cases b with
    | nil => rfl
    | cons y bs =>
      simp only [List.cons_append, List.isPrefixOf]
      by_cases hxy : x = y
      · have hr : '/' ∉ bs := fun hm => hb (List.mem_cons_of_mem y hm)
        simp [hxy, ih bs hr]
      · simp [beq_eq_false_iff_ne.mpr hxy]

theorem prefix_slash_cancel : ∀ (a b u v : GoStr), '/' ∉ a → '/' ∉ b →
    (a ++ '/' :: u).isPrefixOf (b ++ '/' :: v) = true →
    a = b ∧ u.isPrefixOf v = true := by
  intro a
  induction a with
  | nil =>
    intro b u v _ hb hp
    cases b with
    | nil =>
      simp only [List.nil_append, List.isPrefixOf, Bool.and_eq_true, beq_iff_eq] at hp
      exact ⟨rfl, hp.2⟩
    | cons y bs =>
      simp only [List.nil_append, List.cons_append, List.isPrefixOf,
        Bool.and_eq_true, beq_iff_eq] at hp
      exact absurd hp.1 (fun he => hb (by rw [he]; exact List.mem_cons_self y bs))
  | cons x as ih =>
    intro b u v ha hb hp
    cases b with
    | nil =>
      simp only [List.cons_append, List.nil_append, List.isPrefixOf,
        Bool.and_eq_true, beq_iff_eq] at hp
      exact absurd hp.1 (fun he => ha (by rw [← he]; exact List.mem_cons_self x as))
    | cons y bs =>
      simp only [List.cons_append, List.isPrefixOf, Bool.and_eq_true, beq_iff_eq] at hp
      obtain ⟨hxy, hp2⟩ := hp
      have ha2 : '/' ∉ as := fun hm => ha (List.mem_cons_of_mem x hm)
      have hb2 : '/' ∉ bs := fun hm => hb (List.mem_cons_of_mem y hm)
      obtain ⟨he, hu⟩ := ih bs u v ha2 hb2 hp2
      exact ⟨by rw [hxy, he], hu⟩

theorem joinComps_prefix_sound : ∀ (d t : List GoStr),
    (∀ c ∈ d, c ≠ [] ∧ '/' ∉ c) → (∀ c ∈ t, c ≠ [] ∧ '/' ∉ c) →
    (joinComps d ++ ['/']).isPrefixOf (joinComps t) = true → d <+: t ∧ d ≠ t := by
  intro d
  induction d with
  | nil =>
    intro t _ _ hp
    refine ⟨List.nil_prefix, ?_⟩
    intro he
    rw [← he] at hp
    simp [joinComps, List.isPrefixOf] at hp
  | cons c cs ih =>
    intro t hd ht hp
    cases t with
    | nil =>
      exfalso
      cases hj : joinComps (c :: cs) ++ ['/'] with
      | nil => simp at hj
      | cons z zs =>
        rw [show joinComps [] = [] from rfl, hj] at hp
        simp [List.isPrefixOf] at hp
    | cons b ts =>
      obtain ⟨hc1, hc2⟩ := hd c (List.mem_cons_self c cs)
      obtain ⟨hb1, hb2⟩ := ht b (List.mem_cons_self b ts)
      cases cs with
      | nil =>
        cases ts with
        | nil =>
          rw [show joinComps [c] = c from rfl, show joinComps [b] = b from rfl,
            prefix_slash_not_in [] c b hb2] at hp
          cases hp
        | cons t2 ts2 =>
          rw [show joinComps [c] = c from rfl,
            joinComps_cons b (t2 :: ts2) (by simp)] at hp
          obtain ⟨he, _⟩ := prefix_slash_cancel c b [] (joinComps (t2 :: ts2)) hc2 hb2 hp
          subst he
          exact ⟨List.cons_prefix_cons.mpr ⟨rfl, List.nil_prefix⟩, by simp⟩
      | cons c2 cs2 =>
        rw [joinComps_cons c (c2 :: cs2) (by simp)] at hp
        simp only [List.cons_append, List.append_assoc] at hp
        cases ts with
        | nil =>
          rw [show joinComps [b] = b from rfl,
            prefix_slash_not_in (joinComps (c2 :: cs2) ++ ['/']) c b hb2] at hp
          cases hp
        | cons t2 ts2 =>
          rw [joinComps_cons b (t2 :: ts2) (by simp)] at hp
          obtain ⟨he, hp2⟩ := prefix_slash_cancel c b (joinComps (c2 :: cs2) ++ ['/'])
            (joinComps (t2 :: ts2)) hc2 hb2 hp
          subst he
          obtain ⟨hpre, hne⟩ := ih (t2 :: ts2)
            (fun x hx => hd x (List.mem_cons_of_mem c hx))
            (fun x hx => ht x (List.mem_cons_of_mem c hx)) hp2
          exact ⟨List.cons_prefix_cons.mpr ⟨rfl, hpre⟩, by simpa using hne⟩

theorem isPrefixOf_append_singleton (x : GoStr) (a : Char) :
    (x ++ [a]).isPrefixOf x = false := by
  cases h : (x ++ [a]).isPrefixOf x with
  | false => rfl
  | true =>
    have hpre : x ++ [a] <+: x := by
      rw [← List.isPrefixOf_iff_prefix]
      exact h
    have hlen := hpre.length_le
    simp at hlen

/-- Soundness of the zip-slip check: when the joined path passes the
`HasPrefix(Clean(dest) + "/")` test against a well-formed destination root
`d`, the resolved target has well-formed components and lies strictly
inside `d`. -/
theorem goJoin_dest_check {d : List GoStr} (name : GoStr) (hd : ∀ c ∈ d, WfComp c)
    (hchk : goHasPrefix (goJoin (renderRooted d) name)
      (goClean (renderRooted d) ++ ['/']) = true) :
    (∀ c ∈ cleanComps (goJoin (renderRooted d) name), WfComp c) ∧
    d <+: cleanComps (goJoin (renderRooted d) name) ∧
    d ≠ cleanComps (goJoin (renderRooted d) name) := by
  rw [goClean_renderRooted d hd] at hchk
  by_cases hname : name = []
  · subst hname
    have hj : goJoin (renderRooted d) [] = renderRooted d := by
      show goJoin ('/' :: joinComps d) [] = renderRooted d
      unfold goJoin
      rw [if_neg (by simp), if_pos rfl]
      exact goClean_renderRooted d hd
    rw [hj] at hchk
    unfold goHasPrefix at hchk
    rw [isPrefixOf_append_singleton] at hchk
    cases hchk
  · have hj : goJoin (renderRooted d) name
        = renderRooted (cleanComps (renderRooted d ++ '/' :: name)) := by
      show goJoin ('/' :: joinComps d) name = _
      unfold goJoin
      rw [if_neg (by simp), if_neg hname]
      show goClean ('/' :: (joinComps d ++ '/' :: name)) = _
      have h2 : goClean ('/' :: (joinComps d ++ '/' :: name))
          = renderRooted (cleanComps ('/' :: (joinComps d ++ '/' :: name))) := by
        simp [goClean]
      rw [h2]
      rfl
    have hTwf : ∀ c ∈ cleanComps (renderRooted d ++ '/' :: name), WfComp c := by
      intro c hc
      unfold cleanComps at hc
      exact resolveComps_rooted_wf _ [] (by intro y hy; cases hy)
        (mem_splitSlash_no_slash _) c hc
    have hTeq : cleanComps (goJoin (renderRooted d) name)
        = cleanComps (renderRooted d ++ '/' :: name) := by
      rw [hj, cleanComps_renderRooted _ hTwf]
    rw [hj] at hchk
    unfold goHasPrefix at hchk
    have hchk2 : (joinComps d ++ ['/']).isPrefixOf
        (joinComps (cleanComps (renderRooted d ++ '/' :: name))) = true := by
      have h3 : (renderRooted d ++ ['/']).isPrefixOf
          (renderRooted (cleanComps (renderRooted d ++ '/' :: name))) = true := hchk
      show _ = true
      have h4 : renderRooted d ++ ['/'] = '/' :: (joinComps d ++ ['/']) := rfl
      rw [h4] at h3
      simpa [List.isPrefixOf] using h3
    obtain ⟨hpre, hne⟩ := joinComps_prefix_sound d
      (cleanComps (renderRooted d ++ '/' :: name))
      (fun c hc => ⟨(hd c hc).1, (hd c hc).2.1⟩)
      (fun c hc => ⟨(hTwf c hc).1, (hTwf c hc).2.1⟩) hchk2
    rw [hTeq]
    exact ⟨hTwf, hpre, hne⟩

theorem ancestors_mem {p q : Path} (h : q ∈ ancestors p) : q <+: p ∧ q ≠ [] := by
  unfold ancestors at h
  obtain ⟨i, hi, hq⟩ := List.mem_map.mp h
  have hlt := List.mem_range.mp hi
  subst hq
  refine ⟨List.take_prefix _ _, ?_⟩
  intro he
  rcases List.take_eq_nil_iff.mp he with h | h
  · exact absurd h (by omega)
  · rw [h] at hlt
    simp at hlt

theorem chainFold_changed_dir {q : Path} (mode : Nat) :
    ∀ (l : List Path) (fs : Fs), (∀ r ∈ l, r ≠ []) →
    statNode (l.foldl
      (fun acc r => if (statNode acc r).isSome then acc else fsSet acc r (Node.dir mode)) fs)
      q ≠ statNode fs q →
    statNode (l.foldl
      (fun acc r => if (statNode acc r).isSome then acc else fsSet acc r (Node.dir mode)) fs)
      q = some (Node.dir mode) := by
  intro l
  induction l with
  | nil =>
    intro fs _ hch
    exact absurd rfl hch
  | cons a l ih =>
    intro fs hnil hch
    rw [List.foldl_cons] at hch ⊢
    by_cases h2 : statNode (l.foldl
        (fun acc r => if (statNode acc r).isSome then acc else fsSet acc r (Node.dir mode))
        (if (statNode fs a).isSome then fs else fsSet fs a (Node.dir mode))) q
        = statNode (if (statNode fs a).isSome then fs else fsSet fs a (Node.dir mode)) q
    · rw [h2] at hch ⊢
      by_cases hsome : (statNode fs a).isSome
      · rw [if_pos hsome] at hch
        exact absurd rfl hch
      · rw [if_neg hsome] at hch ⊢
        by_cases hqa : q = a
        · subst hqa
          exact statNode_fsSet_self fs _ (hnil q (List.mem_cons_self q l))
        · rw [statNode_fsSet_ne fs _ hqa] at hch
          exact absurd rfl hch
    · exact ih _ (fun r hr => hnil r (List.mem_cons_of_mem a hr)) h2

theorem mkdirChain_changed_dir {fs : Fs} {p q : Path} {mode : Nat}
    (hch : statNode (mkdirChain fs p mode) q ≠ statNode fs q) :
    statNode (mkdirChain fs p mode) q = some (Node.dir mode) ∧ q <+: p := by
  have hmem : q ∈ ancestors p := by
    by_contra hnm
    exact hch (mkdirChain_preserve_notmem p mode hnm)
  exact ⟨chainFold_changed_dir mode (ancestors p) fs (fun r hr => (ancestors_mem hr).2) hch,
    (ancestors_mem hmem).1⟩

theorem osMkdirAll_frame {env : Env} {fs : Fs} {p q : Path} {m : Nat}
    (hq : q ∉ ancestors p) :
    statNode (osMkdirAll env fs p m).1 q = statNode fs q := by
  rcases osMkdirAll_cases env fs p m with hc | ⟨hc, _⟩
  · rw [hc]
  · rw [hc]
    exact mkdirChain_preserve_notmem p m hq

theorem osMkdirAll_changed_dir {env : Env} {fs : Fs} {p q : Path} {m : Nat}
    (hch : statNode (osMkdirAll env fs p m).1 q ≠ statNode fs q) :
    (∃ m2, statNode (osMkdirAll env fs p m).1 q = some (Node.dir m2)) ∧ q <+: p := by
  rcases osMkdirAll_cases env fs p m with hc | ⟨hc, _⟩
  · rw [hc] at hch
    exact absurd rfl hch
  · rw [hc] at hch ⊢
    obtain ⟨h1, h2⟩ := mkdirChain_changed_dir hch
    exact ⟨⟨m, h1⟩, h2⟩

/-- Per-record confinement: the materialization of a record at `target`
only ever mutates prefixes of `target`, and every mutated path other than
`target` itself is left as a directory. -/
theorem extractTarget_confine {env : Env} {fs : Fs} {file : ZipEntry} {T : Path}
    {q : Path}
    (hq : statNode (extractTarget env fs file T).1 q ≠ statNode fs q) :
    q <+: T ∧ (q = T ∨ ∃ m, statNode (extractTarget env fs file T).1 q
      = some (Node.dir m)) := by
  simp only [extractTarget] at hq ⊢
  by_cases hisdir : file.isDir = true
  · rw [if_pos hisdir] at hq ⊢
    obtain ⟨⟨m2, hm2⟩, hpre⟩ := osMkdirAll_changed_dir hq
    exact ⟨hpre, Or.inr ⟨m2, hm2⟩⟩
  · rw [if_neg hisdir] at hq ⊢
    by_cases hs1 : (osMkdirAll env fs T.dropLast 0o755).2 = true
    · have hs1n : (!(osMkdirAll env fs T.dropLast 0o755).2) = false := by rw [hs1]; rfl
      rw [hs1n] at hq ⊢
      simp only [Bool.false_eq_true, if_false] at hq ⊢
      by_cases hs2 : (osCreateTrunc env (osMkdirAll env fs T.dropLast 0o755).1 T
          file.mode).2 = true
      · have hs2n : (!(osCreateTrunc env (osMkdirAll env fs T.dropLast 0o755).1 T
            file.mode).2) = false := by rw [hs2]; rfl
        rw [hs2n] at hq ⊢
        simp only [Bool.false_eq_true, if_false] at hq ⊢
        by_cases hqT : q = T
        · exact ⟨hqT ▸ List.prefix_refl q, Or.inl hqT⟩
        · rw [ioCopyInto_frame hqT, osCreateTrunc_frame hqT] at hq
          obtain ⟨⟨m2, hm2⟩, hpre⟩ := osMkdirAll_changed_dir hq
          refine ⟨hpre.trans (List.dropLast_prefix T), Or.inr ⟨m2, ?_⟩⟩
          rw [ioCopyInto_frame hqT, osCreateTrunc_frame hqT]
          exact hm2
      · have hs2f : (osCreateTrunc env (osMkdirAll env fs T.dropLast 0o755).1 T
            file.mode).2 = false := Bool.eq_false_iff.mpr hs2
        have hs2n : (!(osCreateTrunc env (osMkdirAll env fs T.dropLast 0o755).1 T
            file.mode).2) = true := by rw [hs2f]; rfl
        rw [hs2n] at hq ⊢
        simp only [if_true] at hq ⊢
        rw [osCreateTrunc_fail_eq hs2f] at hq ⊢
        obtain ⟨⟨m2, hm2⟩, hpre⟩ := osMkdirAll_changed_dir hq
        exact ⟨hpre.trans (List.dropLast_prefix T), Or.inr ⟨m2, hm2⟩⟩
    · have hs1f : (osMkdirAll env fs T.dropLast 0o755).2 = false :=
        Bool.eq_false_iff.mpr hs1
      have hs1n : (!(osMkdirAll env fs T.dropLast 0o755).2) = true := by rw [hs1f]; rfl
      rw [hs1n] at hq ⊢
      simp only [if_true] at hq ⊢
      obtain ⟨⟨m2, hm2⟩, hpre⟩ := osMkdirAll_changed_dir hq
      exact ⟨hpre.trans (List.dropLast_prefix T), Or.inr ⟨m2, hm2⟩⟩

theorem extractZipFile_eq (env : Env) (fs : Fs) (file : ZipEntry) (destPath : GoStr) :
    extractZipFile env fs file destPath
      = if goHasPrefix (goJoin destPath file.name) (goClean destPath ++ ['/'])
        then extractTarget env fs file (cleanComps (goJoin destPath file.name))
        else (fs, false) := by
  unfold extractZipFile
  cases h : goHasPrefix (goJoin destPath file.name) (goClean destPath ++ ['/']) <;> simp [h]

/-- Per-record confinement against a well-formed destination root: a record
can only mutate paths strictly inside the root or leave ancestor
directories of the root. -/
theorem extractZipFile_confine (env : Env) (fs : Fs) (file : ZipEntry) (d : Path)
    (hd : ∀ c ∈ d, WfComp c) (q : Path)
    (hq : statNode (extractZipFile env fs file (renderRooted d)).1 q ≠ statNode fs q) :
    (d <+: q ∧ d ≠ q) ∨
    (q <+: d ∧ ∃ m, statNode (extractZipFile env fs file (renderRooted d)).1 q
      = some (Node.dir m)) := by
  rw [extractZipFile_eq] at hq ⊢
  by_cases hchk : goHasPrefix (goJoin (renderRooted d) file.name)
      (goClean (renderRooted d) ++ ['/']) = true
  · rw [if_pos hchk] at hq ⊢
    obtain ⟨hTwf, hpre, hneq⟩ := goJoin_dest_check file.name hd hchk
    obtain ⟨hqT, hrest⟩ := extractTarget_confine hq
    rcases hrest with he | ⟨m, hm⟩
    · subst he
      exact Or.inl ⟨hpre, hneq⟩
    · rcases List.prefix_or_prefix_of_prefix hqT hpre with h | h
      · exact Or.inr ⟨h, m, hm⟩
      · by_cases hdq : d = q
        · exact Or.inr ⟨hdq ▸ List.prefix_refl q, m, hm⟩
        · exact Or.inl ⟨h, hdq⟩
  · rw [if_neg hchk] at hq
    exact absurd rfl hq

theorem extractEntries_nil (env : Env) (fs : Fs) (dp : GoStr) :
    extractEntries env fs [] dp = (fs, true) := rfl

theorem extractEntries_cons (env : Env) (fs : Fs) (e : ZipEntry) (es : List ZipEntry)
    (dp : GoStr) :
    extractEntries env fs (e :: es) dp
      = (if !(extractZipFile env fs e dp).2 then ((extractZipFile env fs e dp).1, false)
         else extractEntries env (extractZipFile env fs e dp).1 es dp) := rfl

/-- Whole-loop confinement: the record loop only mutates paths strictly
inside the well-formed destination root, or leaves ancestor directories of
the root. -/
theorem extractEntries_confine (env : Env) (d : Path) (hd : ∀ c ∈ d, WfComp c) :
    ∀ (entries : List ZipEntry) (fs : Fs) (q : Path),
    statNode (extractEntries env fs entries (renderRooted d)).1 q ≠ statNode fs q →
    (d <+: q ∧ d ≠ q) ∨
    (q <+: d ∧ ∃ m, statNode (extractEntries env fs entries (renderRooted d)).1 q
      = some (Node.dir m)) := by
  intro entries
  induction entries with
  | nil =>
    intro fs q hq
    exact absurd rfl hq
  | cons e es ih =>
    intro fs q hq
    rw [extractEntries_cons] at hq ⊢
    by_cases hr : (extractZipFile env fs e (renderRooted d)).2 = true
    · have hrn : (!(extractZipFile env fs e (renderRooted d)).2) = false := by
        rw [hr]; rfl
      rw [hrn] at hq ⊢
      simp only [Bool.false_eq_true, if_false] at hq ⊢
      by_cases h2 : statNode (extractEntries env
          (extractZipFile env fs e (renderRooted d)).1 es (renderRooted d)).1 q
          = statNode (extractZipFile env fs e (renderRooted d)).1 q
      · rw [h2] at hq ⊢
        exact extractZipFile_confine env fs e d hd q hq
      · exact ih (extractZipFile env fs e (renderRooted d)).1 q h2
    · have hrf : (extractZipFile env fs e (renderRooted d)).2 = false :=
        Bool.eq_false_iff.mpr hr
      have hrn : (!(extractZipFile env fs e (renderRooted d)).2) = true := by
        rw [hrf]; rfl
      rw [hrn] at hq ⊢
      simp only [if_true] at hq ⊢
      exact extractZipFile_confine env fs e d hd q hq

theorem archivePrep_fail_eq {env : Env} {fs : Fs} {dest : Path}
    (h : (archivePrep env fs dest).2 = false) : (archivePrep env fs dest).1 = fs := by
  unfold archivePrep at h ⊢
  by_cases hdir : IsDirectory fs dest = true
  · rw [hdir] at h ⊢
    simp at h
  · have hdf : IsDirectory fs dest = false := Bool.eq_false_iff.mpr hdir
    rw [hdf] at h ⊢
    simp only [Bool.not_false, if_true] at h ⊢
    exact osMkdirAll_fail_eq h

theorem archivePrep_changed_dir {env : Env} {fs : Fs} {dest q : Path}
    (hch : statNode (archivePrep env fs dest).1 q ≠ statNode fs q) :
    (∃ m, statNode (archivePrep env fs dest).1 q = some (Node.dir m)) ∧ q <+: dest := by
  unfold archivePrep at hch ⊢
  by_cases hdir : IsDirectory fs dest = true
  · rw [hdir] at hch
    simp at hch
  · have hdf : IsDirectory fs dest = false := Bool.eq_false_iff.mpr hdir
    rw [hdf] at hch ⊢
    simp only [Bool.not_false, if_true] at hch ⊢
    exact osMkdirAll_changed_dir hch

theorem extractEntries_append (env : Env) (dp : GoStr) :
    ∀ (xs ys : List ZipEntry) (fs : Fs),
    extractEntries env fs (xs ++ ys) dp
      = (if (extractEntries env fs xs dp).2
         then extractEntries env (extractEntries env fs xs dp).1 ys dp
         else extractEntries env fs xs dp) := by
  intro xs
  induction xs with
  | nil =>
    intro ys fs
    simp [extractEntries_nil]
  | cons e es ih =>
    intro ys fs
    rw [List.cons_append, extractEntries_cons, extractEntries_cons]
    by_cases hr : (extractZipFile env fs e dp).2 = true
    · have hrn : (!(extractZipFile env fs e dp).2) = false := by rw [hr]; rfl
      rw [hrn]
      simp only [Bool.false_eq_true, if_false]
      exact ih ys _
    · have hrf : (extractZipFile env fs e dp).2 = false := Bool.eq_false_iff.mpr hr
      have hrn : (!(extractZipFile env fs e dp).2) = true := by rw [hrf]; rfl
      rw [hrn]
      simp

/-- A record whose resolved target is not strictly inside the well-formed
root `d` is rejected by the zip-slip check without touching the state. -/
theorem extractZipFile_escape {d : Path} (env : Env) (fs : Fs) (e : ZipEntry)
    (hd : ∀ c ∈ d, WfComp c)
    (hesc : ¬ (d <+: cleanComps (goJoin (renderRooted d) e.name) ∧
               d ≠ cleanComps (goJoin (renderRooted d) e.name))) :
    extractZipFile env fs e (renderRooted d) = (fs, false) := by
  rw [extractZipFile_eq]
  by_cases hchk : goHasPrefix (goJoin (renderRooted d) e.name)
      (goClean (renderRooted d) ++ ['/']) = true
  · obtain ⟨_, h2, h3⟩ := goJoin_dest_check e.name hd hchk
    exact absurd ⟨h2, h3⟩ hesc
  · rw [if_neg hchk]

/-- C1 counterexample: a record with the absolute name `/etc/passwd` does
not cause the extraction to fail.  `filepath.Join` re-roots it inside the
destination: extraction into `/tmp/out` succeeds and the payload lands at
`/tmp/out/etc/passwd`, not at `/etc/passwd`. -/
theorem C1_counterexample :
    (ExtractArchive Env.allOK fsW1 [entW1] ["tmp".data, "out".data]).2 = true ∧
    statNode (ExtractArchive Env.allOK fsW1 [entW1] ["tmp".data, "out".data]).1
      ["tmp".data, "out".data, "etc".data, "passwd".data]
      = some (Node.file 0o644 [7]) ∧
    statNode (ExtractArchive Env.allOK fsW1 [entW1] ["tmp".data, "out".data]).1
      ["etc".data, "passwd".data] = none := by decide

/-- C1 (amended): extraction into a well-formed destination root never
touches any path outside the root - every mutated path is either strictly
inside the root or is the root itself or one of its ancestors, left as a
directory by `MkdirAll`; and any record whose `Join`-resolved target is not
strictly inside the root (as every record whose relative path would escape
via `..` segments resolves) is rejected by the zip-slip check and aborts
the whole extraction at that record, with the state exactly as after the
preceding records.  (An absolute record name, however, is re-rooted inside
the destination by `filepath.Join` and extracts without error.) -/
theorem C1_amended (env : Env) (fs : Fs) (entries : List ZipEntry) (dest : Path)
    (hd : ∀ c ∈ dest, WfComp c) :
    (∀ q, statNode (ExtractArchive env fs entries dest).1 q ≠ statNode fs q →
      (dest <+: q ∧ dest ≠ q) ∨
      (q <+: dest ∧ ∃ m, statNode (ExtractArchive env fs entries dest).1 q
        = some (Node.dir m))) ∧
    (∀ pre e post,
      ¬ (dest <+: cleanComps (goJoin (renderRooted dest) e.name) ∧
         dest ≠ cleanComps (goJoin (renderRooted dest) e.name)) →
      ExtractArchive env fs (pre ++ e :: post) dest
        = (if (ExtractArchive env fs pre dest).2
           then ((ExtractArchive env fs pre dest).1, false)
           else ExtractArchive env fs pre dest)) := by
  constructor
  · intro q hq
    unfold ExtractArchive at hq ⊢
    by_cases hs1 : (archivePrep env fs dest).2 = true
    · have hn : (!(archivePrep env fs dest).2) = false := by rw [hs1]; rfl
      rw [hn] at hq ⊢
      simp only [Bool.false_eq_true, if_false] at hq ⊢
      by_cases h2 : statNode (extractEntries env (archivePrep env fs dest).1 entries
          (renderRooted dest)).1 q = statNode (archivePrep env fs dest).1 q
      · rw [h2] at hq ⊢
        obtain ⟨⟨m, hm⟩, hpre⟩ := archivePrep_changed_dir hq
        exact Or.inr ⟨hpre, m, hm⟩
      · rcases extractEntries_confine env dest hd entries (archivePrep env fs dest).1 q h2
          with h | h
        · exact Or.inl h
        · exact Or.inr h
    · have hf : (archivePrep env fs dest).2 = false := Bool.eq_false_iff.mpr hs1
      have hn : (!(archivePrep env fs dest).2) = true := by rw [hf]; rfl
      rw [hn] at hq
      simp only [if_true] at hq
      rw [archivePrep_fail_eq hf] at hq
      exact absurd rfl hq
  · intro pre e post hesc
    unfold ExtractArchive
    by_cases hs1 : (archivePrep env fs dest).2 = true
    · have hn : (!(archivePrep env fs dest).2) = false := by rw [hs1]; rfl
      rw [hn]
      simp only [Bool.false_eq_true, if_false]
      rw [extractEntries_append]
      by_cases hp : (extractEntries env (archivePrep env fs dest).1 pre
          (renderRooted dest)).2 = true
      · rw [if_pos hp, if_pos hp]
        rw [extractEntries_cons,
          extractZipFile_escape env (extractEntries env (archivePrep env fs dest).1 pre
            (renderRooted dest)).1 e hd hesc]
        simp
      · rw [if_neg hp, if_neg hp]
    · have hf : (archivePrep env fs dest).2 = false := Bool.eq_false_iff.mpr hs1
      have hn : (!(archivePrep env fs dest).2) = true := by rw [hf]; rfl
      rw [hn]
      simp

theorem C1_amended_witness :
    (∀ c ∈ ["tmp".data, "out".data], WfComp c) ∧
    ((∀ q, statNode (ExtractArchive Env.allOK fsW1 [entW1] ["tmp".data, "out".data]).1 q
        ≠ statNode fsW1 q →
      (["tmp".data, "out".data] <+: q ∧ ["tmp".data, "out".data] ≠ q) ∨
      (q <+: ["tmp".data, "out".data] ∧
        ∃ m, statNode (ExtractArchive Env.allOK fsW1 [entW1]
          ["tmp".data, "out".data]).1 q = some (Node.dir m))) ∧
    (∀ pre e post,
      ¬ (["tmp".data, "out".data]
            <+: cleanComps (goJoin (renderRooted ["tmp".data, "out".data]) e.name) ∧
         ["tmp".data, "out".data]
            ≠ cleanComps (goJoin (renderRooted ["tmp".data, "out".data]) e.name)) →
      ExtractArchive Env.allOK fsW1 (pre ++ e :: post) ["tmp".data, "out".data]
        = (if (ExtractArchive Env.allOK fsW1 pre ["tmp".data, "out".data]).2
           then ((ExtractArchive Env.allOK fsW1 pre ["tmp".data, "out".data]).1, false)
           else ExtractArchive Env.allOK fsW1 pre ["tmp".data, "out".data]))) :=
  ⟨by decide, C1_amended Env.allOK fsW1 [entW1] ["tmp".data, "out".data] (by decide)⟩

theorem osCreateTrunc_mono (p : Path) (m : Nat) {env : Env} {fs : Fs} {q : Path}
    {n : Node} (h : statNode fs q = some n) :
    ∃ n2, statNode (osCreateTrunc env fs p m).1 q = some n2 := by
  by_cases hs : (osCreateTrunc env fs p m).2 = true
  · obtain ⟨hp, m2, heq⟩ := osCreateTrunc_success hs
    rw [heq]
    by_cases hq : q = p
    · subst hq
      exact ⟨Node.file m2 [], statNode_fsSet_self fs _ hp⟩
    · exact ⟨n, by rw [statNode_fsSet_ne fs _ hq]; exact h⟩
  · rw [osCreateTrunc_fail_eq (Bool.eq_false_iff.mpr hs)]
    exact ⟨n, h⟩

theorem ioCopyInto_mono (dst : Path) (c : List Nat) {env : Env} {fs : Fs} {q : Path}
    {n : Node} (h : statNode fs q = some n) :
    ∃ n2, statNode (ioCopyInto env fs dst c).1 q = some n2 := by
  unfold ioCopyInto
  by_cases hio : env.ioCopyOK dst = true
  · rw [if_pos hio]
    by_cases hqnil : q = []
    · subst hqnil
      exact ⟨Node.dir 0o755, statNode_nil _⟩
    · by_cases hq : q = dst
      · subst hq
        exact ⟨Node.file (fileModeAt fs q) c, statNode_fsSet_self fs _ hqnil⟩
      · exact ⟨n, by rw [statNode_fsSet_ne fs _ hq]; exact h⟩
  · rw [if_neg hio]
    exact ⟨n, h⟩

theorem extractTarget_mono (T : Path) {env : Env} {fs : Fs} {file : ZipEntry} {q : Path}
    {n : Node} (h : statNode fs q = some n) :
    ∃ n2, statNode (extractTarget env fs file T).1 q = some n2 := by
  simp only [extractTarget]
  by_cases hisdir : file.isDir = true
  · rw [if_pos hisdir]
    exact ⟨n, osMkdirAll_preserve_some T file.mode h⟩
  · rw [if_neg hisdir]
    have h1 : statNode (osMkdirAll env fs T.dropLast 0o755).1 q = some n :=
      osMkdirAll_preserve_some _ _ h
    by_cases hs1 : (osMkdirAll env fs T.dropLast 0o755).2 = true
    · rw [show (!(osMkdirAll env fs T.dropLast 0o755).2) = false by rw [hs1]; rfl]
      simp only [Bool.false_eq_true, if_false]
      obtain ⟨n2, h2⟩ := osCreateTrunc_mono T file.mode h1
      by_cases hs2 : (osCreateTrunc env (osMkdirAll env fs T.dropLast 0o755).1 T
          file.mode).2 = true
      · rw [show (!(osCreateTrunc env (osMkdirAll env fs T.dropLast 0o755).1 T
            file.mode).2) = false by rw [hs2]; rfl]
        simp only [Bool.false_eq_true, if_false]
        exact ioCopyInto_mono T file.content h2
      · rw [show (!(osCreateTrunc env (osMkdirAll env fs T.dropLast 0o755).1 T
            file.mode).2) = true by rw [Bool.eq_false_iff.mpr hs2]; rfl]
        simp only [if_true]
        exact ⟨n2, h2⟩
    · rw [show (!(osMkdirAll env fs T.dropLast 0o755).2) = true by
        rw [Bool.eq_false_iff.mpr hs1]; rfl]
      simp only [if_true]
      exact ⟨n, h1⟩

/-- Extraction of a single record never removes an existing binding - it
only creates or overwrites. -/
theorem extractZipFile_mono (env : Env) (fs : Fs) (e : ZipEntry) (dp : GoStr)
    (q : Path) (n : Node) (h : statNode fs q = some n) :
    ∃ n2, statNode (extractZipFile env fs e dp).1 q = some n2 := by
  rw [extractZipFile_eq]
  by_cases hchk : goHasPrefix (goJoin dp e.name) (goClean dp ++ ['/']) = true
  · rw [if_pos hchk]
    exact extractTarget_mono _ h
  · rw [if_neg hchk]
    exact ⟨n, h⟩

/-- C10: `ExtractArchive` is not atomic on failure.  When the records
before `e` extract successfully and `e` then fails (for example, rejected
by the path-traversal check), the call returns failure immediately - the
state is exactly what the failing record left, the records after `e` are
never processed - and every path materialized by the earlier records is
still present: no rollback or cleanup happens. -/
theorem C10_not_atomic (env : Env) (fs : Fs) (dest : Path) (pre : List ZipEntry)
    (e : ZipEntry) (post : List ZipEntry)
    (hpre : (ExtractArchive env fs pre dest).2 = true)
    (hfail : (extractZipFile env (ExtractArchive env fs pre dest).1 e
      (renderRooted dest)).2 = false) :
    (ExtractArchive env fs (pre ++ e :: post) dest).2 = false ∧
    (ExtractArchive env fs (pre ++ e :: post) dest).1
      = (extractZipFile env (ExtractArchive env fs pre dest).1 e (renderRooted dest)).1 ∧
    (∀ q n, statNode (ExtractArchive env fs pre dest).1 q = some n →
      ∃ n2, statNode (ExtractArchive env fs (pre ++ e :: post) dest).1 q = some n2) := by
  have hprep : (archivePrep env fs dest).2 = true := by
    by_contra hc
    have hf := Bool.eq_false_iff.mpr hc
    unfold ExtractArchive at hpre
    rw [show (!(archivePrep env fs dest).2) = true by rw [hf]; rfl] at hpre
    simp at hpre
  have hEApre : ExtractArchive env fs pre dest
      = extractEntries env (archivePrep env fs dest).1 pre (renderRooted dest) := by
    unfold ExtractArchive
    rw [show (!(archivePrep env fs dest).2) = false by rw [hprep]; rfl]
    simp
  have hEE2 : (extractEntries env (archivePrep env fs dest).1 pre
      (renderRooted dest)).2 = true := by
    rw [← hEApre]
    exact hpre
  have hmain : ExtractArchive env fs (pre ++ e :: post) dest
      = ((extractZipFile env (ExtractArchive env fs pre dest).1 e (renderRooted dest)).1,
         false) := by
    unfold ExtractArchive
    rw [show (!(archivePrep env fs dest).2) = false by rw [hprep]; rfl]
    simp only [Bool.false_eq_true, if_false]
    rw [extractEntries_append, if_pos hEE2, extractEntries_cons]
    rw [hEApre] at hfail
    rw [show (!(extractZipFile env (extractEntries env (archivePrep env fs dest).1 pre
        (renderRooted dest)).1 e (renderRooted dest)).2) = true by rw [hfail]; rfl]
    simp only [if_true]
  refine ⟨by rw [hmain], by rw [hmain], ?_⟩
  intro q n hqn
  rw [hmain]
  exact extractZipFile_mono env _ e (renderRooted dest) q n hqn

theorem C10_witness :
    (ExtractArchive Env.allOK fsW1 [entW10a] ["tmp".data, "out".data]).2 = true ∧
    (extractZipFile Env.allOK
      (ExtractArchive Env.allOK fsW1 [entW10a] ["tmp".data, "out".data]).1 entW10b
      (renderRooted ["tmp".data, "out".data])).2 = false ∧
    ((ExtractArchive Env.allOK fsW1 ([entW10a] ++ entW10b :: [entW10c])
        ["tmp".data, "out".data]).2 = false ∧
     (ExtractArchive Env.allOK fsW1 ([entW10a] ++ entW10b :: [entW10c])
        ["tmp".data, "out".data]).1
       = (extractZipFile Env.allOK
           (ExtractArchive Env.allOK fsW1 [entW10a] ["tmp".data, "out".data]).1 entW10b
           (renderRooted ["tmp".data, "out".data])).1 ∧
     (∀ q n, statNode (ExtractArchive Env.allOK fsW1 [entW10a]
         ["tmp".data, "out".data]).1 q = some n →
       ∃ n2, statNode (ExtractArchive Env.allOK fsW1 ([entW10a] ++ entW10b :: [entW10c])
         ["tmp".data, "out".data]).1 q = some n2)) :=
  ⟨by decide, by decide,
   C10_not_atomic Env.allOK fsW1 ["tmp".data, "out".data] [entW10a] entW10b [entW10c]
     (by decide) (by decide)⟩

/-! ## Order and sorting lemmas for the walk -/

theorem goStrLe_total : ∀ a b : GoStr, goStrLe a b = true ∨ goStrLe b a = true := by
  intro a
  induction a with
  | nil => intro b; exact Or.inl rfl
  | cons x as ih =>
    intro b
    cases b with
    | nil => exact Or.inr rfl
    | cons y bs =>
      by_cases hxy : x < y
      · left
        simp [goStrLe, hxy]
      · by_cases hyx : y < x
        · right
          simp [goStrLe, hyx]
        · have hxy2 : x = y := le_antisymm (not_lt.mp hyx) (not_lt.mp hxy)
          subst hxy2
          rcases ih bs with h | h
          · left
            simp [goStrLe, lt_irrefl, h]
          · right
            simp [goStrLe, lt_irrefl, h]

theorem goStrLe_antisymm : ∀ a b : GoStr, goStrLe a b = true → goStrLe b a = true →
    a = b := by
  intro a
  induction a with
  | nil =>
    intro b _ h2
    cases b with
    | nil => rfl
    | cons y bs => simp [goStrLe] at h2
  | cons x as ih =>
    intro b h1 h2
    cases b with
    | nil => simp [goStrLe] at h1
    | cons y bs =>
      by_cases hxy : x < y
      · simp [goStrLe, hxy, asymm hxy] at h2
      · by_cases hyx : y < x
        · simp [goStrLe, hxy, hyx] at h1
        · have hxy2 : x = y := le_antisymm (not_lt.mp hyx) (not_lt.mp hxy)
          subst hxy2
          simp only [goStrLe, lt_irrefl, if_false] at h1 h2
          rw [ih bs h1 h2]

theorem goStrLe_trans : ∀ a b c : GoStr, goStrLe a b = true → goStrLe b c = true →
    goStrLe a c = true := by
  intro a
  induction a with
  | nil => intro b c _ _; rfl
  | cons x as ih =>
    intro b c h1 h2
    cases b with
    | nil => simp [goStrLe] at h1
    | cons y bs =>
      cases c with
      | nil => simp [goStrLe] at h2
      | cons z cs =>
        by_cases hxy : x < y
        · by_cases hyz : y < z
          · have hxz : x < z := lt_trans hxy hyz
            simp [goStrLe, hxz]
          · by_cases hzy : z < y
            · simp [goStrLe, hyz, hzy] at h2
            · have hyz2 : y = z := le_antisymm (not_lt.mp hzy) (not_lt.mp hyz)
              subst hyz2
              simp [goStrLe, hxy]
        · by_cases hyx : y < x
          · simp [goStrLe, hxy, hyx] at h1
          · have hxy2 : x = y := le_antisymm (not_lt.mp hyx) (not_lt.mp hxy)
            subst hxy2
            simp only [goStrLe, lt_irrefl, if_false] at h1
            by_cases hyz : x < z
            · simp [goStrLe, hyz]
            · by_cases hzy : z < x
              · simp [goStrLe, hyz, hzy] at h2
              · have h3 : x = z := le_antisymm (not_lt.mp hzy) (not_lt.mp hyz)
                subst h3
                simp only [goStrLe, lt_irrefl, if_false] at h2 ⊢
                exact ih bs cs h1 h2

theorem pathLe_total : ∀ a b : Path, pathLe a b = true ∨ pathLe b a = true := by
  intro a
  induction a with
  | nil => intro b; exact Or.inl rfl
  | cons x as ih =>
    intro b
    cases b with
    | nil => exact Or.inr rfl
    | cons y bs =>
      by_cases hxy : x = y
      · subst hxy
        rcases ih bs with h | h
        · left
          simp [pathLe, h]
        · right
          simp [pathLe, h]
      · rcases goStrLe_total x y with h | h
        · left
          simp only [pathLe, if_neg hxy]
          exact h
        · right
          simp only [pathLe, if_neg (Ne.symm hxy)]
          exact h

theorem pathLe_antisymm : ∀ a b : Path, pathLe a b = true → pathLe b a = true →
    a = b := by
  intro a
  induction a with
  | nil =>
    intro b _ h2
    cases b with
    | nil => rfl
    | cons y bs => simp [pathLe] at h2
  | cons x as ih =>
    intro b h1 h2
    cases b with
    | nil => simp [pathLe] at h1
    | cons y bs =>
      by_cases hxy : x = y
      · subst hxy
        simp only [pathLe, if_pos rfl] at h1 h2
        rw [ih bs h1 h2]
      · simp only [pathLe, if_neg hxy] at h1
        simp only [pathLe, if_neg (Ne.symm hxy)] at h2
        exact absurd (goStrLe_antisymm x y h1 h2) hxy

theorem pathLe_trans : ∀ a b c : Path, pathLe a b = true → pathLe b c = true →
    pathLe a c = true := by
  intro a
  induction a with
  | nil => intro b c _ _; rfl
  | cons x as ih =>
    intro b c h1 h2
    cases b with
    | nil => simp [pathLe] at h1
    | cons y bs =>
      cases c with
      | nil => simp [pathLe] at h2
      | cons z cs =>
        by_cases hxy : x = y
        · subst hxy
          simp only [pathLe, if_pos rfl] at h1
          by_cases hyz : x = z
          · subst hyz
            simp only [pathLe, if_pos rfl] at h2 ⊢
            exact ih bs cs h1 h2
          · simp only [pathLe, if_neg hyz] at h2 ⊢
            exact h2
        · simp only [pathLe, if_neg hxy] at h1
          by_cases hyz : y = z
          · subst hyz
            simp only [pathLe, if_neg hxy]
            exact h1
          · simp only [pathLe, if_neg hyz] at h2
            by_cases hxz : x = z
            · subst hxz
              exact absurd (goStrLe_antisymm x y h1 h2) hxy
            · simp only [pathLe, if_neg hxz]
              exact goStrLe_trans x y z h1 h2

theorem prefix_pathLe : ∀ q k : Path, q <+: k → pathLe q k = true := by
  intro q
  induction q with
  | nil => intro k _; rfl
  | cons x qs ih =>
    intro k h
    cases k with
    | nil => exact absurd (List.prefix_nil.mp h) (by simp)
    | cons y ks =>
      obtain ⟨he, ht⟩ := List.cons_prefix_cons.mp h
      subst he
      simp [pathLe, ih ks ht]

theorem insertPath_perm : ∀ (l : List Path) (p : Path),
    List.Perm (insertPath p l) (p :: l) := by
  intro l
  induction l with
  | nil => intro p; exact List.Perm.refl _
  | cons q qs ih =>
    intro p
    unfold insertPath
    by_cases h : pathLe p q = true
    · rw [if_pos h]
    · rw [if_neg h]
      exact (List.Perm.cons q (ih p)).trans (List.Perm.swap p q qs)

theorem sortPaths_perm : ∀ l : List Path, List.Perm (sortPaths l) l := by
  intro l
  induction l with
  | nil => exact List.Perm.refl _
  | cons p ps ih =>
    exact (insertPath_perm (sortPaths ps) p).trans (List.Perm.cons p ih)

theorem insertPath_pairwise : ∀ (l : List Path) (p : Path),
    List.Pairwise (fun a b => pathLe a b = true) l →
    List.Pairwise (fun a b => pathLe a b = true) (insertPath p l) := by
  intro l
  induction l with
  | nil =>
    intro p _
    exact List.pairwise_singleton _ p
  | cons q qs ih =>
    intro p hp
    have hq := List.pairwise_cons.mp hp
    unfold insertPath
    by_cases h : pathLe p q = true
    · rw [if_pos h]
      refine List.pairwise_cons.mpr ⟨?_, hp⟩
      intro b hb
      rcases List.mem_cons.mp hb with hb | hb
      · rw [hb]
        exact h
      · exact pathLe_trans p q b h (hq.1 b hb)
    · rw [if_neg h]
      have hqp : pathLe q p = true := by
        rcases pathLe_total p q with h2 | h2
        · exact absurd h2 h
        · exact h2
      refine List.pairwise_cons.mpr ⟨?_, ih p hq.2⟩
      intro b hb
      have hb2 := (insertPath_perm qs p).mem_iff.mp hb
      rcases List.mem_cons.mp hb2 with hb2 | hb2
      · rw [hb2]
        exact hqp
      · exact hq.1 b hb2

theorem sortPaths_pairwise : ∀ l : List Path,
    List.Pairwise (fun a b => pathLe a b = true) (sortPaths l) := by
  intro l
  induction l with
  | nil => exact List.Pairwise.nil
  | cons p ps ih => exact insertPath_pairwise (sortPaths ps) p ih

theorem joinComps_ne_nil {rel : List GoStr} (hr : rel ≠ [])
    (hw : ∀ c ∈ rel, WfComp c) : joinComps rel ≠ [] := by
  cases rel with
  | nil => exact absurd rfl hr
  | cons c cs =>
    cases cs with
    | nil => exact (hw c (List.mem_cons_self c [])).1
    | cons e es =>
      rw [joinComps_cons c (e :: es) (by simp)]
      simp

theorem joinComps_append (d r : List GoStr) (hd : d ≠ []) (hr : r ≠ []) :
    joinComps (d ++ r) = joinComps d ++ '/' :: joinComps r := by
  induction d with
  | nil => exact absurd rfl hd
  | cons x ds ih =>
    cases ds with
    | nil =>
      rw [show joinComps [x] = x from rfl, List.cons_append, List.nil_append,
        joinComps_cons x r hr]
    | cons y ys =>
      rw [List.cons_append,
        joinComps_cons x ((y :: ys) ++ r) (by simp),
        joinComps_cons x (y :: ys) (by simp),
        ih (by simp)]
      simp

theorem isPrefixOf_append_same : ∀ (a u v : GoStr),
    (a ++ u).isPrefixOf (a ++ v) = u.isPrefixOf v := by
  intro a u v
  induction a with
  | nil => rfl
  | cons x as ih =>
    simp only [List.cons_append, List.isPrefixOf, beq_self_eq_true, Bool.true_and]
    exact ih

/-- Completeness of the zip-slip check on well-formed relative paths: a
record name `joinComps rel` joins to the path `dest ++ rel`, which passes
the prefix test. -/
theorem check_of_wf_rel (dest rel : List GoStr)
    (hdest : ∀ c ∈ dest, WfComp c) (hdne : dest ≠ [])
    (hrel : ∀ c ∈ rel, WfComp c) (hrne : rel ≠ []) :
    goHasPrefix (goJoin (renderRooted dest) (joinComps rel))
      (goClean (renderRooted dest) ++ ['/']) = true ∧
    cleanComps (goJoin (renderRooted dest) (joinComps rel)) = dest ++ rel := by
  have hjname : joinComps rel ≠ [] := joinComps_ne_nil hrne hrel
  have hj : goJoin (renderRooted dest) (joinComps rel)
      = renderRooted (dest ++ rel) := by
    show goJoin ('/' :: joinComps dest) (joinComps rel) = _
    unfold goJoin
    rw [if_neg (by simp), if_neg hjname]
    show goClean ('/' :: (joinComps dest ++ '/' :: joinComps rel)) = _
    have h2 : goClean ('/' :: (joinComps dest ++ '/' :: joinComps rel))
        = renderRooted (cleanComps ('/' :: (joinComps dest ++ '/' :: joinComps rel))) := by
      simp [goClean]
    rw [h2]
    have h3 : cleanComps ('/' :: (joinComps dest ++ '/' :: joinComps rel))
        = dest ++ rel := by
      unfold cleanComps
      have h4 : splitSlash ('/' :: (joinComps dest ++ '/' :: joinComps rel))
          = [] :: (dest ++ rel) := by
        have h5 : splitSlash ('/' :: (joinComps dest ++ '/' :: joinComps rel))
            = [] :: splitSlash (joinComps dest ++ '/' :: joinComps rel) := by
          simp [splitSlash]
        rw [h5, splitSlash_append,
          splitSlash_joinComps dest (fun c hc => (hdest c hc).2.1) hdne,
          splitSlash_joinComps rel (fun c hc => (hrel c hc).2.1) hrne]
      rw [h4]
      unfold resolveComps
      rw [if_pos (Or.inl rfl)]
      have h6 : ∀ c ∈ dest ++ rel, WfComp c := by
        intro c hc
        rcases List.mem_append.mp hc with hc | hc
        · exact hdest c hc
        · exact hrel c hc
      simpa using resolveComps_wf_append (dest ++ rel) [] h6
    rw [h3]
  refine ⟨?_, ?_⟩
  · rw [hj, goClean_renderRooted dest hdest]
    unfold goHasPrefix
    have h7 : renderRooted dest ++ ['/'] = '/' :: (joinComps dest ++ ['/']) := rfl
    have h8 : renderRooted (dest ++ rel) = '/' :: joinComps (dest ++ rel) := rfl
    rw [h7, h8]
    simp only [List.isPrefixOf, beq_self_eq_true, Bool.true_and]
    rw [joinComps_append dest rel hdne hrne, isPrefixOf_append_same]
    simp [List.isPrefixOf]
  · rw [hj]
    refine cleanComps_renderRooted _ ?_
    intro c hc
    rcases List.mem_append.mp hc with hc | hc
    · exact hdest c hc
    · exact hrel c hc

theorem dropLast_append_ne (d : Path) {r : Path} (hr : r ≠ []) :
    (d ++ r).dropLast = d ++ r.dropLast := by
  induction d with
  | nil => simp
  | cons x ds ih =>
    have hne : ds ++ r ≠ [] := by simp [hr]
    rw [List.cons_append, List.dropLast_cons_of_ne_nil hne, ih, List.cons_append]

theorem prefix_dropLast_of_proper {q k : Path} (h : q <+: k) (hne : q ≠ k) :
    q <+: k.dropLast := by
  obtain ⟨t, rfl⟩ := h
  have ht : t ≠ [] := by
    intro he
    rw [he, List.append_nil] at hne
    exact hne rfl
  rw [dropLast_append_ne q ht]
  exact ⟨t.dropLast, rfl⟩

theorem prefix_mem_ancestors {q p : Path} (h : q <+: p) (hq : q ≠ []) :
    q ∈ ancestors p := by
  unfold ancestors
  have hlen : 0 < q.length := List.length_pos.mpr hq
  have hle := h.length_le
  refine List.mem_map.mpr ⟨q.length - 1, List.mem_range.mpr (by omega), ?_⟩
  have h1 : q.length - 1 + 1 = q.length := by omega
  rw [h1]
  obtain ⟨t, rfl⟩ := h
  exact List.take_left q t

theorem statNode_some_mem {fs : Fs} {p : Path} {n : Node}
    (h : statNode fs p = some n) (hp : p ≠ []) : p ∈ fs.map Prod.fst :=
  List.mem_map.mpr ⟨(p, n), statNode_eq_some h hp, rfl⟩

theorem mem_keys_statNode {fs : Fs} {p : Path} (hw : WfFs fs)
    (h : p ∈ fs.map Prod.fst) : ∃ n, statNode fs p = some n ∧ (p, n) ∈ fs := by
  obtain ⟨kn, hmem, hk⟩ := List.mem_map.mp h
  refine ⟨kn.2, ?_, ?_⟩
  · rw [← hk]
    exact statNode_of_mem hw (by simpa using hmem)
  · rw [← hk]
    simpa using hmem

theorem filterMap_congr_map {α β : Type} (l : List α) (f : α → Option β) (g : α → β)
    (h : ∀ x ∈ l, f x = some (g x)) : l.filterMap f = l.map g := by
  induction l with
  | nil => rfl
  | cons x xs ih =>
    rw [List.filterMap_cons, h x (List.mem_cons_self x xs), List.map_cons,
      ih (fun y hy => h y (List.mem_cons_of_mem x hy))]

theorem chainFold_skip_present (mode : Nat) :
    ∀ (l : List Path) (fs : Fs), (∀ r ∈ l, (statNode fs r).isSome = true) →
    (l.foldl
      (fun acc r => if (statNode acc r).isSome then acc else fsSet acc r (Node.dir mode))
      fs) = fs := by
  intro l
  induction l with
  | nil => intro fs _; rfl
  | cons a l ih =>
    intro fs hall
    rw [List.foldl_cons, if_pos (hall a (List.mem_cons_self a l))]
    exact ih fs (fun r hr => hall r (List.mem_cons_of_mem a hr))

theorem nodeIsFile_of_isDir {fs : Fs} {p : Path} (h : nodeIsDir fs p = true) :
    nodeIsFile fs p = false := by
  unfold nodeIsDir at h
  unfold nodeIsFile
  cases hs : statNode fs p with
  | none =>
    rw [hs] at h
  | some n =>
    rw [hs] at h
    cases n with
    | dir m => rfl
    | file m c => cases h

theorem isSome_of_isDir {fs : Fs} {p : Path} (h : nodeIsDir fs p = true) :
    (statNode fs p).isSome = true := by
  unfold nodeIsDir at h
  cases hs : statNode fs p with
  | none => rw [hs] at h; cases h
  | some n => simp

theorem osMkdirAll_of_isDir {env : Env} {fs : Fs} {p : Path} {m m0 : Nat}
    (h : statNode fs p = some (Node.dir m0)) : osMkdirAll env fs p m = (fs, true) := by
  unfold osMkdirAll
  rw [h]

/-- `MkdirAll` on a missing path whose whole parent chain consists of
directories: exactly the one new directory is created. -/
theorem osMkdirAll_fresh {fs : Fs} {T : Path} (m : Nat) (hT : T ≠ [])
    (hnone : statNode fs T = none)
    (hch : ∀ q ∈ ancestors T.dropLast, nodeIsDir fs q = true) :
    osMkdirAll Env.allOK fs T m = (fsSet fs T (Node.dir m), true) := by
  have hmk : mkdirChain fs T m = fsSet fs T (Node.dir m) := by
    unfold mkdirChain
    rw [ancestors_dropLast_append hT, List.foldl_append,
      chainFold_skip_present m (ancestors T.dropLast) fs
        (fun r hr => isSome_of_isDir (hch r hr)),
      List.foldl_cons, List.foldl_nil, if_neg (by rw [hnone]; simp)]
  have hany : ((ancestors T).any fun q => nodeIsFile fs q) = false := by
    rw [ancestors_dropLast_append hT, List.any_append]
    have h1 : ((ancestors T.dropLast).any fun q => nodeIsFile fs q) = false := by
      rw [List.any_eq_false]
      intro q hq
      simp [nodeIsFile_of_isDir (hch q hq)]
    have h2 : ([T].any fun q => nodeIsFile fs q) = false := by
      simp [List.any_cons, nodeIsFile, hnone]
    rw [h1, h2]
    rfl
  have hstep : osMkdirAll Env.allOK fs T m
      = if (ancestors T).any (fun q => nodeIsFile fs q) then (fs, false)
        else if Env.allOK.mkdirOK T then (mkdirChain fs T m, true) else (fs, false) := by
    unfold osMkdirAll
    rw [hnone]
  rw [hstep, hany]
  simp only [Bool.false_eq_true, if_false]
  rw [if_pos (show Env.allOK.mkdirOK T = true from rfl), hmk]

/-- `os.Create` on a missing path below an existing directory. -/
theorem osCreateTrunc_fresh {fs : Fs} {T : Path} (m : Nat) (hT : T ≠ [])
    (hpar : nodeIsDir fs T.dropLast = true) (hnone : statNode fs T = none) :
    osCreateTrunc Env.allOK fs T m = (fsSet fs T (Node.file m []), true) := by
  unfold osCreateTrunc
  rw [if_neg hT, if_neg (by rw [hpar]; simp), hnone]
  rfl

theorem ioCopyInto_allOK (fs : Fs) (dst : Path) (c : List Nat) :
    ioCopyInto Env.allOK fs dst c
      = (fsSet fs dst (Node.file (fileModeAt fs dst) c), true) := rfl

/-- Replaying a directory record into a state where the target is missing
and its parent chain consists of directories. -/
theorem extractZipFile_step_dir {g : Fs} {dest rel : Path} (m : Nat)
    (hdest : ∀ c ∈ dest, WfComp c) (hdne : dest ≠ [])
    (hrel : ∀ c ∈ rel, WfComp c) (hrne : rel ≠ [])
    (hnone : statNode g (dest ++ rel) = none)
    (hch : ∀ q ∈ ancestors (dest ++ rel).dropLast, nodeIsDir g q = true) :
    extractZipFile Env.allOK g ⟨joinComps rel, true, m, []⟩ (renderRooted dest)
      = (fsSet g (dest ++ rel) (Node.dir m), true) := by
  obtain ⟨hchk, hclean⟩ := check_of_wf_rel dest rel hdest hdne hrel hrne
  rw [extractZipFile_eq, if_pos hchk]
  simp only [extractTarget, if_true]
  show osMkdirAll Env.allOK g (cleanComps (goJoin (renderRooted dest) (joinComps rel)))
      m = _
  rw [hclean]
  exact osMkdirAll_fresh m (by simp [hdne]) hnone hch

/-- Replaying a file record into a state where the target is missing and
its parent chain consists of directories. -/
theorem extractZipFile_step_file {g : Fs} {dest rel : Path} (m : Nat) (c : List Nat)
    (hdest : ∀ c2 ∈ dest, WfComp c2) (hdne : dest ≠ [])
    (hrel : ∀ c2 ∈ rel, WfComp c2) (hrne : rel ≠ [])
    (hnone : statNode g (dest ++ rel) = none)
    (hch : ∀ q ∈ ancestors (dest ++ rel).dropLast, nodeIsDir g q = true) :
    extractZipFile Env.allOK g ⟨joinComps rel, false, m, c⟩ (renderRooted dest)
      = (fsSet (fsSet g (dest ++ rel) (Node.file m []))
          (dest ++ rel) (Node.file m c), true) := by
  obtain ⟨hchk, hclean⟩ := check_of_wf_rel dest rel hdest hdne hrel hrne
  have hTne : dest ++ rel ≠ [] := by simp [hdne]
  have hparne : (dest ++ rel).dropLast ≠ [] := by
    rw [dropLast_append_ne dest hrne]
    simp [hdne]
  have hpar : nodeIsDir g (dest ++ rel).dropLast = true :=
    hch _ (prefix_mem_ancestors (List.prefix_refl _) hparne)
  rw [extractZipFile_eq, if_pos hchk]
  simp only [extractTarget, Bool.false_eq_true, if_false]
  show (let s1 := osMkdirAll Env.allOK g
          (cleanComps (goJoin (renderRooted dest) (joinComps rel))).dropLast 0o755
        if !s1.2 then (s1.1, false)
        else
          let s2 := osCreateTrunc Env.allOK s1.1
            (cleanComps (goJoin (renderRooted dest) (joinComps rel))) m
          if !s2.2 then (s2.1, false)
          else ioCopyInto Env.allOK s2.1
            (cleanComps (goJoin (renderRooted dest) (joinComps rel))) c) = _
  rw [hclean]
  obtain ⟨m0, hm0⟩ : ∃ m0, statNode g (dest ++ rel).dropLast = some (Node.dir m0) := by
    unfold nodeIsDir at hpar
    cases hs : statNode g (dest ++ rel).dropLast with
    | none => rw [hs] at hpar; cases hpar
    | some n =>
      rw [hs] at hpar
      cases n with
      | dir m2 => exact ⟨m2, rfl⟩
      | file m2 c2 => cases hpar
  rw [osMkdirAll_of_isDir hm0]
  simp only [Bool.not_true, Bool.false_eq_true, if_false]
  rw [osCreateTrunc_fresh m hTne hpar hnone]
  simp only [Bool.not_true, Bool.false_eq_true, if_false]
  rw [ioCopyInto_allOK]
  have hmode : fileModeAt (fsSet g (dest ++ rel) (Node.file m [])) (dest ++ rel) = m := by
    unfold fileModeAt
    rw [statNode_fsSet_self g _ hTne]
  rw [hmode]

/-- Replaying a sorted suffix `ks` of the walk into a state `g` that
already reflects the processed relative paths `done`: the loop succeeds,
reproduces every remaining node below `dest`, and touches nothing else. -/
theorem extractEntries_replay (fs fs2 : Fs) (source dest : Path)
    (hw : WfFs fs) (hdest : ∀ c ∈ dest, WfComp c) (hdne : dest ≠ [])
    (hancdest : ∀ q ∈ ancestors dest, nodeIsDir fs2 q = true)
    (hfresh : ∀ q, dest.isPrefixOf q = true → q ≠ dest → statNode fs2 q = none) :
    ∀ (ks : List Path) (g : Fs) (done : List Path),
    (∀ k ∈ ks, k ∈ fs.map Prod.fst ∧ source.isPrefixOf k = true ∧ k ≠ source) →
    List.Pairwise (fun a b => pathLe a b = true) ks →
    ks.Nodup →
    (∀ k ∈ ks, ∀ rel2, rel2 ≠ [] → rel2 <+: k.drop source.length →
      rel2 ≠ k.drop source.length → rel2 ∈ done ∨ (source ++ rel2) ∈ ks) →
    (∀ k ∈ ks, k.drop source.length ∉ done) →
    (∀ r ∈ done, r ≠ []) →
    (∀ r ∈ done, statNode g (dest ++ r) = statNode fs (source ++ r)) →
    (∀ q, (∀ r ∈ done, q ≠ dest ++ r) → statNode g q = statNode fs2 q) →
    (extractEntries Env.allOK g (ks.map (recOf fs source)) (renderRooted dest)).2
      = true ∧
    (∀ r ∈ done ++ ks.map (fun k => k.drop source.length),
      statNode (extractEntries Env.allOK g (ks.map (recOf fs source))
        (renderRooted dest)).1 (dest ++ r) = statNode fs (source ++ r)) ∧
    (∀ q, (∀ r ∈ done ++ ks.map (fun k => k.drop source.length), q ≠ dest ++ r) →
      statNode (extractEntries Env.allOK g (ks.map (recOf fs source))
        (renderRooted dest)).1 q = statNode fs2 q) := by
  intro ks
  induction ks with
  | nil =>
    intro g done _ _ _ _ _ _ inv1 inv2
    refine ⟨rfl, ?_, ?_⟩
    · intro r hr
      simp only [List.map_nil, List.append_nil] at hr
      exact inv1 r hr
    · intro q hq
      refine inv2 q ?_
      intro r hr
      exact hq r (by simp [hr])
  | cons k0 ks ih =>
    intro g done hks hsort hnd hanc hnotdone hdonene inv1 inv2
    obtain ⟨hk0mem, hk0pre, hk0ne⟩ := hks k0 (List.mem_cons_self k0 ks)
    obtain ⟨n0, hn0, hn0mem⟩ := mem_keys_statNode hw hk0mem
    obtain ⟨t0, ht0⟩ := List.isPrefixOf_iff_prefix.mp hk0pre
    have hrel0 : k0.drop source.length = t0 := by
      rw [← ht0]
      exact List.drop_left source t0
    have hrne : t0 ≠ [] := by
      intro he
      rw [he, List.append_nil] at ht0
      exact hk0ne ht0.symm
    have hk0wf : ∀ c ∈ k0, WfComp c := (hw.2 _ hn0mem).2.1
    have ht0wf : ∀ c ∈ t0, WfComp c := by
      intro c hc
      exact hk0wf c (by rw [← ht0]; exact List.mem_append_right source hc)
    have hTne : dest ++ t0 ≠ dest := by
      intro he
      apply hrne
      have hlen := congrArg List.length he
      simp at hlen
      exact hlen
    have hTnn : dest ++ t0 ≠ [] := by simp [hdne]
    have hTnone : statNode g (dest ++ t0) = none := by
      have hnt : ∀ r ∈ done, dest ++ t0 ≠ dest ++ r := by
        intro r hr he
        have h1 := List.append_cancel_left he
        rw [← h1] at hr
        exact hnotdone k0 (List.mem_cons_self k0 ks) (hrel0 ▸ hr)
      rw [inv2 (dest ++ t0) hnt]
      exact hfresh (dest ++ t0) (List.isPrefixOf_iff_prefix.mpr ⟨t0, rfl⟩) hTne
    have hchain : ∀ q ∈ ancestors (dest ++ t0).dropLast, nodeIsDir g q = true := by
      intro q hq
      obtain ⟨hqpre2, hqne⟩ := ancestors_mem hq
      have hqpre : q <+: dest ++ t0 := hqpre2.trans (List.dropLast_prefix _)
      have hnt_of_le : q.length ≤ dest.length → ∀ r ∈ done, q ≠ dest ++ r := by
        intro hle r hr he
        have h2 := congrArg List.length he
        simp at h2
        have h4 : 0 < r.length := List.length_pos.mpr (hdonene r hr)
        omega
      rcases List.prefix_or_prefix_of_prefix hqpre (List.prefix_append dest t0)
        with hqd | hdq
      · unfold nodeIsDir
        rw [inv2 q (hnt_of_le hqd.length_le)]
        have hd2 := hancdest q (prefix_mem_ancestors hqd hqne)
        unfold nodeIsDir at hd2
        exact hd2
      · obtain ⟨s, hs⟩ := hdq
        by_cases hsne : s = []
        · have hqd : q <+: dest := by
            rw [hsne, List.append_nil] at hs
            rw [← hs]
          unfold nodeIsDir
          rw [inv2 q (hnt_of_le hqd.length_le)]
          have hd2 := hancdest q (prefix_mem_ancestors hqd hqne)
          unfold nodeIsDir at hd2
          exact hd2
        · have hspre : s <+: t0.dropLast := by
            have h1 : dest ++ s <+: dest ++ t0.dropLast := by
              rw [← dropLast_append_ne dest hrne, hs]
              exact hqpre2
            exact (List.prefix_append_right_inj dest).mp h1
          have hst0 : s <+: t0 := hspre.trans (List.dropLast_prefix t0)
          have hsneq : s ≠ t0 := by
            intro he
            subst he
            have h1 := hspre.length_le
            have h3 := List.length_dropLast s
            have h4 : 0 < s.length := List.length_pos.mpr hsne
            omega
          rcases hanc k0 (List.mem_cons_self k0 ks) s hsne (hrel0 ▸ hst0)
            (by rw [hrel0]; exact hsneq) with hdone | hmem
          · have hdirfs : nodeIsDir fs (source ++ s) = true := by
              refine (hw.2 _ hn0mem).2.2 (source ++ s) ?_
              have h5 : k0.dropLast = source ++ t0.dropLast := by
                rw [← ht0, dropLast_append_ne source hrne]
              rw [h5]
              exact prefix_mem_ancestors
                ((List.prefix_append_right_inj source).mpr hspre)
                (fun he => hsne (List.append_eq_nil.mp he).2)
            rw [← hs]
            unfold nodeIsDir
            rw [inv1 s hdone]
            unfold nodeIsDir at hdirfs
            exact hdirfs
          · exfalso
            rcases List.mem_cons.mp hmem with he | hin
            · rw [← ht0] at he
              exact hsneq (List.append_cancel_left he)
            · have h6 : pathLe k0 (source ++ s) = true :=
                (List.pairwise_cons.mp hsort).1 _ hin
              have h7 : pathLe (source ++ s) k0 = true := by
                refine prefix_pathLe _ _ ?_
                rw [← ht0]
                exact (List.prefix_append_right_inj source).mpr hst0
              have h8 := pathLe_antisymm _ _ h7 h6
              rw [← ht0] at h8
              exact hsneq (List.append_cancel_left h8)
    have hks' : ∀ k ∈ ks, k ∈ fs.map Prod.fst ∧ source.isPrefixOf k = true ∧
        k ≠ source := fun k hk => hks k (List.mem_cons_of_mem k0 hk)
    have hsort' := (List.pairwise_cons.mp hsort).2
    have hnd' := (List.nodup_cons.mp hnd).2
    have hk0nin := (List.nodup_cons.mp hnd).1
    have hanc' : ∀ k ∈ ks, ∀ rel2, rel2 ≠ [] → rel2 <+: k.drop source.length →
        rel2 ≠ k.drop source.length → rel2 ∈ done ++ [t0] ∨ (source ++ rel2) ∈ ks := by
      intro k hk rel2 h1 h2 h3
      rcases hanc k (List.mem_cons_of_mem k0 hk) rel2 h1 h2 h3 with hd | hm
      · exact Or.inl (List.mem_append_left _ hd)
      · rcases List.mem_cons.mp hm with he | hin
        · refine Or.inl (List.mem_append_right _ (List.mem_singleton.mpr ?_))
          rw [← ht0] at he
          exact List.append_cancel_left he
        · exact Or.inr hin
    have hnotdone' : ∀ k ∈ ks, k.drop source.length ∉ done ++ [t0] := by
      intro k hk hmem2
      rcases List.mem_append.mp hmem2 with hd | hsing
      · exact hnotdone k (List.mem_cons_of_mem k0 hk) hd
      · have he := List.mem_singleton.mp hsing
        obtain ⟨_, hkpre, _⟩ := hks k (List.mem_cons_of_mem k0 hk)
        obtain ⟨tk, htk⟩ := List.isPrefixOf_iff_prefix.mp hkpre
        have hrelk : k.drop source.length = tk := by
          rw [← htk]
          exact List.drop_left source tk
        rw [hrelk] at he
        have hkk0 : k = k0 := by rw [← htk, he, ht0]
        rw [hkk0] at hk
        exact hk0nin hk
    have hdonene' : ∀ r ∈ done ++ [t0], r ≠ [] := by
      intro r hr
      rcases List.mem_append.mp hr with hd | hsing
      · exact hdonene r hd
      · rw [List.mem_singleton.mp hsing]
        exact hrne
    have hmemglue : ∀ r, r ∈ (done ++ [t0]) ++ ks.map (fun k => k.drop source.length) →
        r ∈ done ++ (k0 :: ks).map (fun k => k.drop source.length) := by
      intro r hr
      rcases List.mem_append.mp hr with hr | hr
      · rcases List.mem_append.mp hr with hr | hr
        · exact List.mem_append_left _ hr
        · refine List.mem_append_right _ ?_
          rw [List.map_cons, hrel0, List.mem_singleton.mp hr]
          exact List.mem_cons_self t0 _
      · refine List.mem_append_right _ ?_
        rw [List.map_cons]
        exact List.mem_cons_of_mem _ hr
    have hmemglue2 : ∀ r, r ∈ done ++ (k0 :: ks).map (fun k => k.drop source.length) →
        r ∈ (done ++ [t0]) ++ ks.map (fun k => k.drop source.length) := by
      intro r hr
      rcases List.mem_append.mp hr with hr | hr
      · exact List.mem_append_left _ (List.mem_append_left _ hr)
      · rw [List.map_cons, hrel0] at hr
        rcases List.mem_cons.mp hr with he | hin
        · exact List.mem_append_left _
            (List.mem_append_right _ (List.mem_singleton.mpr he))
        · exact List.mem_append_right _ hin
    cases n0 with
    | dir m =>
      have hrec : recOf fs source k0 = ⟨joinComps t0, true, m, []⟩ := by
        unfold recOf
        rw [hn0, hrel0]
      have hstep := extractZipFile_step_dir m hdest hdne ht0wf hrne hTnone hchain
      have hinv1' : ∀ r ∈ done ++ [t0],
          statNode (fsSet g (dest ++ t0) (Node.dir m)) (dest ++ r)
            = statNode fs (source ++ r) := by
        intro r hr
        rcases List.mem_append.mp hr with hr | hr
        · rw [statNode_fsSet_ne g _ ?_]
          · exact inv1 r hr
          · intro he
            have h1 := List.append_cancel_left he
            rw [h1] at hr
            exact hnotdone k0 (List.mem_cons_self k0 ks) (hrel0 ▸ hr)
        · rw [List.mem_singleton.mp hr, statNode_fsSet_self g _ hTnn, ht0, hn0]
      have hinv2' : ∀ q, (∀ r ∈ done ++ [t0], q ≠ dest ++ r) →
          statNode (fsSet g (dest ++ t0) (Node.dir m)) q = statNode fs2 q := by
        intro q hq
        rw [statNode_fsSet_ne g _
          (hq t0 (List.mem_append_right done (List.mem_singleton.mpr rfl)))]
        exact inv2 q (fun r hr => hq r (List.mem_append_left _ hr))
      obtain ⟨c1, c2, c3⟩ := ih (fsSet g (dest ++ t0) (Node.dir m)) (done ++ [t0])
        hks' hsort' hnd' hanc' hnotdone' hdonene' hinv1' hinv2'
      rw [List.map_cons, extractEntries_cons, hrec, hstep]
      simp only [Bool.not_true, Bool.false_eq_true, if_false]
      refine ⟨c1, ?_, ?_⟩
      · intro r hr
        exact c2 r (hmemglue2 r hr)
      · intro q hq
        exact c3 q (fun r hr => hq r (hmemglue r hr))
    | file m c =>
      have hrec : recOf fs source k0 = ⟨joinComps t0, false, m, c⟩ := by
        unfold recOf
        rw [hn0, hrel0]
      have hstep := extractZipFile_step_file m c hdest hdne ht0wf hrne hTnone hchain
      have hinv1' : ∀ r ∈ done ++ [t0],
          statNode (fsSet (fsSet g (dest ++ t0) (Node.file m []))
            (dest ++ t0) (Node.file m c)) (dest ++ r)
            = statNode fs (source ++ r) := by
        intro r hr
        rcases List.mem_append.mp hr with hr | hr
        · have hne2 : dest ++ r ≠ dest ++ t0 := by
            intro he
            have h1 := List.append_cancel_left he
            rw [h1] at hr
            exact hnotdone k0 (List.mem_cons_self k0 ks) (hrel0 ▸ hr)
          rw [statNode_fsSet_ne _ _ hne2, statNode_fsSet_ne g _ hne2]
          exact inv1 r hr
        · rw [List.mem_singleton.mp hr, statNode_fsSet_self _ _ hTnn, ht0, hn0]
      have hinv2' : ∀ q, (∀ r ∈ done ++ [t0], q ≠ dest ++ r) →
          statNode (fsSet (fsSet g (dest ++ t0) (Node.file m []))
            (dest ++ t0) (Node.file m c)) q = statNode fs2 q := by
        intro q hq
        have hne2 : q ≠ dest ++ t0 :=
          hq t0 (List.mem_append_right done (List.mem_singleton.mpr rfl))
        rw [statNode_fsSet_ne _ _ hne2, statNode_fsSet_ne g _ hne2]
        exact inv2 q (fun r hr => hq r (List.mem_append_left _ hr))
      obtain ⟨c1, c2, c3⟩ := ih (fsSet (fsSet g (dest ++ t0) (Node.file m []))
          (dest ++ t0) (Node.file m c)) (done ++ [t0])
        hks' hsort' hnd' hanc' hnotdone' hdonene' hinv1' hinv2'
      rw [List.map_cons, extractEntries_cons, hrec, hstep]
      simp only [Bool.not_true, Bool.false_eq_true, if_false]
      refine ⟨c1, ?_, ?_⟩
      · intro r hr
        exact c2 r (hmemglue2 r hr)
      · intro q hq
        exact c3 q (fun r hr => hq r (hmemglue r hr))


theorem isDir_statNode {fs : Fs} {p : Path} (h : nodeIsDir fs p = true) :
    ∃ m, statNode fs p = some (Node.dir m) := by
  unfold nodeIsDir at h
  cases hs : statNode fs p with
  | none =>
    rw [hs] at h
    cases h
  | some n =>
    rw [hs] at h
    cases n with
    | dir m => exact ⟨m, rfl⟩
    | file m c => cases h

theorem walkPaths_mem (fs : Fs) (source : Path) (k : Path) :
    k ∈ walkPaths fs source ↔
      (k ∈ fs.map Prod.fst ∧ source.isPrefixOf k = true ∧ k ≠ source) := by
  unfold walkPaths
  rw [(sortPaths_perm _).mem_iff, List.mem_filter]
  constructor
  · rintro ⟨h1, h2⟩
    simp only [Bool.and_eq_true, decide_eq_true_eq] at h2
    exact ⟨h1, h2.1, h2.2⟩
  · rintro ⟨h1, h2, h3⟩
    refine ⟨h1, ?_⟩
    simp only [Bool.and_eq_true, decide_eq_true_eq]
    exact ⟨h2, h3⟩

/-- C2: the compress/extract roundtrip.  Compressing a well-formed source
tree (the archive destination not inside it) and extracting into a fresh
empty destination directory in a well-formed state reproduces the tree
exactly: for every nonempty relative path `r`, the node at `dest ++ r`
after extraction is byte-for-byte and mode-for-mode the node at
`source ++ r` (both `none` off the tree - so nothing extra appears, empty
directories included), the extraction succeeds, and nothing outside the
destination subtree changes. -/
theorem C2_roundtrip (fs fs2 : Fs) (source destZip dest : Path)
    (entries : List ZipEntry)
    (hw : WfFs fs) (hw2 : WfFs fs2)
    (hdest : ∀ c ∈ dest, WfComp c) (hdne : dest ≠ [])
    (hdestdir : IsDirectory fs2 dest = true)
    (hfresh : ∀ q, dest.isPrefixOf q = true → q ≠ dest → statNode fs2 q = none)
    (hdz : ∀ k ∈ fs.map Prod.fst, source.isPrefixOf k = true → k ≠ source →
      k ≠ destZip)
    (hcomp : CompressDirectory fs source destZip = some entries) :
    (ExtractArchive Env.allOK fs2 entries dest).2 = true ∧
    (∀ r : Path, r ≠ [] →
      statNode (ExtractArchive Env.allOK fs2 entries dest).1 (dest ++ r)
        = statNode fs (source ++ r)) ∧
    (∀ q : Path, ¬ (dest.isPrefixOf q = true ∧ q ≠ dest) →
      statNode (ExtractArchive Env.allOK fs2 entries dest).1 q = statNode fs2 q) := by
  have hsd : IsDirectory fs source = true := by
    by_contra hc
    have hf := Bool.eq_false_iff.mpr hc
    unfold CompressDirectory at hcomp
    rw [hf] at hcomp
    simp at hcomp
  have hentries : entries = (walkPaths fs source).map (recOf fs source) := by
    unfold CompressDirectory at hcomp
    rw [hsd] at hcomp
    simp only [Bool.not_true, Bool.false_eq_true, if_false, Option.some.injEq] at hcomp
    rw [← hcomp]
    refine filterMap_congr_map _ _ _ ?_
    intro k hk
    obtain ⟨hkmem, hkpre, hkne⟩ := (walkPaths_mem fs source k).mp hk
    rw [if_neg (hdz k hkmem hkpre hkne)]
    obtain ⟨n, hn, _⟩ := mem_keys_statNode hw hkmem
    unfold recOf
    rw [hn]
    cases n <;> rfl
  have hancdest : ∀ q ∈ ancestors dest, nodeIsDir fs2 q = true := by
    intro q hq
    obtain ⟨hqp, hqn⟩ := ancestors_mem hq
    by_cases hqd : q = dest
    · rw [hqd]
      exact hdestdir
    · obtain ⟨m2, hm2⟩ := isDir_statNode hdestdir
      have hmem2 : (dest, Node.dir m2) ∈ fs2 := statNode_eq_some hm2 hdne
      refine (hw2.2 _ hmem2).2.2 q ?_
      exact prefix_mem_ancestors (prefix_dropLast_of_proper hqp hqd) hqn
  have hks0 : ∀ k ∈ walkPaths fs source,
      k ∈ fs.map Prod.fst ∧ source.isPrefixOf k = true ∧ k ≠ source :=
    fun k hk => (walkPaths_mem fs source k).mp hk
  have hsort0 := sortPaths_pairwise
    ((fs.map Prod.fst).filter (fun k => source.isPrefixOf k && k ≠ source))
  have hnd0 : (walkPaths fs source).Nodup :=
    (sortPaths_perm _).nodup_iff.mpr (hw.1.filter _)
  have hanc0 : ∀ k ∈ walkPaths fs source, ∀ rel2, rel2 ≠ [] →
      rel2 <+: k.drop source.length → rel2 ≠ k.drop source.length →
      rel2 ∈ ([] : List Path) ∨ (source ++ rel2) ∈ walkPaths fs source := by
    intro k hk rel2 h1 h2 h3
    right
    obtain ⟨hkmem, hkpre, hkne⟩ := (walkPaths_mem fs source k).mp hk
    obtain ⟨n, hn, hnmem⟩ := mem_keys_statNode hw hkmem
    obtain ⟨tk, htk⟩ := List.isPrefixOf_iff_prefix.mp hkpre
    have hrelk : k.drop source.length = tk := by
      rw [← htk]
      exact List.drop_left source tk
    rw [hrelk] at h2 h3
    have htkne : tk ≠ [] := by
      intro he
      rw [he, List.append_nil] at htk
      exact hkne htk.symm
    have hdir : nodeIsDir fs (source ++ rel2) = true := by
      refine (hw.2 _ hnmem).2.2 (source ++ rel2) ?_
      have h5 : k.dropLast = source ++ tk.dropLast := by
        rw [← htk, dropLast_append_ne source htkne]
      rw [h5]
      refine prefix_mem_ancestors ?_ (fun he => h1 (List.append_eq_nil.mp he).2)
      exact (List.prefix_append_right_inj source).mpr (prefix_dropLast_of_proper h2 h3)
    obtain ⟨m3, hm3⟩ := isDir_statNode hdir
    refine (walkPaths_mem fs source _).mpr ⟨?_, ?_, ?_⟩
    · exact statNode_some_mem hm3 (by simp [h1])
    · exact List.isPrefixOf_iff_prefix.mpr ⟨rel2, rfl⟩
    · intro he
      apply h1
      have hlen := congrArg List.length he
      simp at hlen
      exact hlen
  obtain ⟨c1, c2, c3⟩ := extractEntries_replay fs fs2 source dest hw hdest hdne
    hancdest hfresh (walkPaths fs source) fs2 []
    hks0 hsort0 hnd0 hanc0
    (fun k hk h => (List.not_mem_nil _ h))
    (fun r hr => absurd hr (List.not_mem_nil r))
    (fun r hr => absurd hr (List.not_mem_nil r))
    (fun q hq => rfl)
  have hprep : archivePrep Env.allOK fs2 dest = (fs2, true) := by
    unfold archivePrep
    rw [hdestdir]
    rfl
  have hEA : ExtractArchive Env.allOK fs2 entries dest
      = extractEntries Env.allOK fs2 entries (renderRooted dest) := by
    unfold ExtractArchive
    rw [hprep]
    rfl
  rw [hEA, hentries]
  simp only [List.nil_append] at c2 c3
  refine ⟨c1, ?_, ?_⟩
  · intro r hrne2
    by_cases hmem : r ∈ (walkPaths fs source).map (fun k => k.drop source.length)
    · exact c2 r hmem
    · have hnt : ∀ r2 ∈ (walkPaths fs source).map (fun k => k.drop source.length),
          dest ++ r ≠ dest ++ r2 := by
        intro r2 hr2 he
        rw [List.append_cancel_left he] at hmem
        exact hmem hr2
      rw [c3 (dest ++ r) hnt]
      rw [hfresh (dest ++ r) (List.isPrefixOf_iff_prefix.mpr ⟨r, rfl⟩) ?_]
      · cases hsn : statNode fs (source ++ r) with
        | none => rfl
        | some n =>
          exfalso
          have hkmem := statNode_some_mem hsn (by simp [hrne2])
          have hwm : source ++ r ∈ walkPaths fs source := by
            refine (walkPaths_mem fs source _).mpr
              ⟨hkmem, List.isPrefixOf_iff_prefix.mpr ⟨r, rfl⟩, ?_⟩
            intro he
            apply hrne2
            have hlen := congrArg List.length he
            simp at hlen
            exact hlen
          exact hmem (List.mem_map.mpr ⟨source ++ r, hwm, List.drop_left source r⟩)
      · intro he
        apply hrne2
        have hlen := congrArg List.length he
        simp at hlen
        exact hlen
  · intro q hq
    refine c3 q ?_
    intro r hr he
    apply hq
    obtain ⟨k, hkw, hkr⟩ := List.mem_map.mp hr
    obtain ⟨_, hkpre, hkne⟩ := (walkPaths_mem fs source k).mp hkw
    obtain ⟨tk, htk⟩ := List.isPrefixOf_iff_prefix.mp hkpre
    have hrelk : k.drop source.length = tk := by
      rw [← htk]
      exact List.drop_left source tk
    have hrne2 : r ≠ [] := by
      rw [← hkr, hrelk]
      intro he2
      rw [he2, List.append_nil] at htk
      exact hkne htk.symm
    constructor
    · rw [he]
      exact List.isPrefixOf_iff_prefix.mpr ⟨r, rfl⟩
    · rw [he]
      intro he2
      apply hrne2
      have hlen := congrArg List.length he2
      simp at hlen
      exact hlen

/-- Freshness of the destination `/o` in `fsW2dst`: nothing exists strictly
below it. -/
theorem fsW2dst_fresh : ∀ q : Path, (["o".data] : Path).isPrefixOf q = true →
    q ≠ ["o".data] → statNode fsW2dst q = none := by
  intro q h1 h2
  obtain ⟨t, ht⟩ := List.isPrefixOf_iff_prefix.mp h1
  have htne : t ≠ [] := by
    intro he
    rw [he, List.append_nil] at ht
    exact h2 ht.symm
  rw [← ht]
  cases t with
  | nil => exact absurd rfl htne
  | cons c ts => simp [statNode, fsW2dst, List.find?]

theorem C2_witness :
    WfFs fsW2 ∧ WfFs fsW2dst ∧
    CompressDirectory fsW2 ["s".data] ["z.zip".data] = some entriesW2 ∧
    ((ExtractArchive Env.allOK fsW2dst entriesW2 ["o".data]).2 = true ∧
     (∀ r : Path, r ≠ [] →
       statNode (ExtractArchive Env.allOK fsW2dst entriesW2 ["o".data]).1
         (["o".data] ++ r) = statNode fsW2 (["s".data] ++ r)) ∧
     (∀ q : Path, ¬ ((["o".data] : Path).isPrefixOf q = true ∧ q ≠ ["o".data]) →
       statNode (ExtractArchive Env.allOK fsW2dst entriesW2 ["o".data]).1 q
         = statNode fsW2dst q)) :=
  ⟨by decide, by decide, by decide,
   C2_roundtrip fsW2 fsW2dst ["s".data] ["z.zip".data] ["o".data] entriesW2
     (by decide) (by decide) (by decide) (by decide) (by decide)
     fsW2dst_fresh (by decide) (by decide)⟩

end Ufs
